import Mathlib

/-!
# Catalog graph model of `pkg/operator/diff/internal`

A shallow embedding of `diff_model.go` and `diff_property.go`: the graph model
(`DiffModel`, `DiffPackage`, `DiffChannel`, `DiffBundle`), the head resolver
`DiffChannel.Head`, the normalizer `DiffModel.Normalize`, the builder
`ConvertDeclcfgToDiffModel` and the serializer `ConvertDiffModelToDeclcfg`.

Modelling conventions.

* A Go `string` and a Go `[]byte` are Lean `String`s. Go compares strings byte-wise; on
  valid UTF-8 this is the code-point order that `String` carries.
* A Go `map[string]V` is an association list `GoMap V`. The order of the list is the order
  in which a `range` loop visits the map; statements about "whatever traversal order" are
  statements about every permutation of the list.
* A nil slice and an empty slice are both `[]`.
* The model is a tree: a catalog owns its packages, a package its channels, a channel its
  bundle views. A non-owning pointer (`DiffChannel.Package`, `DiffBundle.Package`,
  `DiffBundle.Channel`, `DiffPackage.DefaultChannel`) is represented by the `Name` of the
  object it points to; the code never reassigns a `Name` and reads nothing else through
  these pointers.
* `fmt.Errorf` values of the builder are the constructors of `ConvertError`, one per call
  site, carrying the formatted arguments.
* The library calls (`json.Unmarshal`, `semver.Parse`, `property.Build`) are fields of `Lib`.
-/

set_option autoImplicit false

namespace OcMirror

/-! ## Strings and sorting -/

/-- Go's `a < b` on strings, as a boolean that evaluates by structural recursion. -/
def strLt (a b : String) : Bool := decide (a.toList < b.toList)

/-- Go's `sort.Slice(xs, less)`, as an insertion sort by "not greater than".
`sort.Slice` is not stable: where two distinct elements are equivalent under `less`
the order Go leaves them in is unspecified, and this definition fixes one. -/
def sortSlice {α : Type} (less : α → α → Bool) (l : List α) : List α :=
  List.insertionSort (fun a b => less b a = false) l

/-- Go's `sort.Strings`. -/
def sortStrings (l : List String) : List String := sortSlice strLt l

/-! ## Go maps and string sets -/

/-- A Go `map[string]β`: an association list, visited in list order. -/
abbrev GoMap (β : Type) := List (String × β)

namespace GoMap

variable {β : Type}

/-- The Go expression `v, ok := m[k]`. -/
def lookup (k : String) : GoMap β → Option β
  | [] => none
  | (k', v) :: m => if k' = k then some v else lookup k m

/-- The Go statement `m[k] = v`. -/
def insert (k : String) (v : β) : GoMap β → GoMap β
  | [] => [(k, v)]
  | (k', v') :: m => if k' = k then (k, v) :: m else (k', v') :: insert k v m

/-- The keys, in traversal order. -/
def keys (m : GoMap β) : List String := m.map Prod.fst

/-- The values, in traversal order. -/
def values (m : GoMap β) : List β := m.map Prod.snd

end GoMap

/-- The type `sets.String` of `k8s.io/apimachinery`: a set of strings, kept as a list
without repetition. -/
abbrev StringSet := List String

namespace StringSet

/-- The method `Insert`. -/
def insert (s : StringSet) (x : String) : StringSet := if x ∈ s then s else s ++ [x]

/-- The method `Delete`. -/
def delete (s : StringSet) (x : String) : StringSet := s.filter (fun y => y ≠ x)

/-- The method `Has`. -/
def has (s : StringSet) (x : String) : Bool := decide (x ∈ s)

/-- The method `List`: the members, sorted. -/
def list (s : StringSet) : List String := sortStrings s

end StringSet

deriving instance DecidableEq for Except

/-- A loop with early return: fold `f` over the list, stopping at the first error. -/
def foldE {σ α ε : Type} (f : σ → α → Except ε σ) : σ → List α → Except ε σ
  | s, [] => .ok s
  | s, a :: as =>
    match f s a with
    | .error e => .error e
    | .ok s' => foldE f s' as

/-! ## Library types -/

/-- The record `property.Property`: a type tag and a raw JSON value. -/
structure property.Property where
  Type_ : String
  Value : String
deriving DecidableEq, Repr

/-- The record `property.Package`, the decoded `olm.package` property. -/
structure property.Package where
  PackageName : String
  Version : String
deriving DecidableEq, Repr

/-- The record `property.PackageRequired`. -/
structure property.PackageRequired where
  PackageName : String
  VersionRange : String
deriving DecidableEq, Repr

/-- The record `property.GVK`. -/
structure property.GVK where
  Group : String
  Kind : String
  Version : String
deriving DecidableEq, Repr

/-- The record `property.GVKRequired`. -/
structure property.GVKRequired where
  Group : String
  Kind : String
  Version : String
deriving DecidableEq, Repr

/-- The record `property.BundleObject`. -/
structure property.BundleObject where
  Data : String
deriving DecidableEq, Repr

/-- The record `property.Properties`: the decoded properties by category. -/
structure property.Properties where
  Packages : List property.Package := []
  PackagesRequired : List property.PackageRequired := []
  GVKs : List property.GVK := []
  GVKsRequired : List property.GVKRequired := []
  BundleObjects : List property.BundleObject := []
  Others : List property.Property := []
deriving DecidableEq, Repr

/-- A pre-release component `semver.PRVersion`. -/
structure semver.PRVersion where
  VersionStr : String
  VersionNum : Nat
  IsNum : Bool
deriving DecidableEq, Repr

/-- The record `semver.Version`. -/
structure semver.Version where
  Major : Nat := 0
  Minor : Nat := 0
  Patch : Nat := 0
  Pre : List semver.PRVersion := []
  Build : List String := []
deriving DecidableEq, Repr

/-- The record `DiffChannelProperty` of `diff_property.go`. -/
structure DiffChannelProperty where
  ChannelName : String
  Priority : Int
deriving DecidableEq, Repr

/-- The library functions the package calls. `build_stable` records that the canonical
encoder, applied to its own successful output, returns that output or fails; the bundle
views that `ConvertDeclcfgToDiffModel` fills from one bundle record share the backing array
of `Properties`, so `Normalize` re-encodes that array once per view, and under
`build_stable` this is the same as re-encoding each view's list once. -/
structure Lib where
  unmarshalPackage : String → Option property.Package
  unmarshalPackageRequired : String → Option property.PackageRequired
  unmarshalGVK : String → Option property.GVK
  unmarshalGVKRequired : String → Option property.GVKRequired
  unmarshalBundleObject : String → Option property.BundleObject
  unmarshalChannel : String → Option DiffChannelProperty
  unmarshalRaw : String → Bool
  semverParse : String → Option semver.Version
  build : property.Property → Option property.Property
  build_stable : ∀ p q, build p = some q → build q = some q ∨ build q = none

/-- The constant `property.TypePackage`. -/
def property.TypePackage : String := "olm.package"
/-- The constant `property.TypePackageRequired`. -/
def property.TypePackageRequired : String := "olm.package.required"
/-- The constant `property.TypeGVK`. -/
def property.TypeGVK : String := "olm.gvk"
/-- The constant `property.TypeGVKRequired`. -/
def property.TypeGVKRequired : String := "olm.gvk.required"
/-- The constant `property.TypeBundleObject`. -/
def property.TypeBundleObject : String := "olm.bundle.object"

/-- One iteration of the loop of the library function `property.Parse`: decode the property
at index `i` by its type tag and append it to its category; a value that does not decode
is the error `ParseError{Idx, Typ}`. -/
def property.parseStep (L : Lib) (st : Nat × property.Properties) (prop : property.Property) :
    Except (Nat × String) (Nat × property.Properties) :=
  let i := st.1
  let out := st.2
  if prop.Type_ = property.TypePackage then
    match L.unmarshalPackage prop.Value with
    | none => .error (i, prop.Type_)
    | some p => .ok (i + 1, { out with Packages := out.Packages ++ [p] })
  else if prop.Type_ = property.TypePackageRequired then
    match L.unmarshalPackageRequired prop.Value with
    | none => .error (i, prop.Type_)
    | some p => .ok (i + 1, { out with PackagesRequired := out.PackagesRequired ++ [p] })
  else if prop.Type_ = property.TypeGVK then
    match L.unmarshalGVK prop.Value with
    | none => .error (i, prop.Type_)
    | some p => .ok (i + 1, { out with GVKs := out.GVKs ++ [p] })
  else if prop.Type_ = property.TypeGVKRequired then
    match L.unmarshalGVKRequired prop.Value with
    | none => .error (i, prop.Type_)
    | some p => .ok (i + 1, { out with GVKsRequired := out.GVKsRequired ++ [p] })
  else if prop.Type_ = property.TypeBundleObject then
    match L.unmarshalBundleObject prop.Value with
    | none => .error (i, prop.Type_)
    | some p => .ok (i + 1, { out with BundleObjects := out.BundleObjects ++ [p] })
  else
    if L.unmarshalRaw prop.Value then .ok (i + 1, { out with Others := out.Others ++ [prop] })
    else .error (i, prop.Type_)

/-- The library function `property.Parse`, of which `Parse` in `diff_property.go` is the
copy extended by the `olm.channel` case. -/
def property.Parse (L : Lib) (props : List property.Property) :
    Except (Nat × String) property.Properties :=
  match foldE (property.parseStep L) (0, {}) props with
  | .error e => .error e
  | .ok st => .ok st.2

/-- The library function `property.Deduplicate`: keep the first occurrence of every
(type, value) pair. -/
def property.Deduplicate : List property.Property → List property.Property
  | [] => []
  | p :: ps => p :: (property.Deduplicate ps).filter (fun q => q ≠ p)

/-! ## The flat format (`declcfg`) -/

/-- The record `declcfg.Icon`. -/
structure declcfg.Icon where
  Data : String
  MediaType : String
deriving DecidableEq, Repr

/-- The record `declcfg.Package`. -/
structure declcfg.Package where
  Schema : String := ""
  Name : String
  DefaultChannel : String := ""
  Icon : Option declcfg.Icon := none
  Description : String := ""
deriving DecidableEq, Repr

/-- The record `declcfg.ChannelEntry`. -/
structure declcfg.ChannelEntry where
  Name : String
  Replaces : String := ""
  Skips : List String := []
  SkipRange : String := ""
deriving DecidableEq, Repr

/-- The record `declcfg.Channel`. -/
structure declcfg.Channel where
  Schema : String := ""
  Name : String
  Package : String
  Entries : List declcfg.ChannelEntry := []
  Properties : List property.Property := []
deriving DecidableEq, Repr

/-- The record `declcfg.RelatedImage`. -/
structure declcfg.RelatedImage where
  Name : String
  Image : String
deriving DecidableEq, Repr

/-- The record `declcfg.Bundle`. -/
structure declcfg.Bundle where
  Schema : String := ""
  Name : String
  Package : String
  Image : String := ""
  Properties : List property.Property := []
  RelatedImages : List declcfg.RelatedImage := []
  CsvJSON : String := ""
  Objects : List String := []
deriving DecidableEq, Repr

/-- The record `declcfg.DeclarativeConfig`, restricted to the three lists the package reads
and writes. -/
structure declcfg.DeclarativeConfig where
  Packages : List declcfg.Package := []
  Channels : List declcfg.Channel := []
  Bundles : List declcfg.Bundle := []
deriving DecidableEq, Repr

/-- The constant `declcfg.SchemaPackage`. -/
def declcfg.SchemaPackage : String := "olm.package"
/-- The constant `declcfg.SchemaChannel`. -/
def declcfg.SchemaChannel : String := "olm.channel"
/-- The constant `declcfg.SchemaBundle`. -/
def declcfg.SchemaBundle : String := "olm.bundle"

/-! ## The graph model -/

/-- The record `model.Icon`. -/
structure model.Icon where
  Data : String
  MediaType : String
deriving DecidableEq, Repr

/-- The record `model.RelatedImage`. -/
structure model.RelatedImage where
  Name : String
  Image : String
deriving DecidableEq, Repr

/-- The library function `declcfg.RelatedImagesToModelRelatedImages`. -/
def declcfg.RelatedImagesToModelRelatedImages (l : List declcfg.RelatedImage) :
    List model.RelatedImage :=
  l.map (fun ri => { Name := ri.Name, Image := ri.Image })

/-- The library function `declcfg.ModelRelatedImagesToRelatedImages`. -/
def declcfg.ModelRelatedImagesToRelatedImages (l : List model.RelatedImage) :
    List declcfg.RelatedImage :=
  l.map (fun ri => { Name := ri.Name, Image := ri.Image })

/-- The record `DiffBundle`: the fields of the embedded `model.Bundle` and the two
back-references. -/
structure DiffBundle where
  Name : String
  Image : String := ""
  Replaces : String := ""
  Skips : List String := []
  SkipRange : String := ""
  Properties : List property.Property := []
  RelatedImages : List model.RelatedImage := []
  Objects : List String := []
  CsvJSON : String := ""
  PropertiesP : Option property.Properties := none
  Version : semver.Version := {}
  Package : String
  Channel : String
deriving DecidableEq, Repr

/-- The record `DiffChannel`. -/
structure DiffChannel where
  Name : String
  Package : String
  Bundles : GoMap DiffBundle := []
  Properties : List property.Property := []
deriving DecidableEq, Repr

/-- The record `DiffPackage`. -/
structure DiffPackage where
  Name : String
  Description : String := ""
  Icon : Option model.Icon := none
  DefaultChannel : Option String := none
  Channels : GoMap DiffChannel := []
deriving DecidableEq, Repr

/-- The type `DiffModel`. -/
abbrev DiffModel := GoMap DiffPackage

/-! ## Head resolution -/

/-- The Go statement `incoming[k]++`. -/
def incr (k : String) (incoming : GoMap Nat) : GoMap Nat :=
  incoming.insert k ((incoming.lookup k).getD 0 + 1)

/-- The body of the first loop of `Head`: count the edges leaving one bundle. -/
def DiffChannel.Head.addEdges (incoming : GoMap Nat) (b : DiffBundle) : GoMap Nat :=
  let incoming := if b.Replaces ≠ "" then incr b.Replaces incoming else incoming
  b.Skips.foldl (fun inc skip => incr skip inc) incoming

/-- The map `incoming` after the first loop of `Head`. -/
def DiffChannel.Head.incoming (c : DiffChannel) : GoMap Nat :=
  c.Bundles.values.foldl DiffChannel.Head.addEdges []

/-- The slice `heads` after the second loop of `Head`. -/
def DiffChannel.Head.heads (c : DiffChannel) : List DiffBundle :=
  c.Bundles.values.filter (fun b => ((DiffChannel.Head.incoming c).lookup b.Name).isNone)

/-- The method `DiffChannel.Head`. -/
def DiffChannel.Head (c : DiffChannel) : Except String DiffBundle :=
  let heads := DiffChannel.Head.heads c
  if heads.length = 0 then
    .error "no channel head found in graph"
  else if heads.length > 1 then
    let headNames := sortStrings (heads.map (fun head => head.Name))
    .error ("multiple channel heads found in graph: " ++ ", ".intercalate headNames)
  else
    match heads with
    | b :: _ => .ok b
    | [] => .error "no channel head found in graph"

/-! ## Normalization -/

/-- The body of the innermost loop of `Normalize`: replace the property by its canonical
encoding when `property.Build` succeeds, keep it otherwise. -/
def normalizeProperty (L : Lib) (p : property.Property) : property.Property :=
  match L.build p with
  | some normalized => normalized
  | none => p

/-- The loop of `Normalize` over the properties of one bundle. -/
def DiffBundle.Normalize (L : Lib) (b : DiffBundle) : DiffBundle :=
  { b with Properties := b.Properties.map (normalizeProperty L) }

/-- The loop of `Normalize` over the bundles of one channel. -/
def DiffChannel.Normalize (L : Lib) (ch : DiffChannel) : DiffChannel :=
  { ch with Bundles := ch.Bundles.map (fun kv => (kv.1, kv.2.Normalize L)) }

/-- The loop of `Normalize` over the channels of one package. -/
def DiffPackage.Normalize (L : Lib) (pkg : DiffPackage) : DiffPackage :=
  { pkg with Channels := pkg.Channels.map (fun kv => (kv.1, kv.2.Normalize L)) }

/-- The method `DiffModel.Normalize`. -/
def DiffModel.Normalize (L : Lib) (m : DiffModel) : DiffModel :=
  m.map (fun kv => (kv.1, kv.2.Normalize L))

/-! ## The builder -/

/-- The errors of `ConvertDeclcfgToDiffModel`, one constructor per `fmt.Errorf`, in source
order, with the arguments of the format string. -/
inductive ConvertError where
  | packageNoName
  | duplicatePackage (name : String)
  | unknownPackageForChannel (pkg ch : String)
  | channelNoName (pkg : String)
  | duplicateChannel (pkg ch : String)
  | duplicateEntry (pkg ch entry : String)
  | bundleNoPackage (bundle : String)
  | unknownPackageForBundle (pkg bundle : String)
  | duplicateBundle (pkg bundle : String)
  | parseProperties (bundle : String) (idx : Nat) (typ : String)
  | packagePropertyCount (pkg bundle : String) (found : Nat)
  | packageMismatch (pkg propPkg : String)
  | versionParse (bundle rawVersion : String)
  | bundleNotInChannel (pkg bundle : String)
  | noBundleBlobs (pkg : String) (entries : List String)
deriving DecidableEq, Repr

/-- The body of the loop over `inputDeclcfg.Packages`; the state is `mpkgs` and
`defaultChannels`. -/
def buildPackage (st : DiffModel × GoMap String) (p : declcfg.Package) :
    Except ConvertError (DiffModel × GoMap String) :=
  if p.Name = "" then .error .packageNoName
  else if (st.1.lookup p.Name).isSome then .error (.duplicatePackage p.Name)
  else
    let mpkg : DiffPackage :=
      { Name := p.Name
        Description := p.Description
        Icon := p.Icon.map (fun i => { Data := i.Data, MediaType := i.MediaType })
        Channels := [] }
    .ok (st.1.insert p.Name mpkg, st.2.insert p.Name p.DefaultChannel)

/-- The body of the loop over `c.Entries`; the state is `mch.Bundles` and `cde`. -/
def buildEntry (mpkg : DiffPackage) (c : declcfg.Channel)
    (st : GoMap DiffBundle × StringSet) (entry : declcfg.ChannelEntry) :
    Except ConvertError (GoMap DiffBundle × StringSet) :=
  if (st.1.lookup entry.Name).isSome then
    .error (.duplicateEntry c.Package c.Name entry.Name)
  else
    .ok (st.1.insert entry.Name
          { Name := entry.Name
            Replaces := entry.Replaces
            Skips := entry.Skips
            SkipRange := entry.SkipRange
            Package := mpkg.Name
            Channel := c.Name },
         st.2.insert entry.Name)

/-- The body of the loop over `inputDeclcfg.Channels`; the state is `mpkgs` and
`channelDefinedEntries`. -/
def buildChannel (defaultChannels : GoMap String) (st : DiffModel × GoMap StringSet)
    (c : declcfg.Channel) : Except ConvertError (DiffModel × GoMap StringSet) :=
  match st.1.lookup c.Package with
  | none => .error (.unknownPackageForChannel c.Package c.Name)
  | some mpkg =>
    if c.Name = "" then .error (.channelNoName c.Package)
    else if (mpkg.Channels.lookup c.Name).isSome then
      .error (.duplicateChannel c.Package c.Name)
    else
      match foldE (buildEntry mpkg c) ([], []) c.Entries with
      | .error e => .error e
      | .ok (bundles, cde) =>
        let mch : DiffChannel :=
          { Name := c.Name, Package := mpkg.Name, Bundles := bundles, Properties := c.Properties }
        let channelDefinedEntries := st.2.insert c.Package cde
        let mpkg := { mpkg with Channels := mpkg.Channels.insert c.Name mch }
        let defaultChannelName := (defaultChannels.lookup c.Package).getD ""
        let mpkg :=
          if defaultChannelName = c.Name then { mpkg with DefaultChannel := some mch.Name }
          else mpkg
        .ok (st.1.insert c.Package mpkg, channelDefinedEntries)

/-- The state of the loop over `inputDeclcfg.Bundles`. -/
structure BundleState where
  mpkgs : DiffModel
  channelDefinedEntries : GoMap StringSet
  packageBundles : GoMap StringSet
deriving DecidableEq, Repr

/-- The assignments to `mb` in the loop over `mpkg.Channels`. -/
def fillBundle (b : declcfg.Bundle) (props : property.Properties) (ver : semver.Version)
    (mb : DiffBundle) : DiffBundle :=
  { mb with
    Image := b.Image
    Properties := b.Properties
    RelatedImages := declcfg.RelatedImagesToModelRelatedImages b.RelatedImages
    CsvJSON := b.CsvJSON
    Objects := b.Objects
    PropertiesP := some props
    Version := ver }

/-- The body of the loop over `mpkg.Channels`: fill the view named `b.Name`, if any. -/
def fillChannel (b : declcfg.Bundle) (props : property.Properties) (ver : semver.Version)
    (mch : DiffChannel) : DiffChannel :=
  match mch.Bundles.lookup b.Name with
  | some mb => { mch with Bundles := mch.Bundles.insert b.Name (fillBundle b props ver mb) }
  | none => mch

/-- The body of the loop over `inputDeclcfg.Bundles`. -/
def buildBundle (L : Lib) (st : BundleState) (b : declcfg.Bundle) :
    Except ConvertError BundleState :=
  if b.Package = "" then .error (.bundleNoPackage b.Name)
  else
    match st.mpkgs.lookup b.Package with
    | none => .error (.unknownPackageForBundle b.Package b.Name)
    | some mpkg =>
      let bundles : StringSet := (st.packageBundles.lookup b.Package).getD []
      if bundles.has b.Name then .error (.duplicateBundle b.Package b.Name)
      else
        let packageBundles := st.packageBundles.insert b.Package (bundles.insert b.Name)
        match property.Parse L b.Properties with
        | .error e => .error (.parseProperties b.Name e.1 e.2)
        | .ok props =>
          if props.Packages.length ≠ 1 then
            .error (.packagePropertyCount b.Package b.Name props.Packages.length)
          else
            match props.Packages with
            | [] => .error (.packagePropertyCount b.Package b.Name 0)
            | pp :: _ =>
              if b.Package ≠ pp.PackageName then
                .error (.packageMismatch b.Package pp.PackageName)
              else
                match L.semverParse pp.Version with
                | none => .error (.versionParse b.Name pp.Version)
                | some ver =>
                  let channelDefinedEntries :=
                    st.channelDefinedEntries.insert b.Package
                      (((st.channelDefinedEntries.lookup b.Package).getD []).delete b.Name)
                  let found :=
                    mpkg.Channels.any (fun kv => (kv.2.Bundles.lookup b.Name).isSome)
                  let mpkg :=
                    { mpkg with
                      Channels := mpkg.Channels.map (fun kv => (kv.1, fillChannel b props ver kv.2)) }
                  if !found then .error (.bundleNotInChannel b.Package b.Name)
                  else
                    .ok { mpkgs := st.mpkgs.insert b.Package mpkg
                          channelDefinedEntries := channelDefinedEntries
                          packageBundles := packageBundles }

/-- The loop over `channelDefinedEntries`: the first package visited that still has
awaiting entries is the error. -/
def checkEntries : GoMap StringSet → Except ConvertError Unit
  | [] => .ok ()
  | (pkg, entries) :: rest =>
    if entries.length > 0 then .error (.noBundleBlobs pkg (StringSet.list entries))
    else checkEntries rest

/-- The body of the last loop of the builder: synthesize the default channel of a package
whose declared default matched no channel record. -/
def backfillDefault (defaultChannels : GoMap String) (mpkg : DiffPackage) : DiffPackage :=
  let defaultChannelName := (defaultChannels.lookup mpkg.Name).getD ""
  if defaultChannelName ≠ "" ∧ mpkg.DefaultChannel = none then
    let dch : DiffChannel := { Name := defaultChannelName, Package := mpkg.Name, Bundles := [] }
    { mpkg with DefaultChannel := some dch.Name, Channels := mpkg.Channels.insert dch.Name dch }
  else mpkg

/-- The function `ConvertDeclcfgToDiffModel`. -/
def ConvertDeclcfgToDiffModel (L : Lib) (inputDeclcfg : declcfg.DeclarativeConfig) :
    Except ConvertError DiffModel :=
  match foldE buildPackage ([], []) inputDeclcfg.Packages with
  | .error e => .error e
  | .ok (mpkgs, defaultChannels) =>
    match foldE (buildChannel defaultChannels) (mpkgs, []) inputDeclcfg.Channels with
    | .error e => .error e
    | .ok (mpkgs, channelDefinedEntries) =>
      match foldE (buildBundle L) ⟨mpkgs, channelDefinedEntries, []⟩ inputDeclcfg.Bundles with
      | .error e => .error e
      | .ok st =>
        match checkEntries st.channelDefinedEntries with
        | .error e => .error e
        | .ok _ =>
          let mpkgs : DiffModel :=
            st.mpkgs.map (fun kv => (kv.1, backfillDefault defaultChannels kv.2))
          .ok (DiffModel.Normalize L mpkgs)

/-! ## The serializer -/

/-- The body of the loop over `ch.Bundles` in `traverseModelChannels`; the state is
`c.Entries` and `bundleMap`. -/
def traverseBundle (st : List declcfg.ChannelEntry × GoMap declcfg.Bundle) (chb : DiffBundle) :
    List declcfg.ChannelEntry × GoMap declcfg.Bundle :=
  let entries := st.1 ++
    [{ Name := chb.Name, Replaces := chb.Replaces, Skips := chb.Skips, SkipRange := chb.SkipRange }]
  let b : declcfg.Bundle :=
    match st.2.lookup chb.Name with
    | some b => b
    | none =>
      { Schema := declcfg.SchemaBundle
        Name := chb.Name
        Package := chb.Package
        Image := chb.Image
        RelatedImages := declcfg.ModelRelatedImagesToRelatedImages chb.RelatedImages
        CsvJSON := chb.CsvJSON
        Objects := chb.Objects }
  (entries, st.2.insert chb.Name { b with Properties := b.Properties ++ chb.Properties })

/-- The comparison of the `sort.Slice` call on `c.Entries`. -/
def entryLess (a b : declcfg.ChannelEntry) : Bool := strLt a.Name b.Name

/-- The body of the loop over `mpkg.Channels` in `traverseModelChannels`; the state is
`channels` and `bundleMap`. -/
def traverseChannel (st : List declcfg.Channel × GoMap declcfg.Bundle) (ch : DiffChannel) :
    List declcfg.Channel × GoMap declcfg.Bundle :=
  let r := ch.Bundles.values.foldl traverseBundle ([], st.2)
  let c : declcfg.Channel :=
    { Schema := declcfg.SchemaChannel
      Name := ch.Name
      Entries := sortSlice entryLess r.1
      Properties := ch.Properties
      Package := ch.Package }
  (st.1 ++ [c], r.2)

/-- The comparison of the `sort.Slice` call on `b.Properties`. -/
def propertyLess (a b : property.Property) : Bool :=
  if a.Type_ ≠ b.Type_ then strLt a.Type_ b.Type_ else strLt a.Value b.Value

/-- The body of the loop over `bundleMap` in `traverseModelChannels`. -/
def finishBundle (b : declcfg.Bundle) : declcfg.Bundle :=
  { b with Properties := sortSlice propertyLess (property.Deduplicate b.Properties) }

/-- The function `traverseModelChannels` (its diagnostic `fmt.Printf` left out). -/
def traverseModelChannels (mpkg : DiffPackage) : List declcfg.Channel × List declcfg.Bundle :=
  let r := mpkg.Channels.values.foldl traverseChannel ([], [])
  (r.1, r.2.values.map finishBundle)

/-- The body of the loop over `inputDiffModel` in `ConvertDiffModelToDeclcfg`. -/
def emitPackage (cfg : declcfg.DeclarativeConfig) (mpkg : DiffPackage) :
    declcfg.DeclarativeConfig :=
  let r := traverseModelChannels mpkg
  let i : Option declcfg.Icon :=
    mpkg.Icon.map (fun icon => { Data := icon.Data, MediaType := icon.MediaType })
  let defaultChannel : String :=
    match mpkg.DefaultChannel with
    | some name => name
    | none => ""
  { Packages := cfg.Packages ++
      [{ Schema := declcfg.SchemaPackage
         Name := mpkg.Name
         DefaultChannel := defaultChannel
         Icon := i
         Description := mpkg.Description }]
    Channels := cfg.Channels ++ r.1
    Bundles := cfg.Bundles ++ r.2 }

/-- The comparison of the `sort.Slice` call on `cfg.Packages`. -/
def packageLess (a b : declcfg.Package) : Bool := strLt a.Name b.Name

/-- The comparison of the `sort.Slice` call on `cfg.Channels`. -/
def channelLess (a b : declcfg.Channel) : Bool :=
  if a.Package ≠ b.Package then strLt a.Package b.Package else strLt a.Name b.Name

/-- The comparison of the `sort.Slice` call on `cfg.Bundles`. -/
def bundleLess (a b : declcfg.Bundle) : Bool :=
  if a.Package ≠ b.Package then strLt a.Package b.Package else strLt a.Name b.Name

/-- The function `ConvertDiffModelToDeclcfg`. -/
def ConvertDiffModelToDeclcfg (inputDiffModel : DiffModel) : declcfg.DeclarativeConfig :=
  let cfg := inputDiffModel.values.foldl emitPackage {}
  { Packages := sortSlice packageLess cfg.Packages
    Channels := sortSlice channelLess cfg.Channels
    Bundles := sortSlice bundleLess cfg.Bundles }

/-! ## Incremental insertion -/

/-- The method `DiffModel.AddBundle`. The pointer `b.Package` is dereferenced, so the
package it points to is the argument `bPackage` (and `b.Package.Name` is `bPackage.Name`);
of the channel `b.Channel` points to only the name is read, which is the field `b.Channel`.
In the branch that finds the channel, `ch.Bundles[b.Name] = &b` changes the channel where it
is stored, under the key it was found by. A write to a nil map panics in Go; the maps of the
model are never nil. -/
def DiffModel.AddBundle (m : DiffModel) (b : DiffBundle) (bPackage : DiffPackage) : DiffModel :=
  let p : DiffPackage :=
    match m.lookup bPackage.Name with
    | some present => present
    | none => bPackage
  let p : DiffPackage :=
    match p.Channels.lookup b.Channel with
    | some ch =>
      let stored : DiffBundle := { b with Package := p.Name, Channel := ch.Name }
      let ch : DiffChannel := { ch with Bundles := ch.Bundles.insert b.Name stored }
      let p : DiffPackage := { p with Channels := p.Channels.insert b.Channel ch }
      if p.DefaultChannel = none then { p with DefaultChannel := some ch.Name } else p
    | none =>
      let newCh : DiffChannel := { Name := b.Channel, Package := p.Name, Bundles := [] }
      let stored : DiffBundle := { b with Package := p.Name, Channel := newCh.Name }
      let newCh : DiffChannel := { newCh with Bundles := newCh.Bundles.insert b.Name stored }
      let p : DiffPackage := { p with Channels := p.Channels.insert newCh.Name newCh }
      if p.DefaultChannel = none then { p with DefaultChannel := some newCh.Name } else p
  m.insert bPackage.Name p

/-! ## Property decoding (`diff_property.go`) -/

/-- The constant `TypeChannel`. -/
def TypeChannel : String := "olm.channel"

/-- The record `DiffProperties`: the embedded `property.Properties` and the category
`Channels`. -/
structure DiffProperties extends property.Properties where
  Channels : List DiffChannelProperty := []
deriving DecidableEq, Repr

/-- One iteration of the loop of `Parse`: decode the property at index `i` by its type tag
and append it to its category; a value that does not decode is the error
`property.ParseError{Idx, Typ}`. -/
def parseStep (L : Lib) (st : Nat × DiffProperties) (prop : property.Property) :
    Except (Nat × String) (Nat × DiffProperties) :=
  let i := st.1
  let out := st.2
  if prop.Type_ = property.TypePackage then
    match L.unmarshalPackage prop.Value with
    | none => .error (i, prop.Type_)
    | some p => .ok (i + 1, { out with Packages := out.Packages ++ [p] })
  else if prop.Type_ = property.TypePackageRequired then
    match L.unmarshalPackageRequired prop.Value with
    | none => .error (i, prop.Type_)
    | some p => .ok (i + 1, { out with PackagesRequired := out.PackagesRequired ++ [p] })
  else if prop.Type_ = property.TypeGVK then
    match L.unmarshalGVK prop.Value with
    | none => .error (i, prop.Type_)
    | some p => .ok (i + 1, { out with GVKs := out.GVKs ++ [p] })
  else if prop.Type_ = property.TypeGVKRequired then
    match L.unmarshalGVKRequired prop.Value with
    | none => .error (i, prop.Type_)
    | some p => .ok (i + 1, { out with GVKsRequired := out.GVKsRequired ++ [p] })
  else if prop.Type_ = property.TypeBundleObject then
    match L.unmarshalBundleObject prop.Value with
    | none => .error (i, prop.Type_)
    | some p => .ok (i + 1, { out with BundleObjects := out.BundleObjects ++ [p] })
  else if prop.Type_ = TypeChannel then
    match L.unmarshalChannel prop.Value with
    | none => .error (i, prop.Type_)
    | some p => .ok (i + 1, { out with Channels := out.Channels ++ [p] })
  else
    if L.unmarshalRaw prop.Value then .ok (i + 1, { out with Others := out.Others ++ [prop] })
    else .error (i, prop.Type_)

/-- The function `Parse` of `diff_property.go`. -/
def Parse (L : Lib) (props : List property.Property) : Except (Nat × String) DiffProperties :=
  match foldE (parseStep L) (0, {}) props with
  | .error e => .error e
  | .ok st => .ok st.2

/-! ## Specification-side definitions -/

/-- The number of edges of `b` that name `n`: one if its non-empty `Replaces` is `n`, plus
the number of occurrences of `n` in its `Skips`. -/
def edgeCount (b : DiffBundle) (n : String) : Nat :=
  (if b.Replaces ≠ "" ∧ b.Replaces = n then 1 else 0) + b.Skips.count n

/-- The in-degree of the name `n` in the channel `c`: the edges naming `n`, over all bundles
of the channel. -/
def inDegree (c : DiffChannel) (n : String) : Nat :=
  (c.Bundles.values.map (fun b => edgeCount b n)).sum

/-- The bundles of `c` whose name has in-degree zero, in traversal order. -/
def headCandidates (c : DiffChannel) : List DiffBundle :=
  c.Bundles.values.filter (fun b => inDegree c b.Name = 0)

/-- The map `incoming` holds exactly the non-zero values of the counting function `f`. -/
def Counts (incoming : GoMap Nat) (f : String → Nat) : Prop :=
  ∀ n, incoming.lookup n = if f n = 0 then none else some (f n)

/-- Some bundle of the channel `c` names `n` in its non-empty `Replaces` or in its `Skips`. -/
def namedByEdge (c : DiffChannel) (n : String) : Prop :=
  ∃ b ∈ c.Bundles.values, (b.Replaces ≠ "" ∧ b.Replaces = n) ∨ n ∈ b.Skips

instance (c : DiffChannel) (n : String) : Decidable (namedByEdge c n) := by
  unfold namedByEdge
  infer_instance

/-- The channel `{A replaces nothing, B replaces A}`. -/
def chainChannel : DiffChannel :=
  { Name := "stable", Package := "p"
    Bundles :=
      [("A", { Name := "A", Package := "p", Channel := "stable" }),
       ("B", { Name := "B", Replaces := "A", Package := "p", Channel := "stable" })] }

/-- The channel `{A replaces nothing, B replaces A, C replaces A}`, visited as C, A, B. -/
def forkChannel : DiffChannel :=
  { Name := "stable", Package := "p"
    Bundles :=
      [("C", { Name := "C", Replaces := "A", Package := "p", Channel := "stable" }),
       ("A", { Name := "A", Package := "p", Channel := "stable" }),
       ("B", { Name := "B", Replaces := "A", Package := "p", Channel := "stable" })] }

/-- The channel `{A replaces B, B replaces A}`. -/
def cycleChannel : DiffChannel :=
  { Name := "stable", Package := "p"
    Bundles :=
      [("A", { Name := "A", Replaces := "B", Package := "p", Channel := "stable" }),
       ("B", { Name := "B", Replaces := "A", Package := "p", Channel := "stable" })] }

/-- Replace the value stored under `k`, if any, by its image under `f`. -/
def GoMap.modify {β : Type} (k : String) (f : β → β) (m : GoMap β) : GoMap β :=
  m.map (fun kv => if kv.1 = k then (kv.1, f kv.2) else kv)

/-- The package the builder creates for a package record, before any channel is added. -/
def mkPackage (p : declcfg.Package) : DiffPackage :=
  { Name := p.Name
    Description := p.Description
    Icon := p.Icon.map (fun i => { Data := i.Data, MediaType := i.MediaType })
    Channels := [] }

/-- The bundle view the builder creates for a channel entry, before any bundle record
fills it. -/
def mkStub (pkgName : String) (c : declcfg.Channel) (e : declcfg.ChannelEntry) : DiffBundle :=
  { Name := e.Name
    Replaces := e.Replaces
    Skips := e.Skips
    SkipRange := e.SkipRange
    Package := pkgName
    Channel := c.Name }

/-- The channel the builder creates for a channel record of the package `pkgName`. -/
def mkChannel (pkgName : String) (c : declcfg.Channel) : DiffChannel :=
  { Name := c.Name
    Package := pkgName
    Bundles := c.Entries.map (fun e => (e.Name, mkStub pkgName c e))
    Properties := c.Properties }

/-- The declared default-channel name of the package stored under `k`. -/
def declaredDefault (defaultChannels : GoMap String) (k : String) : String :=
  (defaultChannels.lookup k).getD ""

/-- The package stored under `k` after the channel records `cs` have been added to it. -/
def extendPackage (defaultChannels : GoMap String) (cs : List declcfg.Channel) (k : String)
    (p : DiffPackage) : DiffPackage :=
  { p with
    Channels := p.Channels ++
      (cs.filter (fun c => c.Package = k)).map (fun c => (c.Name, mkChannel p.Name c))
    DefaultChannel :=
      if cs.any (fun c => c.Package = k ∧ c.Name = declaredDefault defaultChannels k) then
        some (declaredDefault defaultChannels k)
      else p.DefaultChannel }

/-- The decoded properties and the parsed version the builder derives from a bundle record,
when every check on the record's properties passes. -/
def decodeBundle (L : Lib) (b : declcfg.Bundle) : Option (property.Properties × semver.Version) :=
  match property.Parse L b.Properties with
  | .error _ => none
  | .ok props =>
    match props.Packages with
    | [pp] =>
      if b.Package = pp.PackageName then (L.semverParse pp.Version).map (fun ver => (props, ver))
      else none
    | _ => none

/-- The channel after the loop over `mpkg.Channels` of one bundle record has visited it. -/
def fillFrom (L : Lib) (b : declcfg.Bundle) (mch : DiffChannel) : DiffChannel :=
  match decodeBundle L b with
  | some pv => fillChannel b pv.1 pv.2 mch
  | none => mch

/-- The package stored under `k` after the bundle records `bs` have been processed. -/
def fillPackage (L : Lib) (bs : List declcfg.Bundle) (k : String) (p : DiffPackage) :
    DiffPackage :=
  { p with
    Channels := p.Channels.map (fun kv =>
      (kv.1, (bs.filter (fun b => b.Package = k)).foldl (fun ch b => fillFrom L b ch) kv.2)) }

/-- The map `defaultChannels` of the builder after the loop over the package records. -/
def declaredDefaults (cfg : declcfg.DeclarativeConfig) : GoMap String :=
  cfg.Packages.map (fun p => (p.Name, p.DefaultChannel))

/-- The package of the catalog that a successful build derives from the package record `p`:
the package created for `p`, extended by the channel records, filled by the bundle records,
given its synthesized default channel, and normalized. -/
def specPackage (L : Lib) (cfg : declcfg.DeclarativeConfig) (p : declcfg.Package) : DiffPackage :=
  DiffPackage.Normalize L
    (backfillDefault (declaredDefaults cfg)
      (fillPackage L cfg.Bundles p.Name
        (extendPackage (declaredDefaults cfg) cfg.Channels p.Name (mkPackage p))))

/-- The checks that every successful build has passed. -/
structure ValidInput (L : Lib) (cfg : declcfg.DeclarativeConfig) : Prop where
  package_name : ∀ p ∈ cfg.Packages, p.Name ≠ ""
  package_unique : (cfg.Packages.map (fun p => p.Name)).Nodup
  channel_package : ∀ c ∈ cfg.Channels, c.Package ∈ cfg.Packages.map (fun p => p.Name)
  channel_name : ∀ c ∈ cfg.Channels, c.Name ≠ ""
  channel_unique : ∀ k,
    ((cfg.Channels.filter (fun c => c.Package = k)).map (fun c => c.Name)).Nodup
  entry_unique : ∀ c ∈ cfg.Channels, (c.Entries.map (fun e => e.Name)).Nodup
  bundle_package : ∀ b ∈ cfg.Bundles,
    b.Package ≠ "" ∧ b.Package ∈ cfg.Packages.map (fun p => p.Name)
  bundle_unique : ∀ k,
    ((cfg.Bundles.filter (fun b => b.Package = k)).map (fun b => b.Name)).Nodup
  bundle_decodes : ∀ b ∈ cfg.Bundles, (decodeBundle L b).isSome
  bundle_listed : ∀ b ∈ cfg.Bundles,
    ∃ c ∈ cfg.Channels, c.Package = b.Package ∧ b.Name ∈ c.Entries.map (fun e => e.Name)

/-- The channel of the catalog that a successful build derives from the channel record `c`:
the channel created for `c`, visited by the fill loop of every bundle record of its package,
and normalized. -/
def specChannel (L : Lib) (cfg : declcfg.DeclarativeConfig) (c : declcfg.Channel) : DiffChannel :=
  DiffChannel.Normalize L
    ((cfg.Bundles.filter (fun b => b.Package = c.Package)).foldl
      (fun ch b => fillFrom L b ch) (mkChannel c.Package c))

/-- The package record `p` declares a default channel that no channel record provides. -/
def needsDefault (cfg : declcfg.DeclarativeConfig) (p : declcfg.Package) : Prop :=
  p.DefaultChannel ≠ "" ∧
    ∀ c ∈ cfg.Channels, ¬ (c.Package = p.Name ∧ c.Name = p.DefaultChannel)

instance (cfg : declcfg.DeclarativeConfig) (p : declcfg.Package) :
    Decidable (needsDefault cfg p) := by
  unfold needsDefault
  infer_instance

/-- The synthesized default channel of the package record `p`, if it needs one. -/
def synthChannels (cfg : declcfg.DeclarativeConfig) (p : declcfg.Package) : GoMap DiffChannel :=
  if needsDefault cfg p then
    [(p.DefaultChannel, { Name := p.DefaultChannel, Package := p.Name })]
  else []

/-- A library instance for the examples: it decodes the `olm.package` value of the package
`p` at version `1.0.0`, accepts every other raw value, parses the version `1.0.0`, and finds
every property already canonical. -/
def exampleLib : Lib where
  unmarshalPackage v :=
    if v = "\x7b\"packageName\":\"p\",\"version\":\"1.0.0\"\x7d" then some ⟨"p", "1.0.0"⟩
    else none
  unmarshalPackageRequired _ := none
  unmarshalGVK _ := none
  unmarshalGVKRequired _ := none
  unmarshalBundleObject _ := none
  unmarshalChannel _ := none
  unmarshalRaw _ := true
  semverParse v := if v = "1.0.0" then some { Major := 1 } else none
  build p := some p
  build_stable := fun p q h => Or.inl (by cases h; rfl)

/-- The `olm.package` property of the package `p` at version `1.0.0`. -/
def examplePackageProperty : property.Property :=
  ⟨"olm.package", "\x7b\"packageName\":\"p\",\"version\":\"1.0.0\"\x7d"⟩

/-- A well-formed input: one package, one channel with the entries `A` and `B replaces A`,
and the two bundle records. -/
def exampleInput : declcfg.DeclarativeConfig :=
  { Packages := [{ Name := "p", DefaultChannel := "stable" }]
    Channels := [{ Name := "stable", Package := "p",
                   Entries := [{ Name := "A" }, { Name := "B", Replaces := "A" }] }]
    Bundles := [{ Name := "B", Package := "p", Image := "img-b",
                  Properties := [examplePackageProperty] },
                { Name := "A", Package := "p", Image := "img-a",
                  Properties := [examplePackageProperty] }] }

/-- An input whose only package declares the default channel `stable` and which has no
channel record. -/
def defaultOnlyInput : declcfg.DeclarativeConfig :=
  { Packages := [{ Name := "p", DefaultChannel := "stable" }] }

/-- An input whose package has two channel records: `c1` lists the entry `foo`, for which
there is no bundle record, and `c2` lists the entry `bar`, for which there is one. -/
def danglingEntryInput : declcfg.DeclarativeConfig :=
  { Packages := [{ Name := "p" }]
    Channels := [{ Name := "c1", Package := "p", Entries := [{ Name := "foo" }] },
                 { Name := "c2", Package := "p", Entries := [{ Name := "bar" }] }]
    Bundles := [{ Name := "bar", Package := "p", Image := "img",
                  Properties := [examplePackageProperty] }] }

/-- The input `danglingEntryInput` with its two channel records in the other order. -/
def danglingEntryInputReordered : declcfg.DeclarativeConfig :=
  { danglingEntryInput with Channels := danglingEntryInput.Channels.reverse }

/-- The channel entry the serializer emits for a bundle view. -/
def entryOf (chb : DiffBundle) : declcfg.ChannelEntry :=
  { Name := chb.Name, Replaces := chb.Replaces, Skips := chb.Skips, SkipRange := chb.SkipRange }

/-- The bundle record the serializer creates at the first view of a bundle name. -/
def newRecord (chb : DiffBundle) : declcfg.Bundle :=
  { Schema := declcfg.SchemaBundle
    Name := chb.Name
    Package := chb.Package
    Image := chb.Image
    RelatedImages := declcfg.ModelRelatedImagesToRelatedImages chb.RelatedImages
    CsvJSON := chb.CsvJSON
    Objects := chb.Objects }

/-- The effect of one bundle view on the serializer's `bundleMap`. -/
def mergeView (bm : GoMap declcfg.Bundle) (chb : DiffBundle) : GoMap declcfg.Bundle :=
  (traverseBundle ([], bm) chb).2

/-- The channel record the serializer emits for a channel. -/
def channelRecord (ch : DiffChannel) : declcfg.Channel :=
  { Schema := declcfg.SchemaChannel
    Name := ch.Name
    Entries := sortSlice entryLess (ch.Bundles.values.map entryOf)
    Properties := ch.Properties
    Package := ch.Package }

/-- The package record the serializer emits for a package. -/
def packageRecord (mpkg : DiffPackage) : declcfg.Package :=
  { Schema := declcfg.SchemaPackage
    Name := mpkg.Name
    DefaultChannel := mpkg.DefaultChannel.getD ""
    Icon := mpkg.Icon.map (fun icon => { Data := icon.Data, MediaType := icon.MediaType })
    Description := mpkg.Description }

/-- The bundle views of a package, channel by channel, in traversal order. -/
def allViews (mpkg : DiffPackage) : List DiffBundle :=
  mpkg.Channels.values.flatMap (fun ch => ch.Bundles.values)

/-- The bundle records the serializer emits for a package. -/
def bundleRecords (mpkg : DiffPackage) : List declcfg.Bundle :=
  ((allViews mpkg).foldl mergeView []).values.map finishBundle

/-- The record stored under the name `n` in the serializer's `bundleMap` after the views
`vs` have been merged into `bm`: the record already stored (or else the record created at
the first view named `n`), with the properties of every view named `n` appended in order. -/
def mergedRecord (bm : GoMap declcfg.Bundle) (vs : List DiffBundle) (n : String) :
    Option declcfg.Bundle :=
  match vs.filter (fun v => v.Name = n) with
  | [] => bm.lookup n
  | v :: rest =>
    some { (bm.lookup n).getD (newRecord v) with
           Properties := ((bm.lookup n).getD (newRecord v)).Properties
             ++ (v :: rest).flatMap (fun x => x.Properties) }

/-- The view stored under `n` after the fill loop of the bundle record `b` has visited its
channel. -/
def fillView (L : Lib) (b : declcfg.Bundle) (n : String) (v : DiffBundle) : DiffBundle :=
  match decodeBundle L b with
  | some pv => if n = b.Name then fillBundle b pv.1 pv.2 v else v
  | none => v

/-- The bundle view of the catalog that a successful build derives from the entry `e` of the
channel record `c`. -/
def specView (L : Lib) (cfg : declcfg.DeclarativeConfig) (c : declcfg.Channel)
    (e : declcfg.ChannelEntry) : DiffBundle :=
  DiffBundle.Normalize L
    ((cfg.Bundles.filter (fun b => b.Package = c.Package)).foldl
      (fun v b => fillView L b e.Name v) (mkStub c.Package c e))

/-- The package record expected back for the package record `p`: `p` with the schema tag. -/
def expectedPackage (p : declcfg.Package) : declcfg.Package :=
  { p with Schema := declcfg.SchemaPackage }

/-- The channel record expected back for the channel record `c`: `c` with the schema tag
and its entries sorted by name. -/
def expectedChannel (c : declcfg.Channel) : declcfg.Channel :=
  { c with Schema := declcfg.SchemaChannel, Entries := sortSlice entryLess c.Entries }

/-- The channel record expected for the synthesized default channel of the package record
`p`. -/
def synthRecord (p : declcfg.Package) : declcfg.Channel :=
  { Schema := declcfg.SchemaChannel, Name := p.DefaultChannel, Package := p.Name
    Entries := [], Properties := [] }

/-- The bundle record expected back for the bundle record `b`: `b` with the schema tag and
its properties normalized, deduplicated and sorted. -/
def expectedBundle (L : Lib) (b : declcfg.Bundle) : declcfg.Bundle :=
  { b with
    Schema := declcfg.SchemaBundle
    Properties := sortSlice propertyLess
      (property.Deduplicate (b.Properties.map (normalizeProperty L))) }

/-- Every entry of every channel record has a bundle record of its name in the channel's
package. -/
def EntriesBacked (cfg : declcfg.DeclarativeConfig) : Prop :=
  ∀ c ∈ cfg.Channels, ∀ e ∈ c.Entries,
    ∃ b ∈ cfg.Bundles, b.Package = c.Package ∧ b.Name = e.Name

instance (cfg : declcfg.DeclarativeConfig) : Decidable (EntriesBacked cfg) := by
  unfold EntriesBacked
  infer_instance

/-- The channel whose only bundle `A` replaces itself. -/
def selfLoopChannel : DiffChannel :=
  { Name := "stable", Package := "p"
    Bundles := [("A", { Name := "A", Replaces := "A", Package := "p", Channel := "stable" })] }

/-- The property's type tag is none of the six tags `Parse` recognizes. -/
def isOtherType (q : property.Property) : Bool :=
  decide (q.Type_ ∉ [property.TypePackage, property.TypePackageRequired, property.TypeGVK,
    property.TypeGVKRequired, property.TypeBundleObject, TypeChannel])

/-- The categories of `out` hold the properties of `props` by type tag: each category lists,
in input order, the decoded values of the properties with its tag, `Others` holds the
properties with an unrecognized tag themselves, each with a well-formed value, and the
category lengths add up to the length of `props`. -/
structure Parsed (L : Lib) (props : List property.Property) (out : DiffProperties) : Prop where
  packages : List.Forall₂ (fun q p => L.unmarshalPackage q.Value = some p)
    (props.filter (fun q => q.Type_ = property.TypePackage)) out.Packages
  packagesRequired : List.Forall₂ (fun q p => L.unmarshalPackageRequired q.Value = some p)
    (props.filter (fun q => q.Type_ = property.TypePackageRequired)) out.PackagesRequired
  gvks : List.Forall₂ (fun q p => L.unmarshalGVK q.Value = some p)
    (props.filter (fun q => q.Type_ = property.TypeGVK)) out.GVKs
  gvksRequired : List.Forall₂ (fun q p => L.unmarshalGVKRequired q.Value = some p)
    (props.filter (fun q => q.Type_ = property.TypeGVKRequired)) out.GVKsRequired
  bundleObjects : List.Forall₂ (fun q p => L.unmarshalBundleObject q.Value = some p)
    (props.filter (fun q => q.Type_ = property.TypeBundleObject)) out.BundleObjects
  channels : List.Forall₂ (fun q p => L.unmarshalChannel q.Value = some p)
    (props.filter (fun q => q.Type_ = TypeChannel)) out.Channels
  others : out.Others = props.filter isOtherType
  others_valid : ∀ q ∈ out.Others, L.unmarshalRaw q.Value = true
  total : out.Packages.length + out.PackagesRequired.length + out.GVKs.length +
    out.GVKsRequired.length + out.BundleObjects.length + out.Channels.length +
    out.Others.length = props.length

/-- The catalog's package for a bundle whose `Package` pointer is `bPackage`, before
`AddBundle`: the package stored under `bPackage.Name`, or `bPackage` itself when there is
none. -/
def packageBefore (m : DiffModel) (bPackage : DiffPackage) : DiffPackage :=
  (m.lookup bPackage.Name).getD bPackage

/-- The channel of the package `p` for the bundle `b`, before `AddBundle`: the channel
stored under `b.Channel`, or the new channel without bundles when there is none. -/
def channelBefore (p : DiffPackage) (b : DiffBundle) : DiffChannel :=
  (p.Channels.lookup b.Channel).getD { Name := b.Channel, Package := p.Name, Bundles := [] }

/-- The channel of the package `p` for the bundle `b`, after `AddBundle`. -/
def channelAfter (p : DiffPackage) (b : DiffBundle) : DiffChannel :=
  { channelBefore p b with
    Bundles := (channelBefore p b).Bundles.insert b.Name
      { b with Package := p.Name, Channel := (channelBefore p b).Name } }

/-- The catalog's package for a bundle whose `Package` pointer is `bPackage`, after
`AddBundle`. -/
def packageAfter (m : DiffModel) (b : DiffBundle) (bPackage : DiffPackage) : DiffPackage :=
  { packageBefore m bPackage with
    Channels := (packageBefore m bPackage).Channels.insert b.Channel
      (channelAfter (packageBefore m bPackage) b)
    DefaultChannel :=
      match (packageBefore m bPackage).DefaultChannel with
      | some d => some d
      | none => some (channelBefore (packageBefore m bPackage) b).Name }

/-- A sequence of `AddBundle` calls; each element is a bundle and the package its `Package`
pointer points to. -/
def addBundles (m : DiffModel) (bs : List (DiffBundle × DiffPackage)) : DiffModel :=
  bs.foldl (fun acc x => acc.AddBundle x.1 x.2) m

/-- Two bundles of the package `p` in the channels `stable` and `beta`. -/
def exampleInsertions : List (DiffBundle × DiffPackage) :=
  [({ Name := "a", Image := "img-a", Package := "p", Channel := "stable" }, { Name := "p" }),
   ({ Name := "b", Image := "img-b", Package := "p", Channel := "beta" }, { Name := "p" })]

/-- The channel `ch'` is the channel `ch` with its bundle map visited in another order. -/
def DiffChannel.Reordered (ch ch' : DiffChannel) : Prop :=
  ch'.Name = ch.Name ∧ ch'.Package = ch.Package ∧ ch'.Properties = ch.Properties ∧
    ch'.Bundles.Perm ch.Bundles

/-- The package `p'` is the package `p` with its channel map, and the bundle map of each of
its channels, visited in another order. -/
def DiffPackage.Reordered (p p' : DiffPackage) : Prop :=
  p'.Name = p.Name ∧ p'.Description = p.Description ∧ p'.Icon = p.Icon ∧
    p'.DefaultChannel = p.DefaultChannel ∧
    ∃ l, l.Perm p.Channels ∧
      List.Forall₂ (fun a a' => a'.1 = a.1 ∧ DiffChannel.Reordered a.2 a'.2) l p'.Channels

/-- The catalog `m'` is the catalog `m` with its package map, its channel maps and its
bundle maps visited in another order. -/
def DiffModel.Reordered (m m' : DiffModel) : Prop :=
  ∃ l, l.Perm m ∧
    List.Forall₂ (fun a a' => a'.1 = a.1 ∧ DiffPackage.Reordered a.2 a'.2) l m'

/-- The names in the catalog identify its objects, and the views of one bundle agree:
packages have distinct names, the channels of a package have distinct names and point back
to it, the views of a channel have distinct names, every view points back to its package,
and the views of one name in the channels of a package have the same image, related images,
manifest payload and objects. -/
structure Unambiguous (m : DiffModel) : Prop where
  package_names : (m.values.map (fun p => p.Name)).Nodup
  channel_owner : ∀ p ∈ m.values, ∀ ch ∈ p.Channels.values, ch.Package = p.Name
  channel_names : ∀ p ∈ m.values, (p.Channels.values.map (fun ch => ch.Name)).Nodup
  view_names : ∀ p ∈ m.values, ∀ ch ∈ p.Channels.values,
    (ch.Bundles.values.map (fun v => v.Name)).Nodup
  view_owner : ∀ p ∈ m.values, ∀ v ∈ allViews p, v.Package = p.Name
  view_agree : ∀ p ∈ m.values, ∀ v ∈ allViews p, ∀ w ∈ allViews p, v.Name = w.Name →
    v.Image = w.Image ∧ v.RelatedImages = w.RelatedImages ∧ v.CsvJSON = w.CsvJSON ∧
      v.Objects = w.Objects

/-- A catalog in which the bundle `x` has the image `i1` in the channel `c1` and the image
`i2` in the channel `c2`, as two calls of `AddBundle` build it. -/
def conflictingViews : DiffModel :=
  addBundles []
    [({ Name := "x", Image := "i1", Package := "p", Channel := "c1" }, { Name := "p" }),
     ({ Name := "x", Image := "i2", Package := "p", Channel := "c2" }, { Name := "p" })]

/-- The catalog `conflictingViews` with the channel map of its package visited in the other
order. -/
def conflictingViewsReordered : DiffModel :=
  conflictingViews.map (fun kv => (kv.1, { kv.2 with Channels := kv.2.Channels.reverse }))

/-- The catalog that `exampleInsertions` builds: the package `p` with the channels `stable`
and `beta`, one bundle each. -/
def twoChannelCatalog : DiffModel := addBundles [] exampleInsertions

/-- The catalog `twoChannelCatalog` with the channel map of its package visited in the
other order. -/
def twoChannelCatalogReordered : DiffModel :=
  twoChannelCatalog.map (fun kv => (kv.1, { kv.2 with Channels := kv.2.Channels.reverse }))

/-! ## Strings, sorting and maps -/

theorem strLt_iff (a b : String) : strLt a b = true ↔ a < b := by
  simp [strLt]

theorem strLt_eq_false_iff (a b : String) : strLt b a = false ↔ a ≤ b := by
  rw [← Bool.not_eq_true, strLt_iff, not_lt]

theorem multiple_ne_none (s : String) :
    "multiple channel heads found in graph: " ++ s ≠ "no channel head found in graph" := by
  intro h
  have h2 := congrArg (fun t => t.data.head?) h
  simp [String.data_append] at h2

theorem sortStrings_eq (l : List String) :
    sortStrings l = List.insertionSort (fun a b => a ≤ b) l := by
  unfold sortStrings sortSlice
  congr 1
  funext a b
  exact propext (strLt_eq_false_iff a b)

theorem sortStrings_sorted (l : List String) : (sortStrings l).Sorted (fun a b => a ≤ b) := by
  rw [sortStrings_eq]
  exact List.sorted_insertionSort _ l

theorem sortStrings_perm (l : List String) : (sortStrings l).Perm l := by
  unfold sortStrings sortSlice
  exact List.perm_insertionSort _ l

theorem sortStrings_congr {l l' : List String} (h : l.Perm l') :
    sortStrings l = sortStrings l' :=
  List.eq_of_perm_of_sorted (((sortStrings_perm l).trans h).trans (sortStrings_perm l').symm)
    (sortStrings_sorted l) (sortStrings_sorted l')

namespace GoMap

variable {β : Type}

theorem lookup_insert (k k' : String) (v : β) (m : GoMap β) :
    lookup k' (insert k v m) = if k = k' then some v else lookup k' m := by
  induction m with
  | nil => simp [insert, lookup]
  | cons kv m ih =>
    obtain ⟨k0, v0⟩ := kv
    simp only [insert]
    split_ifs with h1 h2 h2
    · subst h1; simp [lookup, h2]
    · subst h1; simp [lookup, h2]
    · subst h2; simp [lookup, h1, ih]
    · by_cases h3 : k0 = k' <;> simp [lookup, h3, ih, h2]

end GoMap

namespace GoMap

variable {β : Type}

theorem lookup_eq_none_iff (k : String) (m : GoMap β) : lookup k m = none ↔ k ∉ m.keys := by
  induction m with
  | nil => simp [lookup, keys]
  | cons kv m ih =>
    obtain ⟨k0, v0⟩ := kv
    by_cases h : k0 = k
    · simp [lookup, keys, h]
    · have h2 : ¬ k = k0 := fun e => h e.symm
      simp only [lookup, h, if_false, ih, keys, List.map_cons, List.mem_cons, h2, false_or]

theorem lookup_isSome_iff (k : String) (m : GoMap β) : (lookup k m).isSome ↔ k ∈ m.keys := by
  rw [← not_iff_not, ← lookup_eq_none_iff]
  cases lookup k m <;> simp

theorem mem_of_lookup {k : String} {v : β} {m : GoMap β} (h : lookup k m = some v) :
    (k, v) ∈ m := by
  induction m with
  | nil => simp [lookup] at h
  | cons kv m ih =>
    obtain ⟨k0, v0⟩ := kv
    by_cases hk : k0 = k
    · simp [lookup, hk] at h
      simp [hk, h]
    · simp only [lookup, hk, if_false] at h
      exact List.mem_cons_of_mem _ (ih h)

theorem lookup_of_mem {k : String} {v : β} {m : GoMap β} (hn : m.keys.Nodup)
    (h : (k, v) ∈ m) : lookup k m = some v := by
  induction m with
  | nil => simp at h
  | cons kv m ih =>
    obtain ⟨k0, v0⟩ := kv
    simp only [keys, List.map_cons, List.nodup_cons] at hn
    rcases List.mem_cons.mp h with h1 | h1
    · cases h1
      simp [lookup]
    · have hk : k0 ≠ k := by
        intro e
        subst e
        exact hn.1 (List.mem_map_of_mem Prod.fst h1)
      simp only [lookup, hk, if_false]
      exact ih hn.2 h1

theorem insert_of_not_mem {k : String} (v : β) {m : GoMap β} (h : k ∉ m.keys) :
    insert k v m = m ++ [(k, v)] := by
  induction m with
  | nil => rfl
  | cons kv m ih =>
    obtain ⟨k0, v0⟩ := kv
    simp only [keys, List.map_cons, List.mem_cons, not_or] at h
    have hk : ¬ k0 = k := fun e => h.1 e.symm
    simp only [insert, hk, if_false, List.cons_append]
    rw [ih h.2]

theorem insert_eq_modify {k : String} (v : β) {m : GoMap β} (hn : m.keys.Nodup)
    (h : k ∈ m.keys) : insert k v m = modify k (fun _ => v) m := by
  induction m with
  | nil => simp [keys] at h
  | cons kv m ih =>
    obtain ⟨k0, v0⟩ := kv
    simp only [keys, List.map_cons, List.nodup_cons] at hn
    by_cases hk : k0 = k
    · subst hk
      simp only [insert, if_true, modify, List.map_cons]
      congr 1
      symm
      rw [List.map_congr_left (g := id)]
      · simp
      · rintro ⟨k1, v1⟩ h1
        have : k1 ≠ k0 := by
          intro e
          subst e
          exact hn.1 (List.mem_map_of_mem Prod.fst h1)
        simp [this]
    · have hmem : k ∈ keys m := by
        simp only [keys, List.map_cons, List.mem_cons] at h
        rcases h with h | h
        · exact absurd h.symm hk
        · exact h
      simp only [insert, hk, if_false, modify, List.map_cons]
      congr 1
      exact ih hn.2 hmem

theorem keys_modify (k : String) (f : β → β) (m : GoMap β) : (modify k f m).keys = m.keys := by
  unfold modify keys
  rw [List.map_map]
  apply List.map_congr_left
  intro kv _
  by_cases h : kv.1 = k <;> simp [h]

theorem keys_map_snd {γ : Type} (f : String × β → γ) (m : GoMap β) :
    keys (m.map (fun kv => (kv.1, f kv))) = m.keys := by
  unfold keys
  rw [List.map_map]
  rfl

theorem lookup_map_snd {γ : Type} (f : String → β → γ) (k : String) (m : GoMap β) :
    lookup k (m.map (fun kv => (kv.1, f kv.1 kv.2))) = (lookup k m).map (f k) := by
  induction m with
  | nil => rfl
  | cons kv m ih =>
    obtain ⟨k0, v0⟩ := kv
    by_cases h : k0 = k
    · subst h; simp [lookup]
    · simp [lookup, h, ih]

theorem lookup_append (k : String) (m1 m2 : GoMap β) :
    lookup k (m1 ++ m2) = (lookup k m1).orElse (fun _ => lookup k m2) := by
  induction m1 with
  | nil => simp [lookup]
  | cons kv m ih =>
    obtain ⟨k0, v0⟩ := kv
    by_cases h : k0 = k
    · simp [lookup, h]
    · simp [lookup, h, ih]

end GoMap

theorem foldE_append {σ α ε : Type} (f : σ → α → Except ε σ) (s : σ) (l1 l2 : List α) :
    foldE f s (l1 ++ l2) =
      match foldE f s l1 with
      | .error e => .error e
      | .ok s1 => foldE f s1 l2 := by
  induction l1 generalizing s with
  | nil => rfl
  | cons a l1 ih =>
    simp only [List.cons_append, foldE]
    cases f s a with
    | error e => rfl
    | ok s1 => exact ih s1

theorem GoMap.keys_insert_of_mem {β : Type} {k : String} (v : β) {m : GoMap β}
    (h : k ∈ m.keys) : (GoMap.insert k v m).keys = m.keys := by
  induction m with
  | nil => simp [GoMap.keys] at h
  | cons kv m ih =>
    obtain ⟨k0, v0⟩ := kv
    by_cases hk : k0 = k
    · simp [GoMap.insert, GoMap.keys, hk]
    · have hmem : k ∈ GoMap.keys m := by
        simp only [GoMap.keys, List.map_cons, List.mem_cons] at h
        rcases h with h | h
        · exact absurd h.symm hk
        · exact h
      have := ih hmem
      simp only [GoMap.keys] at this
      simp [GoMap.insert, GoMap.keys, hk, this]

/-! ## Head resolution -/

theorem counts_nil : Counts [] (fun _ => 0) := by
  intro n
  simp [GoMap.lookup]

theorem counts_incr {incoming : GoMap Nat} {f : String → Nat} (h : Counts incoming f)
    (k : String) : Counts (incr k incoming) (fun n => f n + if k = n then 1 else 0) := by
  intro n
  unfold incr
  rw [GoMap.lookup_insert]
  by_cases hk : k = n
  · subst hk
    rw [h k]
    by_cases h0 : f k = 0 <;> simp [h0]
  · simp [hk, h n]

theorem counts_congr {incoming : GoMap Nat} {f g : String → Nat} (h : Counts incoming f)
    (e : ∀ n, f n = g n) : Counts incoming g := by
  have : f = g := funext e
  rw [← this]
  exact h

theorem counts_skips {f : String → Nat} (skips : List String) :
    ∀ {incoming : GoMap Nat}, Counts incoming f →
      Counts (skips.foldl (fun inc skip => incr skip inc) incoming)
        (fun n => f n + skips.count n) := by
  induction skips generalizing f with
  | nil => intro incoming h; simpa using h
  | cons s skips ih =>
    intro incoming h
    simp only [List.foldl_cons]
    refine counts_congr (ih (counts_incr h s)) ?_
    intro n
    rw [List.count_cons]
    by_cases hs : s = n
    · subst hs; simp; omega
    · simp [hs]

theorem counts_addEdges {incoming : GoMap Nat} {f : String → Nat} (h : Counts incoming f)
    (b : DiffBundle) :
    Counts (DiffChannel.Head.addEdges incoming b) (fun n => f n + edgeCount b n) := by
  unfold DiffChannel.Head.addEdges
  by_cases hr : b.Replaces = ""
  · simp only [hr, ne_eq, not_true_eq_false, if_false]
    refine counts_congr (counts_skips b.Skips h) ?_
    intro n
    simp [edgeCount, hr]
  · simp only [ne_eq, hr, not_false_eq_true, if_true]
    refine counts_congr (counts_skips b.Skips (counts_incr h b.Replaces)) ?_
    intro n
    simp [edgeCount, hr, Nat.add_assoc]

theorem counts_foldl (bs : List DiffBundle) :
    ∀ {incoming : GoMap Nat} {f : String → Nat}, Counts incoming f →
      Counts (bs.foldl DiffChannel.Head.addEdges incoming)
        (fun n => f n + (bs.map (fun b => edgeCount b n)).sum) := by
  induction bs with
  | nil => intro incoming f h; simpa using h
  | cons b bs ih =>
    intro incoming f h
    simp only [List.foldl_cons]
    refine counts_congr (ih (counts_addEdges h b)) ?_
    intro n
    simp [Nat.add_assoc]

theorem counts_incoming (c : DiffChannel) :
    Counts (DiffChannel.Head.incoming c) (inDegree c) := by
  refine counts_congr (counts_foldl c.Bundles.values counts_nil) ?_
  intro n
  simp [inDegree]

theorem heads_eq_candidates (c : DiffChannel) :
    DiffChannel.Head.heads c = headCandidates c := by
  unfold DiffChannel.Head.heads headCandidates
  apply List.filter_congr
  intro b _
  rw [counts_incoming c b.Name]
  by_cases h0 : inDegree c b.Name = 0 <;> simp [h0]

theorem head_unfold (c : DiffChannel) :
    c.Head =
      if (headCandidates c).length = 0 then .error "no channel head found in graph"
      else if (headCandidates c).length > 1 then
        .error ("multiple channel heads found in graph: " ++
          ", ".intercalate (sortStrings ((headCandidates c).map (fun head => head.Name))))
      else
        match headCandidates c with
        | b :: _ => .ok b
        | [] => .error "no channel head found in graph" := by
  unfold DiffChannel.Head
  rw [heads_eq_candidates]

theorem inDegree_pos_iff (c : DiffChannel) (n : String) :
    0 < inDegree c n ↔ namedByEdge c n := by
  unfold inDegree namedByEdge
  rw [Nat.pos_iff_ne_zero, Ne, List.sum_eq_zero_iff]
  simp only [List.mem_map, forall_exists_index, and_imp, forall_apply_eq_imp_iff₂, not_forall]
  constructor
  · rintro ⟨b, hb, h⟩
    refine ⟨b, hb, ?_⟩
    unfold edgeCount at h
    by_cases hr : b.Replaces ≠ "" ∧ b.Replaces = n
    · exact Or.inl hr
    · right
      simp only [hr, if_false, Nat.zero_add] at h
      exact List.count_pos_iff.mp (Nat.pos_of_ne_zero h)
  · rintro ⟨b, hb, h⟩
    refine ⟨b, hb, ?_⟩
    unfold edgeCount
    rcases h with h | h
    · rw [if_pos h]
      omega
    · have := List.count_pos_iff.mpr h
      omega

theorem inDegree_perm {c c' : DiffChannel} (h : c'.Bundles.Perm c.Bundles) (n : String) :
    inDegree c' n = inDegree c n := by
  unfold inDegree GoMap.values
  exact ((h.map Prod.snd).map _).sum_eq

theorem headCandidates_perm {c c' : DiffChannel} (h : c'.Bundles.Perm c.Bundles) :
    (headCandidates c').Perm (headCandidates c) := by
  unfold headCandidates GoMap.values
  have e : (fun b : DiffBundle => decide (inDegree c' b.Name = 0))
      = (fun b : DiffBundle => decide (inDegree c b.Name = 0)) := by
    funext b
    rw [inDegree_perm h]
  rw [e]
  exact (h.map Prod.snd).filter _

theorem values_nodup_of_keyed (c : DiffChannel) (hkeys : c.Bundles.keys.Nodup)
    (hnames : ∀ kv ∈ c.Bundles, kv.2.Name = kv.1) : c.Bundles.values.Nodup := by
  have e : c.Bundles.values.map (fun b => b.Name) = c.Bundles.keys := by
    unfold GoMap.values GoMap.keys
    rw [List.map_map]
    apply List.map_congr_left
    intro kv hkv
    exact hnames kv hkv
  have h2 : (c.Bundles.values.map (fun b => b.Name)).Nodup := by
    rw [e]; exact hkeys
  exact List.Nodup.of_map _ h2

theorem eq_singleton_of_all_eq {α : Type} {l : List α} {b : α} (hn : l.Nodup) (hb : b ∈ l)
    (hall : ∀ x ∈ l, x = b) : l = [b] := by
  cases l with
  | nil => simp at hb
  | cons x t =>
    have hx : x = b := hall x (List.mem_cons_self _ _)
    subst hx
    cases t with
    | nil => rfl
    | cons y t2 =>
      have hy : y = x := hall y (by simp)
      subst hy
      simp at hn

/-- C1: on a channel whose bundles are keyed by their names, `Head` returns `b` without
error exactly when `b` is a bundle of the channel, the name of `b` has in-degree zero, and
every bundle of the channel whose name has in-degree zero is `b`. -/
theorem head_ok_iff_unique_zero_indegree (c : DiffChannel)
    (hkeys : c.Bundles.keys.Nodup) (hnames : ∀ kv ∈ c.Bundles, kv.2.Name = kv.1)
    (b : DiffBundle) :
    c.Head = .ok b ↔
      (b ∈ c.Bundles.values ∧ inDegree c b.Name = 0 ∧
        ∀ b' ∈ c.Bundles.values, inDegree c b'.Name = 0 → b' = b) := by
  rw [head_unfold]
  have hmem : ∀ x, x ∈ headCandidates c ↔ x ∈ c.Bundles.values ∧ inDegree c x.Name = 0 := by
    intro x
    simp [headCandidates]
  constructor
  · intro h
    rcases hc : headCandidates c with _ | ⟨x, t⟩
    · simp [hc] at h
    · cases t with
      | cons y t2 => simp [hc] at h
      | nil =>
        simp [hc] at h
        subst h
        have hx := (hmem x).mp (by rw [hc]; simp)
        refine ⟨hx.1, hx.2, ?_⟩
        intro b' hb' h0
        have := (hmem b').mpr ⟨hb', h0⟩
        rw [hc] at this
        simpa using this
  · rintro ⟨hb, h0, huniq⟩
    have hn : (headCandidates c).Nodup :=
      (values_nodup_of_keyed c hkeys hnames).filter _
    have hs : headCandidates c = [b] :=
      eq_singleton_of_all_eq hn ((hmem b).mpr ⟨hb, h0⟩)
        (fun x hx => huniq x ((hmem x).mp hx).1 ((hmem x).mp hx).2)
    simp [hs]

/-- Witness of C1: for `{A replaces nothing, B replaces A}`, `Head` returns `B`. -/
theorem head_ok_iff_unique_zero_indegree_witness :
    chainChannel.Head
      = .ok { Name := "B", Replaces := "A", Package := "p", Channel := "stable" } :=
  (head_ok_iff_unique_zero_indegree chainChannel (by decide) (by decide)
    { Name := "B", Replaces := "A", Package := "p", Channel := "stable" }).mpr (by decide)

/-- C2: on a channel with two or more bundles whose names no edge of the channel names,
`Head` returns the error "multiple channel heads found in graph: " followed by the names of
exactly those bundles, in ascending order, joined by ", "; and it returns the same error
whatever order the bundle map is visited in. -/
theorem head_multiple_heads_error (c : DiffChannel) (h : 2 ≤ (headCandidates c).length) :
    c.Head = .error ("multiple channel heads found in graph: " ++
        ", ".intercalate (sortStrings ((headCandidates c).map (fun b => b.Name)))) ∧
    (sortStrings ((headCandidates c).map (fun b => b.Name))).Sorted (fun a b => a ≤ b) ∧
    (sortStrings ((headCandidates c).map (fun b => b.Name))).Perm
      ((headCandidates c).map (fun b => b.Name)) ∧
    (∀ n, n ∈ sortStrings ((headCandidates c).map (fun b => b.Name)) ↔
      ∃ b ∈ c.Bundles.values, b.Name = n ∧ ¬ namedByEdge c n) ∧
    (∀ c' : DiffChannel, c'.Bundles.Perm c.Bundles → c'.Head = c.Head) := by
  have hhead : ∀ d : DiffChannel, 2 ≤ (headCandidates d).length →
      d.Head = .error ("multiple channel heads found in graph: " ++
        ", ".intercalate (sortStrings ((headCandidates d).map (fun b => b.Name)))) := by
    intro d hd
    rw [head_unfold]
    have h0 : ¬ (headCandidates d).length = 0 := by omega
    have h1 : (headCandidates d).length > 1 := by omega
    rw [if_neg h0, if_pos h1]
  refine ⟨hhead c h, sortStrings_sorted _, sortStrings_perm _, ?_, ?_⟩
  · intro n
    rw [(sortStrings_perm _).mem_iff]
    simp only [headCandidates, List.mem_map, List.mem_filter, decide_eq_true_eq]
    constructor
    · rintro ⟨b, ⟨hb, h0⟩, rfl⟩
      refine ⟨b, hb, rfl, ?_⟩
      rw [← inDegree_pos_iff]
      omega
    · rintro ⟨b, hb, rfl, hne⟩
      refine ⟨b, ⟨hb, ?_⟩, rfl⟩
      rw [← inDegree_pos_iff] at hne
      omega
  · intro c' hp
    have hpc := headCandidates_perm hp
    have hlen : 2 ≤ (headCandidates c').length := by rw [hpc.length_eq]; exact h
    rw [hhead c' hlen, hhead c h, sortStrings_congr (hpc.map _)]

/-- Witness of C2: `{A, B replaces A, C replaces A}`, visited as C, A, B, gives the list
B, C. -/
theorem head_multiple_heads_error_witness :
    forkChannel.Head = .error "multiple channel heads found in graph: B, C" :=
  (head_multiple_heads_error forkChannel (by decide)).1.trans (by decide)

/-- C3: `Head` returns the error "no channel head found in graph" exactly when every bundle
of the channel is named by some edge of the channel; in particular on a channel with no
bundles. -/
theorem head_no_head_iff (c : DiffChannel) :
    (c.Head = .error "no channel head found in graph" ↔
      ∀ b ∈ c.Bundles.values, namedByEdge c b.Name) ∧
    (c.Bundles = [] → c.Head = .error "no channel head found in graph") := by
  have key : c.Head = .error "no channel head found in graph" ↔
      ∀ b ∈ c.Bundles.values, namedByEdge c b.Name := by
    rw [head_unfold]
    have hall : (∀ b ∈ c.Bundles.values, namedByEdge c b.Name) ↔ headCandidates c = [] := by
      rw [headCandidates, List.filter_eq_nil_iff]
      refine forall_congr' (fun b => forall_congr' (fun _ => ?_))
      rw [← inDegree_pos_iff]
      simp only [decide_eq_true_eq]
      omega
    rw [hall]
    rcases hc : headCandidates c with _ | ⟨x, t⟩
    · simp
    · cases t with
      | nil => simp
      | cons y t2 =>
        simp only [List.length_cons, Nat.add_one_ne_zero, if_false, gt_iff_lt,
          Nat.lt_add_left_iff_pos, Nat.zero_lt_succ, if_true, reduceCtorEq, iff_false]
        intro h
        exact multiple_ne_none _ (Except.error.inj h)
  refine ⟨key, ?_⟩
  intro he
  rw [key, he]
  intro b hb
  simp [GoMap.values] at hb

/-- Witness of C3: the cycle `{A replaces B, B replaces A}` has no head. -/
theorem head_no_head_iff_witness :
    cycleChannel.Head = .error "no channel head found in graph" :=
  (head_no_head_iff cycleChannel).1.mpr (by decide)

/-! ## The builder, pass by pass -/

theorem buildPackage_ok {m0 m : DiffModel} {d0 d : GoMap String} {p : declcfg.Package}
    (h : buildPackage (m0, d0) p = .ok (m, d)) :
    p.Name ≠ "" ∧ p.Name ∉ m0.keys ∧ m = m0.insert p.Name (mkPackage p) ∧
      d = d0.insert p.Name p.DefaultChannel := by
  unfold buildPackage at h
  by_cases h1 : p.Name = ""
  · simp [h1] at h
  · by_cases h2 : (GoMap.lookup p.Name m0).isSome
    · simp [h1, h2] at h
    · rw [if_neg h1, if_neg h2] at h
      simp only [Except.ok.injEq, Prod.mk.injEq] at h
      refine ⟨h1, ?_, h.1.symm, h.2.symm⟩
      rw [← GoMap.lookup_isSome_iff]
      exact h2

theorem buildPackages_ok (ps : List declcfg.Package) :
    ∀ (m0 m : DiffModel) (d0 d : GoMap String),
      foldE buildPackage (m0, d0) ps = .ok (m, d) → d0.keys = m0.keys →
      (∀ p ∈ ps, p.Name ≠ "" ∧ p.Name ∉ m0.keys) ∧ (ps.map (fun p => p.Name)).Nodup ∧
      m = m0 ++ ps.map (fun p => (p.Name, mkPackage p)) ∧
      d = d0 ++ ps.map (fun p => (p.Name, p.DefaultChannel)) := by
  induction ps with
  | nil =>
    intro m0 m d0 d h _
    simp only [foldE, Except.ok.injEq, Prod.mk.injEq] at h
    simp [h.1, h.2]
  | cons p ps ih =>
    intro m0 m d0 d h hk
    simp only [foldE] at h
    cases hstep : buildPackage (m0, d0) p with
    | error e => simp [hstep] at h
    | ok st =>
      obtain ⟨m1, d1⟩ := st
      simp only [hstep] at h
      obtain ⟨hne, hfresh, hm1, hd1⟩ := buildPackage_ok hstep
      have hfresh2 : p.Name ∉ d0.keys := by rw [hk]; exact hfresh
      rw [GoMap.insert_of_not_mem _ hfresh] at hm1
      rw [GoMap.insert_of_not_mem _ hfresh2] at hd1
      have hk1 : d1.keys = m1.keys := by
        rw [hm1, hd1]
        simp [GoMap.keys, hk]
        exact hk
      obtain ⟨h1, h2, h3, h4⟩ := ih m1 m d1 d h hk1
      have hkeys1 : m1.keys = m0.keys ++ [p.Name] := by
        rw [hm1]; simp [GoMap.keys]
      refine ⟨?_, ?_, ?_, ?_⟩
      · intro q hq
        rcases List.mem_cons.mp hq with hq | hq
        · subst hq; exact ⟨hne, hfresh⟩
        · have := h1 q hq
          refine ⟨this.1, ?_⟩
          intro hmem
          apply this.2
          rw [hkeys1]
          exact List.mem_append_left _ hmem
      · simp only [List.map_cons, List.nodup_cons]
        refine ⟨?_, h2⟩
        intro hmem
        obtain ⟨q, hq, hqn⟩ := List.mem_map.mp hmem
        apply (h1 q hq).2
        rw [hkeys1, hqn]
        simp
      · rw [h3, hm1]; simp
      · rw [h4, hd1]; simp

theorem buildEntries_ok (mpkg : DiffPackage) (c : declcfg.Channel)
    (es : List declcfg.ChannelEntry) :
    ∀ (bs0 bs : GoMap DiffBundle) (s0 s : StringSet),
      foldE (buildEntry mpkg c) (bs0, s0) es = .ok (bs, s) → s0 = bs0.keys →
      (∀ e ∈ es, e.Name ∉ bs0.keys) ∧ (es.map (fun e => e.Name)).Nodup ∧
      bs = bs0 ++ es.map (fun e => (e.Name, mkStub mpkg.Name c e)) ∧
      s = s0 ++ es.map (fun e => e.Name) := by
  induction es with
  | nil =>
    intro bs0 bs s0 s h _
    simp only [foldE, Except.ok.injEq, Prod.mk.injEq] at h
    simp [h.1, h.2]
  | cons e es ih =>
    intro bs0 bs s0 s h hk
    simp only [foldE] at h
    by_cases hdup : (GoMap.lookup e.Name bs0).isSome
    · simp [buildEntry, hdup] at h
    · have hfresh : e.Name ∉ bs0.keys := by
        rw [← GoMap.lookup_isSome_iff]; exact hdup
      have hstep : buildEntry mpkg c (bs0, s0) e
          = .ok (bs0 ++ [(e.Name, mkStub mpkg.Name c e)], s0 ++ [e.Name]) := by
        unfold buildEntry
        rw [if_neg hdup, GoMap.insert_of_not_mem _ hfresh]
        have : e.Name ∉ s0 := by rw [hk]; exact hfresh
        simp [StringSet.insert, this, mkStub]
      rw [hstep] at h
      simp only at h
      have hk1 : s0 ++ [e.Name] = GoMap.keys (bs0 ++ [(e.Name, mkStub mpkg.Name c e)]) := by
        simp [GoMap.keys, hk]
      obtain ⟨h1, h2, h3, h4⟩ := ih _ bs _ s h hk1
      have hkeys1 : GoMap.keys (bs0 ++ [(e.Name, mkStub mpkg.Name c e)])
          = bs0.keys ++ [e.Name] := by simp [GoMap.keys]
      refine ⟨?_, ?_, ?_, ?_⟩
      · intro q hq
        rcases List.mem_cons.mp hq with hq | hq
        · subst hq; exact hfresh
        · intro hmem
          apply h1 q hq
          rw [hkeys1]
          exact List.mem_append_left _ hmem
      · simp only [List.map_cons, List.nodup_cons]
        refine ⟨?_, h2⟩
        intro hmem
        obtain ⟨q, hq, hqn⟩ := List.mem_map.mp hmem
        apply h1 q hq
        rw [hkeys1, hqn]
        simp
      · rw [h3]; simp
      · rw [h4]; simp

/-- The package after one channel record has been added to it. -/
theorem buildChannel_ok {dc : GoMap String} {m m' : DiffModel} {cde cde' : GoMap StringSet}
    {c : declcfg.Channel} (h : buildChannel dc (m, cde) c = .ok (m', cde')) :
    ∃ mpkg, GoMap.lookup c.Package m = some mpkg ∧ c.Name ≠ "" ∧
      c.Name ∉ mpkg.Channels.keys ∧ (c.Entries.map (fun e => e.Name)).Nodup ∧
      m' = m.insert c.Package
        { mpkg with
          Channels := mpkg.Channels ++ [(c.Name, mkChannel mpkg.Name c)]
          DefaultChannel :=
            if declaredDefault dc c.Package = c.Name then some c.Name
            else mpkg.DefaultChannel } ∧
      cde' = cde.insert c.Package (c.Entries.map (fun e => e.Name)) := by
  unfold buildChannel at h
  cases hl : GoMap.lookup c.Package m with
  | none => simp [hl] at h
  | some mpkg =>
    simp only [hl] at h
    by_cases h1 : c.Name = ""
    · simp [h1] at h
    · rw [if_neg h1] at h
      by_cases h2 : (GoMap.lookup c.Name mpkg.Channels).isSome
      · simp [h2] at h
      · rw [if_neg h2] at h
        have hfresh : c.Name ∉ mpkg.Channels.keys := by
          rw [← GoMap.lookup_isSome_iff]; exact h2
        cases he : foldE (buildEntry mpkg c) ([], []) c.Entries with
        | error e => simp [he] at h
        | ok r =>
          obtain ⟨bundles, s⟩ := r
          obtain ⟨_, hnd, hb, hs⟩ := buildEntries_ok mpkg c c.Entries [] bundles [] s he rfl
          simp only [he, Except.ok.injEq, Prod.mk.injEq] at h
          refine ⟨mpkg, rfl, h1, hfresh, hnd, ?_, ?_⟩
          · rw [← h.1, GoMap.insert_of_not_mem _ hfresh, hb]
            unfold declaredDefault mkChannel
            by_cases hd : (GoMap.lookup c.Package dc).getD "" = c.Name <;> simp [hd]
          · rw [← h.2, hs]
            simp

theorem extendPackage_name (dc : GoMap String) (cs : List declcfg.Channel) (k : String)
    (p : DiffPackage) : (extendPackage dc cs k p).Name = p.Name := rfl

theorem extendPackage_cons (dc : GoMap String) (c : declcfg.Channel)
    (rest : List declcfg.Channel) (k : String) (p : DiffPackage) :
    extendPackage dc rest k (extendPackage dc [c] k p) = extendPackage dc (c :: rest) k p := by
  unfold extendPackage
  by_cases hc : c.Package = k
  · by_cases hd : c.Name = declaredDefault dc k
    · simp [hc, hd]
    · simp [hc, hd]
  · simp [hc]

theorem extendPackage_single_other (dc : GoMap String) (c : declcfg.Channel) (k : String)
    (p : DiffPackage) (hc : ¬ k = c.Package) : extendPackage dc [c] k p = p := by
  have hc2 : ¬ c.Package = k := fun e => hc e.symm
  unfold extendPackage
  simp [hc2]

theorem buildChannel_step {dc : GoMap String} {m m' : DiffModel} {cde cde' : GoMap StringSet}
    {c : declcfg.Channel} (hn : m.keys.Nodup)
    (h : buildChannel dc (m, cde) c = .ok (m', cde')) :
    m' = m.map (fun kv => (kv.1, extendPackage dc [c] kv.1 kv.2)) := by
  obtain ⟨mpkg, hl, _, _, _, hm, _⟩ := buildChannel_ok h
  have hmem : c.Package ∈ m.keys := by
    rw [← GoMap.lookup_isSome_iff, hl]; rfl
  rw [hm, GoMap.insert_eq_modify _ hn hmem]
  unfold GoMap.modify
  apply List.map_congr_left
  rintro ⟨k, p⟩ hkv
  by_cases hk : k = c.Package
  · have hp : p = mpkg := by
      have := GoMap.lookup_of_mem hn hkv
      rw [hk, hl] at this
      exact (Option.some.inj this).symm
    subst hp
    simp only [hk, if_true, Prod.mk.injEq, true_and]
    unfold extendPackage
    by_cases hd : declaredDefault dc c.Package = c.Name
    · simp [hd]
    · have hd2 : ¬ c.Name = declaredDefault dc c.Package := fun e => hd e.symm
      simp [hd, hd2]
  · simp only [hk, if_false]
    rw [extendPackage_single_other dc c k p hk]

theorem getLast?_cons_eq {α : Type} (a : α) (l : List α) :
    (a :: l).getLast? = some (l.getLast?.getD a) := by
  cases l with
  | nil => rfl
  | cons b l => simp [List.getLast?_cons_cons, List.getLast?_eq_getLast, List.getLast?_cons]

/-- The characterization of the loop over the channel records. -/
theorem buildChannels_ok (dc : GoMap String) (cs : List declcfg.Channel) :
    ∀ (m m' : DiffModel) (cde cde' : GoMap StringSet),
      foldE (buildChannel dc) (m, cde) cs = .ok (m', cde') → m.keys.Nodup →
      m' = m.map (fun kv => (kv.1, extendPackage dc cs kv.1 kv.2)) ∧
      (∀ c ∈ cs, c.Package ∈ m.keys ∧ c.Name ≠ "" ∧ (c.Entries.map (fun e => e.Name)).Nodup) ∧
      (∀ k p, GoMap.lookup k m = some p → p.Channels.keys.Nodup →
        (p.Channels.keys ++ (cs.filter (fun c => c.Package = k)).map (fun c => c.Name)).Nodup) ∧
      (∀ k, GoMap.lookup k cde' =
        match (cs.filter (fun c => c.Package = k)).getLast? with
        | some c => some (c.Entries.map (fun e => e.Name))
        | none => GoMap.lookup k cde) := by
  induction cs with
  | nil =>
    intro m m' cde cde' h hn
    simp only [foldE, Except.ok.injEq, Prod.mk.injEq] at h
    refine ⟨?_, by simp, ?_, ?_⟩
    · rw [← h.1]
      symm
      rw [List.map_congr_left (g := id)]
      · simp
      · rintro ⟨k, p⟩ _
        simp [extendPackage]
    · intro k p _ hp
      simpa using hp
    · intro k; simp [h.2]
  | cons c cs ih =>
    intro m m' cde cde' h hn
    simp only [foldE] at h
    cases hstep : buildChannel dc (m, cde) c with
    | error e => simp [hstep] at h
    | ok st =>
      obtain ⟨m1, cde1⟩ := st
      simp only [hstep] at h
      have hm1 := buildChannel_step hn hstep
      obtain ⟨mpkg, hl, hne, hfresh, hnd, _, hcde1⟩ := buildChannel_ok hstep
      have hk1 : m1.keys = m.keys := by
        rw [hm1]; exact GoMap.keys_map_snd (fun kv => extendPackage dc [c] kv.1 kv.2) m
      have hn1 : m1.keys.Nodup := by rw [hk1]; exact hn
      obtain ⟨h1, h2, h3, h4⟩ := ih m1 m' cde1 cde' h hn1
      refine ⟨?_, ?_, ?_, ?_⟩
      · rw [h1, hm1, List.map_map]
        apply List.map_congr_left
        rintro ⟨k, p⟩ _
        simp only [Function.comp_apply, Prod.mk.injEq, true_and]
        exact extendPackage_cons dc c cs k p
      · intro c' hc'
        rcases List.mem_cons.mp hc' with e | e
        · subst e
          refine ⟨?_, hne, hnd⟩
          rw [← GoMap.lookup_isSome_iff, hl]; rfl
        · have := h2 c' e
          rw [hk1] at this
          exact this
      · intro k p hlk
        have hl1 : GoMap.lookup k m1 = some (extendPackage dc [c] k p) := by
          rw [hm1, GoMap.lookup_map_snd (fun k p => extendPackage dc [c] k p), hlk]
          rfl
        intro hpn
        by_cases hk : c.Package = k
        · have hp : p = mpkg := by
            rw [← hk, hl] at hlk
            exact (Option.some.inj hlk).symm
          subst hp
          have hnd1 : (extendPackage dc [c] k p).Channels.keys.Nodup := by
            simp only [extendPackage, hk, GoMap.keys, decide_True, List.filter_cons_of_pos,
              List.filter_nil, List.map_cons, List.map_nil, List.map_append]
            rw [List.nodup_append]
            refine ⟨hpn, by simp, ?_⟩
            intro a ha hb
            simp only [List.mem_singleton] at hb
            subst hb
            exact hfresh ha
          have := h3 k _ hl1 hnd1
          simpa [extendPackage, hk, GoMap.keys] using this
        · have hnd1 : (extendPackage dc [c] k p).Channels.keys.Nodup := by
            simpa [extendPackage, hk, GoMap.keys] using hpn
          have := h3 k _ hl1 hnd1
          simpa [extendPackage, hk, GoMap.keys] using this
      · intro k
        rw [h4 k, hcde1, GoMap.lookup_insert]
        by_cases hk : c.Package = k
        · simp only [hk, decide_True, List.filter_cons_of_pos, if_true]
          rw [getLast?_cons_eq]
          cases (List.filter (fun c => decide (c.Package = k)) cs).getLast? <;> rfl
        · simp [hk]

/-- What one successful iteration of the loop over the bundle records has checked and done. -/
theorem buildBundle_ok {L : Lib} {st st' : BundleState} {b : declcfg.Bundle}
    (h : buildBundle L st b = .ok st') :
    b.Package ≠ "" ∧
    ∃ mpkg, GoMap.lookup b.Package st.mpkgs = some mpkg ∧
      b.Name ∉ (st.packageBundles.lookup b.Package).getD [] ∧
      (decodeBundle L b).isSome ∧
      (∃ kv ∈ mpkg.Channels, b.Name ∈ kv.2.Bundles.keys) ∧
      st'.mpkgs = st.mpkgs.insert b.Package
        { mpkg with Channels := mpkg.Channels.map (fun kv => (kv.1, fillFrom L b kv.2)) } ∧
      st'.channelDefinedEntries = st.channelDefinedEntries.insert b.Package
        (StringSet.delete ((st.channelDefinedEntries.lookup b.Package).getD []) b.Name) ∧
      st'.packageBundles = st.packageBundles.insert b.Package
        (StringSet.insert ((st.packageBundles.lookup b.Package).getD []) b.Name) := by
  unfold buildBundle at h
  by_cases h1 : b.Package = ""
  · simp [h1] at h
  · rw [if_neg h1] at h
    refine ⟨h1, ?_⟩
    cases hl : GoMap.lookup b.Package st.mpkgs with
    | none => simp [hl] at h
    | some mpkg =>
      simp only [hl] at h
      by_cases h2 : StringSet.has ((st.packageBundles.lookup b.Package).getD []) b.Name = true
      · simp [h2] at h
      · rw [if_neg h2] at h
        have hnot : b.Name ∉ (st.packageBundles.lookup b.Package).getD [] := by
          simpa [StringSet.has] using h2
        cases hp : property.Parse L b.Properties with
        | error e => simp [hp] at h
        | ok props =>
          simp only [hp] at h
          by_cases h3 : props.Packages.length ≠ 1
          · simp [h3] at h
          · rw [if_neg h3] at h
            cases hpk : props.Packages with
            | nil => simp [hpk] at h
            | cons pp rest =>
              have hrest : rest = [] := by
                rw [hpk] at h3
                simp at h3
                exact h3
              subst hrest
              simp only [hpk] at h
              by_cases h4 : b.Package ≠ pp.PackageName
              · simp [h4] at h
              · rw [if_neg h4] at h
                have h4e : b.Package = pp.PackageName := not_not.mp h4
                cases hv : L.semverParse pp.Version with
                | none => simp [hv] at h
                | some ver =>
                  simp only [hv] at h
                  have hdec : decodeBundle L b = some (props, ver) := by
                    simp [decodeBundle, hp, hpk, h4e, hv]
                  by_cases h5 : (mpkg.Channels.any
                      (fun kv => (GoMap.lookup b.Name kv.2.Bundles).isSome)) = true
                  · simp only [h5, Bool.not_true, Bool.false_eq_true, if_false,
                      Except.ok.injEq] at h
                    refine ⟨mpkg, rfl, hnot, by simp [hdec], ?_, ?_, ?_, ?_⟩
                    · obtain ⟨kv, hkv, hsome⟩ := List.any_eq_true.mp h5
                      exact ⟨kv, hkv, (GoMap.lookup_isSome_iff _ _).mp hsome⟩
                    · rw [← h]
                      simp [fillFrom, hdec]
                    · rw [← h]
                    · rw [← h]
                  · simp [h5] at h

theorem fillChannel_keys (b : declcfg.Bundle) (props : property.Properties)
    (ver : semver.Version) (mch : DiffChannel) :
    (fillChannel b props ver mch).Bundles.keys = mch.Bundles.keys := by
  unfold fillChannel
  cases hl : GoMap.lookup b.Name mch.Bundles with
  | none => rfl
  | some mb =>
    simp only
    apply GoMap.keys_insert_of_mem
    rw [← GoMap.lookup_isSome_iff, hl]; rfl

theorem fillFrom_keys (L : Lib) (b : declcfg.Bundle) (mch : DiffChannel) :
    (fillFrom L b mch).Bundles.keys = mch.Bundles.keys := by
  unfold fillFrom
  cases decodeBundle L b with
  | none => rfl
  | some pv => exact fillChannel_keys b pv.1 pv.2 mch

theorem foldl_fillFrom_keys (L : Lib) (bs : List declcfg.Bundle) (mch : DiffChannel) :
    (bs.foldl (fun ch b => fillFrom L b ch) mch).Bundles.keys = mch.Bundles.keys := by
  induction bs generalizing mch with
  | nil => rfl
  | cons b bs ih =>
    simp only [List.foldl_cons]
    rw [ih, fillFrom_keys]

theorem fillPackage_cons (L : Lib) (b : declcfg.Bundle) (rest : List declcfg.Bundle)
    (k : String) (p : DiffPackage) :
    fillPackage L rest k (fillPackage L [b] k p) = fillPackage L (b :: rest) k p := by
  unfold fillPackage
  by_cases hb : b.Package = k
  · simp [hb, List.map_map, Function.comp_def]
  · simp [hb, List.map_map, Function.comp_def]

theorem fillPackage_single_other (L : Lib) (b : declcfg.Bundle) (k : String)
    (p : DiffPackage) (hb : ¬ k = b.Package) : fillPackage L [b] k p = p := by
  have hb2 : ¬ b.Package = k := fun e => hb e.symm
  unfold fillPackage
  simp [hb2]

/-- Some channel of the package lists a view under the name `n`. -/
theorem fillPackage_listed (L : Lib) (bs : List declcfg.Bundle) (k n : String)
    (p : DiffPackage) :
    (∃ kv ∈ (fillPackage L bs k p).Channels, n ∈ kv.2.Bundles.keys) ↔
      ∃ kv ∈ p.Channels, n ∈ kv.2.Bundles.keys := by
  unfold fillPackage
  simp only [List.mem_map]
  constructor
  · rintro ⟨kv, ⟨kv0, hkv0, rfl⟩, hn⟩
    refine ⟨kv0, hkv0, ?_⟩
    rw [foldl_fillFrom_keys] at hn
    exact hn
  · rintro ⟨kv0, hkv0, hn⟩
    refine ⟨_, ⟨kv0, hkv0, rfl⟩, ?_⟩
    rw [foldl_fillFrom_keys]
    exact hn

theorem buildBundle_step {L : Lib} {st st' : BundleState} {b : declcfg.Bundle}
    (hn : st.mpkgs.keys.Nodup) (h : buildBundle L st b = .ok st') :
    st'.mpkgs = st.mpkgs.map (fun kv => (kv.1, fillPackage L [b] kv.1 kv.2)) := by
  obtain ⟨_, mpkg, hl, _, _, _, hm, _, _⟩ := buildBundle_ok h
  have hmem : b.Package ∈ st.mpkgs.keys := by
    rw [← GoMap.lookup_isSome_iff, hl]; rfl
  rw [hm, GoMap.insert_eq_modify _ hn hmem]
  unfold GoMap.modify
  apply List.map_congr_left
  rintro ⟨k, p⟩ hkv
  by_cases hk : k = b.Package
  · have hp : p = mpkg := by
      have := GoMap.lookup_of_mem hn hkv
      rw [hk, hl] at this
      exact (Option.some.inj this).symm
    subst hp
    simp only [hk, if_true, Prod.mk.injEq, true_and]
    unfold fillPackage
    simp
  · simp only [hk, if_false]
    rw [fillPackage_single_other L b k p hk]

/-- The characterization of the loop over the bundle records. -/
theorem buildBundles_ok (L : Lib) (bs : List declcfg.Bundle) :
    ∀ (st st' : BundleState),
      foldE (buildBundle L) st bs = .ok st' → st.mpkgs.keys.Nodup →
      st'.mpkgs = st.mpkgs.map (fun kv => (kv.1, fillPackage L bs kv.1 kv.2)) ∧
      (∀ b ∈ bs, b.Package ≠ "" ∧ (decodeBundle L b).isSome ∧
        ∃ mpkg, GoMap.lookup b.Package st.mpkgs = some mpkg ∧
          ∃ kv ∈ mpkg.Channels, b.Name ∈ kv.2.Bundles.keys) ∧
      (∀ k, ((st.packageBundles.lookup k).getD []).Nodup →
        (((st.packageBundles.lookup k).getD []) ++
          (bs.filter (fun b => b.Package = k)).map (fun b => b.Name)).Nodup) := by
  induction bs with
  | nil =>
    intro st st' h hn
    simp only [foldE, Except.ok.injEq] at h
    refine ⟨?_, by simp, ?_⟩
    · rw [← h]
      symm
      rw [List.map_congr_left (g := id)]
      · simp
      · rintro ⟨k, p⟩ _
        simp [fillPackage]
    · intro k hk
      simpa using hk
  | cons b bs ih =>
    intro st st' h hn
    simp only [foldE] at h
    cases hstep : buildBundle L st b with
    | error e => simp [hstep] at h
    | ok st1 =>
      simp only [hstep] at h
      have hm1 := buildBundle_step hn hstep
      obtain ⟨hne, mpkg, hl, hfresh, hdec, hfound, _, _, hpb⟩ := buildBundle_ok hstep
      have hk1 : st1.mpkgs.keys = st.mpkgs.keys := by
        rw [hm1]; exact GoMap.keys_map_snd (fun kv => fillPackage L [b] kv.1 kv.2) st.mpkgs
      have hn1 : st1.mpkgs.keys.Nodup := by rw [hk1]; exact hn
      obtain ⟨h1, h2, h3⟩ := ih st1 st' h hn1
      refine ⟨?_, ?_, ?_⟩
      · rw [h1, hm1, List.map_map]
        apply List.map_congr_left
        rintro ⟨k, p⟩ _
        simp only [Function.comp_apply, Prod.mk.injEq, true_and]
        exact fillPackage_cons L b bs k p
      · intro b' hb'
        rcases List.mem_cons.mp hb' with e | e
        · subst e
          exact ⟨hne, hdec, mpkg, hl, hfound⟩
        · obtain ⟨ha, hb, mpkg1, hl1, hf1⟩ := h2 b' e
          rw [hm1, GoMap.lookup_map_snd (fun k p => fillPackage L [b] k p)] at hl1
          cases hl0 : GoMap.lookup b'.Package st.mpkgs with
          | none => simp [hl0] at hl1
          | some mpkg0 =>
            rw [hl0] at hl1
            simp only [Option.map_some', Option.some.injEq] at hl1
            subst hl1
            exact ⟨ha, hb, mpkg0, rfl, (fillPackage_listed L [b] _ _ mpkg0).mp hf1⟩
      · intro k hknd
        have hl1 : (GoMap.lookup k st1.packageBundles).getD []
            = if b.Package = k then
                StringSet.insert ((GoMap.lookup b.Package st.packageBundles).getD []) b.Name
              else (GoMap.lookup k st.packageBundles).getD [] := by
          rw [hpb, GoMap.lookup_insert]
          by_cases hk : b.Package = k <;> simp [hk]
        by_cases hk : b.Package = k
        · subst hk
          have hins : StringSet.insert ((GoMap.lookup b.Package st.packageBundles).getD []) b.Name
              = (GoMap.lookup b.Package st.packageBundles).getD [] ++ [b.Name] := by
            simp [StringSet.insert, hfresh]
          have hnd1 : ((GoMap.lookup b.Package st1.packageBundles).getD []).Nodup := by
            rw [hl1, if_pos rfl, hins, List.nodup_append]
            refine ⟨hknd, by simp, ?_⟩
            intro a ha hb
            simp only [List.mem_singleton] at hb
            subst hb
            exact hfresh ha
          have := h3 b.Package hnd1
          rw [hl1, if_pos rfl, hins] at this
          simpa using this
        · have hnd1 : ((GoMap.lookup k st1.packageBundles).getD []).Nodup := by
            rw [hl1, if_neg hk]; exact hknd
          have := h3 k hnd1
          rw [hl1, if_neg hk] at this
          simpa [hk] using this

/-! ## The builder as a whole -/

theorem keys_packages (ps : List declcfg.Package) :
    GoMap.keys (ps.map (fun p => (p.Name, mkPackage p))) = ps.map (fun p => p.Name) := by
  simp [GoMap.keys, Function.comp_def]

theorem lookup_packages {ps : List declcfg.Package} (hn : (ps.map (fun p => p.Name)).Nodup)
    {p : declcfg.Package} (hp : p ∈ ps) :
    GoMap.lookup p.Name (ps.map (fun p => (p.Name, mkPackage p))) = some (mkPackage p) := by
  apply GoMap.lookup_of_mem
  · rw [keys_packages]; exact hn
  · exact List.mem_map.mpr ⟨p, hp, rfl⟩

/-- A successful build has passed every check, and its catalog holds, for every package
record in turn, the package derived from it, stored under its name. -/
theorem convert_ok {L : Lib} {cfg : declcfg.DeclarativeConfig} {m : DiffModel}
    (h : ConvertDeclcfgToDiffModel L cfg = .ok m) :
    ValidInput L cfg ∧ m = cfg.Packages.map (fun p => (p.Name, specPackage L cfg p)) := by
  unfold ConvertDeclcfgToDiffModel at h
  cases h1 : foldE buildPackage ([], []) cfg.Packages with
  | error e => simp [h1] at h
  | ok r1 =>
    obtain ⟨m1, dc⟩ := r1
    simp only [h1] at h
    obtain ⟨hp1, hp2, hm1, hdc⟩ := buildPackages_ok cfg.Packages [] m1 [] dc h1 rfl
    simp only [List.nil_append] at hm1 hdc
    have hdc' : dc = declaredDefaults cfg := hdc
    have hk1 : m1.keys = cfg.Packages.map (fun p => p.Name) := by
      rw [hm1]; exact keys_packages _
    have hn1 : m1.keys.Nodup := by rw [hk1]; exact hp2
    cases h2 : foldE (buildChannel dc) (m1, []) cfg.Channels with
    | error e => simp [h2] at h
    | ok r2 =>
      obtain ⟨m2, cde⟩ := r2
      simp only [h2] at h
      obtain ⟨hm2, hc1, hc2, _⟩ := buildChannels_ok dc cfg.Channels m1 m2 [] cde h2 hn1
      have hk2 : m2.keys = m1.keys := by
        rw [hm2]; exact GoMap.keys_map_snd (fun kv => extendPackage dc cfg.Channels kv.1 kv.2) m1
      have hn2 : m2.keys.Nodup := by rw [hk2]; exact hn1
      cases h3 : foldE (buildBundle L) ⟨m2, cde, []⟩ cfg.Bundles with
      | error e => simp [h3] at h
      | ok st =>
        simp only [h3] at h
        obtain ⟨hm3, hb1, hb2⟩ := buildBundles_ok L cfg.Bundles ⟨m2, cde, []⟩ st h3 hn2
        simp only at hm3 hb1 hb2
        cases h4 : checkEntries st.channelDefinedEntries with
        | error e => simp [h4] at h
        | ok u =>
          simp only [h4, Except.ok.injEq] at h
          constructor
          · refine ⟨fun p hp => (hp1 p hp).1, hp2, ?_, fun c hc => (hc1 c hc).2.1, ?_,
              fun c hc => (hc1 c hc).2.2, ?_, ?_, fun b hb => (hb1 b hb).2.1, ?_⟩
            · intro c hc
              rw [← hk1]; exact (hc1 c hc).1
            · intro k
              by_cases hk : k ∈ m1.keys
              · rw [hk1] at hk
                obtain ⟨p, hp, rfl⟩ := List.mem_map.mp hk
                have hl := lookup_packages hp2 hp
                rw [← hm1] at hl
                have := hc2 p.Name (mkPackage p) hl (by simp [mkPackage, GoMap.keys])
                simpa [mkPackage, GoMap.keys] using this
              · have : cfg.Channels.filter (fun c => c.Package = k) = [] := by
                  rw [List.filter_eq_nil_iff]
                  intro c hc hck
                  simp only [decide_eq_true_eq] at hck
                  exact hk (hck ▸ (hc1 c hc).1)
                rw [this]
                simp
            · intro b hb
              obtain ⟨hne, _, mpkg, hl, _⟩ := hb1 b hb
              refine ⟨hne, ?_⟩
              rw [← hk1, ← hk2, ← GoMap.lookup_isSome_iff, hl]
              rfl
            · intro k
              simpa [GoMap.lookup] using hb2 k
            · intro b hb
              obtain ⟨_, _, mpkg, hl, kv, hkv, hmem⟩ := hb1 b hb
              rw [hm2, GoMap.lookup_map_snd (fun k p => extendPackage dc cfg.Channels k p)] at hl
              cases hl0 : GoMap.lookup b.Package m1 with
              | none => simp [hl0] at hl
              | some p0 =>
                rw [hl0] at hl
                simp only [Option.map_some', Option.some.injEq] at hl
                have hp0 : (b.Package, p0) ∈ m1 := GoMap.mem_of_lookup hl0
                rw [hm1] at hp0
                obtain ⟨p, _, hpe⟩ := List.mem_map.mp hp0
                simp only [Prod.mk.injEq] at hpe
                rw [← hl, ← hpe.2] at hkv
                simp only [extendPackage, mkPackage, List.nil_append, List.mem_map,
                  List.mem_filter, decide_eq_true_eq] at hkv
                obtain ⟨c, ⟨hc, hcp⟩, rfl⟩ := hkv
                refine ⟨c, hc, hcp, ?_⟩
                simpa [mkChannel, GoMap.keys, Function.comp_def] using hmem
          · rw [← h, hm3, hm2, hm1]
            simp only [DiffModel.Normalize, List.map_map]
            apply List.map_congr_left
            intro p _
            simp only [Function.comp_apply, specPackage, hdc']

theorem declaredDefault_eq {L : Lib} {cfg : declcfg.DeclarativeConfig} (hv : ValidInput L cfg)
    {p : declcfg.Package} (hp : p ∈ cfg.Packages) :
    declaredDefault (declaredDefaults cfg) p.Name = p.DefaultChannel := by
  have hl : GoMap.lookup p.Name (declaredDefaults cfg) = some p.DefaultChannel := by
    apply GoMap.lookup_of_mem
    · simpa [declaredDefaults, GoMap.keys, Function.comp_def] using hv.package_unique
    · exact List.mem_map.mpr ⟨p, hp, rfl⟩
  simp [declaredDefault, hl]

theorem backfillDefault_eq (dc : GoMap String) (mpkg : DiffPackage) :
    backfillDefault dc mpkg =
      if declaredDefault dc mpkg.Name ≠ "" ∧ mpkg.DefaultChannel = none then
        { mpkg with
          DefaultChannel := some (declaredDefault dc mpkg.Name)
          Channels := mpkg.Channels.insert (declaredDefault dc mpkg.Name)
            { Name := declaredDefault dc mpkg.Name, Package := mpkg.Name } }
      else mpkg := rfl

/-- The explicit form of the package a successful build derives from a package record. -/
theorem specPackage_eq {L : Lib} {cfg : declcfg.DeclarativeConfig} (hv : ValidInput L cfg)
    {p : declcfg.Package} (hp : p ∈ cfg.Packages) :
    specPackage L cfg p =
      { Name := p.Name
        Description := p.Description
        Icon := p.Icon.map (fun i => { Data := i.Data, MediaType := i.MediaType })
        DefaultChannel := if p.DefaultChannel = "" then none else some p.DefaultChannel
        Channels :=
          (cfg.Channels.filter (fun c => c.Package = p.Name)).map
              (fun c => (c.Name, specChannel L cfg c)) ++
            synthChannels cfg p } := by
  have hd := declaredDefault_eq hv hp
  have hany : (cfg.Channels.any
      (fun c => c.Package = p.Name ∧ c.Name = declaredDefault (declaredDefaults cfg) p.Name))
      = true ↔ ∃ c ∈ cfg.Channels, c.Package = p.Name ∧ c.Name = p.DefaultChannel := by
    rw [hd]
    simp [List.any_eq_true]
  have hchan : (cfg.Channels.filter (fun c => c.Package = p.Name)).map (fun c =>
      (c.Name, DiffChannel.Normalize L
        ((cfg.Bundles.filter (fun b => b.Package = p.Name)).foldl
          (fun ch b => fillFrom L b ch) (mkChannel p.Name c))))
      = (cfg.Channels.filter (fun c => c.Package = p.Name)).map
          (fun c => (c.Name, specChannel L cfg c)) := by
    apply List.map_congr_left
    intro c hc
    have hcp : c.Package = p.Name := by simpa using (List.mem_filter.mp hc).2
    simp [specChannel, hcp]
  have hB : fillPackage L cfg.Bundles p.Name
      (extendPackage (declaredDefaults cfg) cfg.Channels p.Name (mkPackage p))
      = { Name := p.Name
          Description := p.Description
          Icon := p.Icon.map (fun i => { Data := i.Data, MediaType := i.MediaType })
          DefaultChannel :=
            if (cfg.Channels.any (fun c => c.Package = p.Name ∧
                c.Name = declaredDefault (declaredDefaults cfg) p.Name)) = true then
              some (declaredDefault (declaredDefaults cfg) p.Name)
            else none
          Channels := (cfg.Channels.filter (fun c => c.Package = p.Name)).map (fun c =>
            (c.Name, (cfg.Bundles.filter (fun b => b.Package = p.Name)).foldl
              (fun ch b => fillFrom L b ch) (mkChannel p.Name c))) } := by
    simp [fillPackage, extendPackage, mkPackage, List.map_map, Function.comp_def]
  unfold specPackage
  rw [hB, backfillDefault_eq]
  simp only [hd]
  by_cases hex : ∃ c ∈ cfg.Channels, c.Package = p.Name ∧ c.Name = p.DefaultChannel
  · have hnn : ¬ needsDefault cfg p := by
      rintro ⟨_, hno⟩
      obtain ⟨c, hc, hcc⟩ := hex
      exact hno c hc hcc
    have hne : p.DefaultChannel ≠ "" := by
      obtain ⟨c, hc, hcc⟩ := hex
      rw [← hcc.2]
      exact hv.channel_name c hc
    rw [hd] at hany
    rw [if_pos (hany.mpr hex), if_neg (by simp), if_neg hne]
    simp only [DiffPackage.Normalize, List.map_map, Function.comp_def, synthChannels, hnn,
      if_false, List.append_nil]
    rw [hchan]
  · rw [hd] at hany
    have hany' : ¬ (cfg.Channels.any (fun c => c.Package = p.Name ∧
        c.Name = p.DefaultChannel)) = true := by
      rw [hany]; exact hex
    rw [if_neg hany']
    by_cases hne : p.DefaultChannel = ""
    · have hnn : ¬ needsDefault cfg p := fun hh => hh.1 hne
      rw [if_neg (by simp [hne]), if_pos hne]
      simp only [DiffPackage.Normalize, List.map_map, Function.comp_def, synthChannels, hnn,
        if_false, List.append_nil]
      rw [hchan]
    · have hnd : needsDefault cfg p := by
        refine ⟨hne, ?_⟩
        intro c hc hcc
        exact hex ⟨c, hc, hcc⟩
      have hfresh : p.DefaultChannel ∉ GoMap.keys
          ((cfg.Channels.filter (fun c => c.Package = p.Name)).map (fun c =>
            (c.Name, (cfg.Bundles.filter (fun b => b.Package = p.Name)).foldl
              (fun ch b => fillFrom L b ch) (mkChannel p.Name c)))) := by
        simp only [GoMap.keys, List.map_map, List.mem_map, List.mem_filter, decide_eq_true_eq,
          Function.comp_apply, not_exists, not_and, and_imp]
        intro c hc hcp hcn
        exact hex ⟨c, hc, hcp, hcn⟩
      rw [if_pos ⟨hne, rfl⟩, if_neg hne]
      simp only [DiffPackage.Normalize]
      rw [GoMap.insert_of_not_mem _ hfresh]
      simp only [List.map_append, List.map_map, Function.comp_def, List.map_cons, List.map_nil,
        synthChannels, hnd, if_true]
      rw [hchan]
      rfl

theorem fillChannel_fields (b : declcfg.Bundle) (props : property.Properties)
    (ver : semver.Version) (mch : DiffChannel) :
    (fillChannel b props ver mch).Name = mch.Name ∧
    (fillChannel b props ver mch).Package = mch.Package ∧
    (fillChannel b props ver mch).Properties = mch.Properties := by
  unfold fillChannel
  cases GoMap.lookup b.Name mch.Bundles <;> exact ⟨rfl, rfl, rfl⟩

theorem fillFrom_fields (L : Lib) (b : declcfg.Bundle) (mch : DiffChannel) :
    (fillFrom L b mch).Name = mch.Name ∧
    (fillFrom L b mch).Package = mch.Package ∧
    (fillFrom L b mch).Properties = mch.Properties := by
  unfold fillFrom
  cases decodeBundle L b with
  | none => exact ⟨rfl, rfl, rfl⟩
  | some pv => exact fillChannel_fields b pv.1 pv.2 mch

theorem foldl_fillFrom_fields (L : Lib) (bs : List declcfg.Bundle) (mch : DiffChannel) :
    (bs.foldl (fun ch b => fillFrom L b ch) mch).Name = mch.Name ∧
    (bs.foldl (fun ch b => fillFrom L b ch) mch).Package = mch.Package ∧
    (bs.foldl (fun ch b => fillFrom L b ch) mch).Properties = mch.Properties := by
  induction bs generalizing mch with
  | nil => exact ⟨rfl, rfl, rfl⟩
  | cons b bs ih =>
    simp only [List.foldl_cons]
    obtain ⟨h1, h2, h3⟩ := ih (fillFrom L b mch)
    obtain ⟨g1, g2, g3⟩ := fillFrom_fields L b mch
    exact ⟨h1.trans g1, h2.trans g2, h3.trans g3⟩

theorem specChannel_fields (L : Lib) (cfg : declcfg.DeclarativeConfig) (c : declcfg.Channel) :
    (specChannel L cfg c).Name = c.Name ∧
    (specChannel L cfg c).Package = c.Package ∧
    (specChannel L cfg c).Properties = c.Properties := by
  unfold specChannel
  simp only [DiffChannel.Normalize]
  exact foldl_fillFrom_fields L _ (mkChannel c.Package c)

theorem specChannel_keys (L : Lib) (cfg : declcfg.DeclarativeConfig) (c : declcfg.Channel) :
    (specChannel L cfg c).Bundles.keys = c.Entries.map (fun e => e.Name) := by
  unfold specChannel
  simp only [DiffChannel.Normalize]
  have e := GoMap.keys_map_snd (fun kv : String × DiffBundle => kv.2.Normalize L)
    ((cfg.Bundles.filter (fun b => b.Package = c.Package)).foldl
      (fun ch b => fillFrom L b ch) (mkChannel c.Package c)).Bundles
  rw [e, foldl_fillFrom_keys]
  simp [mkChannel, GoMap.keys, Function.comp_def]

/-! ## What a successful build guarantees -/

theorem nodup_pairs_of_filter {α : Type} (key1 key2 : α → String) (l : List α)
    (h : ∀ k, ((l.filter (fun x => key1 x = k)).map key2).Nodup) :
    (l.map (fun x => (key1 x, key2 x))).Nodup := by
  induction l with
  | nil => simp
  | cons a l ih =>
    simp only [List.map_cons, List.nodup_cons]
    constructor
    · intro hmem
      obtain ⟨x, hx, hxe⟩ := List.mem_map.mp hmem
      simp only [Prod.mk.injEq] at hxe
      have := h (key1 a)
      simp only [decide_True, List.filter_cons_of_pos, List.map_cons, List.nodup_cons] at this
      apply this.1
      rw [← hxe.2]
      exact List.mem_map_of_mem key2 (List.mem_filter.mpr ⟨hx, by simp [hxe.1]⟩)
    · apply ih
      intro k
      have := h k
      by_cases hk : key1 a = k
      · simp only [hk, decide_True, List.filter_cons_of_pos, List.map_cons,
          List.nodup_cons] at this
        exact this.2
      · simpa [hk] using this

theorem exampleInput_ok : ∃ m, ConvertDeclcfgToDiffModel exampleLib exampleInput = .ok m :=
  ⟨_, rfl⟩

theorem specPackage_name (L : Lib) (cfg : declcfg.DeclarativeConfig) (p : declcfg.Package) :
    (specPackage L cfg p).Name = p.Name := by
  unfold specPackage backfillDefault
  simp only [DiffPackage.Normalize]
  split <;> rfl

/-- C5: if the build succeeds, every package name is non-empty and no two package records
share a name, every channel name is non-empty and no two channel records of one package
share a name, no channel record lists an entry name twice, no two bundle records of one
package share a name, and the catalog has exactly one package per package record, stored
under the record's name and carrying it. -/
theorem convert_ok_names_unique (L : Lib) (cfg : declcfg.DeclarativeConfig) (m : DiffModel)
    (h : ConvertDeclcfgToDiffModel L cfg = .ok m) :
    (∀ p ∈ cfg.Packages, p.Name ≠ "") ∧
    (cfg.Packages.map (fun p => p.Name)).Nodup ∧
    (∀ c ∈ cfg.Channels, c.Name ≠ "") ∧
    (cfg.Channels.map (fun c => (c.Package, c.Name))).Nodup ∧
    (∀ c ∈ cfg.Channels, (c.Entries.map (fun e => e.Name)).Nodup) ∧
    (cfg.Bundles.map (fun b => (b.Package, b.Name))).Nodup ∧
    m.keys.Perm (cfg.Packages.map (fun p => p.Name)) ∧
    (∀ kv ∈ m, kv.2.Name = kv.1) := by
  obtain ⟨hv, hm⟩ := convert_ok h
  refine ⟨hv.package_name, hv.package_unique, hv.channel_name,
    nodup_pairs_of_filter _ _ _ hv.channel_unique, hv.entry_unique,
    nodup_pairs_of_filter _ _ _ hv.bundle_unique, ?_, ?_⟩
  · rw [hm]
    simp [GoMap.keys, Function.comp_def]
  · rw [hm]
    intro kv hkv
    obtain ⟨p, _, rfl⟩ := List.mem_map.mp hkv
    exact specPackage_name L cfg p

/-- Witness of C5: the build of `exampleInput` succeeds, and its catalog has the one
package `p`. -/
theorem convert_ok_names_unique_witness :
    ∃ m, ConvertDeclcfgToDiffModel exampleLib exampleInput = .ok m ∧
      m.keys.Perm (exampleInput.Packages.map (fun p => p.Name)) :=
  exampleInput_ok.elim (fun m hm =>
    ⟨m, hm, (convert_ok_names_unique exampleLib exampleInput m hm).2.2.2.2.2.2.1⟩)

/-- C6: if the build succeeds, every channel record and every bundle record names the
package of some package record, and every bundle record is named by an entry of some channel
record of its package. -/
theorem convert_ok_references (L : Lib) (cfg : declcfg.DeclarativeConfig) (m : DiffModel)
    (h : ConvertDeclcfgToDiffModel L cfg = .ok m) :
    (∀ c ∈ cfg.Channels, ∃ p ∈ cfg.Packages, p.Name = c.Package) ∧
    (∀ b ∈ cfg.Bundles, ∃ p ∈ cfg.Packages, p.Name = b.Package) ∧
    (∀ b ∈ cfg.Bundles, ∃ c ∈ cfg.Channels, c.Package = b.Package ∧
      ∃ e ∈ c.Entries, e.Name = b.Name) := by
  obtain ⟨hv, _⟩ := convert_ok h
  refine ⟨?_, ?_, ?_⟩
  · intro c hc
    obtain ⟨p, hp, hpe⟩ := List.mem_map.mp (hv.channel_package c hc)
    exact ⟨p, hp, hpe⟩
  · intro b hb
    obtain ⟨p, hp, hpe⟩ := List.mem_map.mp (hv.bundle_package b hb).2
    exact ⟨p, hp, hpe⟩
  · intro b hb
    obtain ⟨c, hc, hcp, hmem⟩ := hv.bundle_listed b hb
    obtain ⟨e, he, hee⟩ := List.mem_map.mp hmem
    exact ⟨c, hc, hcp, e, he, hee⟩

/-- Witness of C6: the build of `exampleInput` succeeds, and both bundle records are listed
by the channel `stable`. -/
theorem convert_ok_references_witness :
    ∃ m, ConvertDeclcfgToDiffModel exampleLib exampleInput = .ok m ∧
      ∀ b ∈ exampleInput.Bundles, ∃ c ∈ exampleInput.Channels, c.Package = b.Package ∧
        ∃ e ∈ c.Entries, e.Name = b.Name :=
  exampleInput_ok.elim (fun m hm =>
    ⟨m, hm, (convert_ok_references exampleLib exampleInput m hm).2.2⟩)

theorem parseStep_packages {L : Lib} {st st' : Nat × property.Properties}
    {q : property.Property} (h : property.parseStep L st q = .ok st') :
    (q.Type_ = property.TypePackage →
      ∃ p, L.unmarshalPackage q.Value = some p ∧ st'.2.Packages = st.2.Packages ++ [p]) ∧
    (q.Type_ ≠ property.TypePackage → st'.2.Packages = st.2.Packages) := by
  unfold property.parseStep at h
  by_cases hq : q.Type_ = property.TypePackage
  · refine ⟨fun _ => ?_, fun hne => absurd hq hne⟩
    simp only [hq, if_true] at h
    cases hd : L.unmarshalPackage q.Value with
    | none => simp [hd] at h
    | some p =>
      simp only [hd, Except.ok.injEq] at h
      exact ⟨p, rfl, by rw [← h]⟩
  · refine ⟨fun he => absurd he hq, fun _ => ?_⟩
    simp only [hq, if_false] at h
    repeat' split at h
    all_goals first
      | (simp only [Except.ok.injEq] at h; rw [← h])
      | simp at h

theorem parse_packages (L : Lib) (ps : List property.Property) :
    ∀ (st st' : Nat × property.Properties),
      foldE (property.parseStep L) st ps = .ok st' →
      st'.2.Packages = st.2.Packages ++
        (ps.filter (fun q => q.Type_ = property.TypePackage)).filterMap
          (fun q => L.unmarshalPackage q.Value) ∧
      ∀ q ∈ ps.filter (fun q => q.Type_ = property.TypePackage),
        (L.unmarshalPackage q.Value).isSome := by
  induction ps with
  | nil =>
    intro st st' h
    simp only [foldE, Except.ok.injEq] at h
    simp [h]
  | cons q ps ih =>
    intro st st' h
    simp only [foldE] at h
    cases hstep : property.parseStep L st q with
    | error e => simp [hstep] at h
    | ok st1 =>
      simp only [hstep] at h
      obtain ⟨h1, h2⟩ := ih st1 st' h
      obtain ⟨ha, hb⟩ := parseStep_packages hstep
      by_cases hq : q.Type_ = property.TypePackage
      · obtain ⟨p, hp, hst1⟩ := ha hq
        constructor
        · rw [h1, hst1]
          simp [hq, hp]
        · intro q' hq'
          simp only [hq, decide_True, List.filter_cons_of_pos, List.mem_cons] at hq'
          rcases hq' with e | e
          · subst e; simp [hp]
          · exact h2 q' e
      · constructor
        · rw [h1, hb hq]
          simp [hq]
        · intro q' hq'
          simp only [hq, decide_False, Bool.false_eq_true, not_false_eq_true,
            List.filter_cons_of_neg] at hq'
          exact h2 q' hq'

/-- The `olm.package` properties of a list that `property.Parse` accepts all decode, and
the category `Packages` lists their decoded records in order. -/
theorem parse_ok_packages {L : Lib} {ps : List property.Property}
    {props : property.Properties} (h : property.Parse L ps = .ok props) :
    props.Packages = (ps.filter (fun q => q.Type_ = property.TypePackage)).filterMap
        (fun q => L.unmarshalPackage q.Value) ∧
      ∀ q ∈ ps.filter (fun q => q.Type_ = property.TypePackage),
        (L.unmarshalPackage q.Value).isSome := by
  unfold property.Parse at h
  cases hf : foldE (property.parseStep L) (0, {}) ps with
  | error e => simp [hf] at h
  | ok st =>
    simp only [hf, Except.ok.injEq] at h
    have := parse_packages L ps _ _ hf
    rw [h] at this
    simpa using this

theorem decodeBundle_some {L : Lib} {b : declcfg.Bundle}
    {pv : property.Properties × semver.Version} (h : decodeBundle L b = some pv) :
    property.Parse L b.Properties = .ok pv.1 ∧
    ∃ pp, pv.1.Packages = [pp] ∧ b.Package = pp.PackageName ∧
      L.semverParse pp.Version = some pv.2 := by
  unfold decodeBundle at h
  cases hp : property.Parse L b.Properties with
  | error e => simp [hp] at h
  | ok props =>
    simp only [hp] at h
    split at h
    · rename_i pp hpk
      by_cases he : b.Package = pp.PackageName
      · rw [if_pos he] at h
        cases hv : L.semverParse pp.Version with
        | none => simp [hv] at h
        | some ver =>
          simp only [hv, Option.map_some', Option.some.injEq] at h
          subst h
          exact ⟨rfl, pp, hpk, he, hv⟩
      · simp [he] at h
    · simp at h

/-- C7: if the build succeeds, the properties of every bundle record decode without error,
exactly one of them has the type `olm.package`, it decodes to a package name equal to the
record's package field, and its version string parses as a semantic version. -/
theorem convert_ok_identity_property (L : Lib) (cfg : declcfg.DeclarativeConfig)
    (m : DiffModel) (h : ConvertDeclcfgToDiffModel L cfg = .ok m) :
    ∀ b ∈ cfg.Bundles,
      ∃ props q pp ver,
        property.Parse L b.Properties = .ok props ∧
        b.Properties.filter (fun x => x.Type_ = property.TypePackage) = [q] ∧
        L.unmarshalPackage q.Value = some pp ∧
        props.Packages = [pp] ∧
        pp.PackageName = b.Package ∧
        L.semverParse pp.Version = some ver := by
  obtain ⟨hv, _⟩ := convert_ok h
  intro b hb
  have hs := hv.bundle_decodes b hb
  cases hd : decodeBundle L b with
  | none => simp [hd] at hs
  | some pv =>
    obtain ⟨hparse, pp, hpk, hpe, hver⟩ := decodeBundle_some hd
    obtain ⟨hlist, hall⟩ := parse_ok_packages hparse
    rw [hpk] at hlist
    cases hf : b.Properties.filter (fun x => x.Type_ = property.TypePackage) with
    | nil => simp [hf] at hlist
    | cons q rest =>
      rw [hf] at hlist hall
      have hq := hall q (List.mem_cons_self _ _)
      cases hdq : L.unmarshalPackage q.Value with
      | none => simp [hdq] at hq
      | some pq =>
        simp only [List.filterMap_cons, hdq, List.cons.injEq] at hlist
        cases rest with
        | nil => exact ⟨pv.1, q, pp, pv.2, hparse, rfl, by rw [hlist.1, hdq], hpk, hpe.symm, hver⟩
        | cons r rest2 =>
          have hr := hall r (by simp)
          cases hdr : L.unmarshalPackage r.Value with
          | none => simp [hdr] at hr
          | some pr => simp [hdr] at hlist

/-- Witness of C7: the build of `exampleInput` succeeds, and each bundle record has the one
`olm.package` property `examplePackageProperty`. -/
theorem convert_ok_identity_property_witness :
    ∃ m, ConvertDeclcfgToDiffModel exampleLib exampleInput = .ok m ∧
      ∀ b ∈ exampleInput.Bundles,
        ∃ props q pp ver,
          property.Parse exampleLib b.Properties = .ok props ∧
          b.Properties.filter (fun x => x.Type_ = property.TypePackage) = [q] ∧
          exampleLib.unmarshalPackage q.Value = some pp ∧
          props.Packages = [pp] ∧
          pp.PackageName = b.Package ∧
          exampleLib.semverParse pp.Version = some ver :=
  exampleInput_ok.elim (fun m hm =>
    ⟨m, hm, convert_ok_identity_property exampleLib exampleInput m hm⟩)

/-- C8: after a successful build the catalog holds a package under the name of every
package record, and every package of the catalog is the one held under the name of a package
record; the channels of that package are stored under their own names; if the record
declares no default channel the package has none; otherwise its default channel is the
channel stored under the declared name, which carries that name, and which is the
synthesized channel without bundles when no channel record of the input has that package
and name. -/
theorem convert_ok_default_channel (L : Lib) (cfg : declcfg.DeclarativeConfig)
    (m : DiffModel) (h : ConvertDeclcfgToDiffModel L cfg = .ok m) :
    (∀ p ∈ cfg.Packages, ∃ mp, GoMap.lookup p.Name m = some mp ∧
      mp.Channels.keys.Nodup ∧
      (∀ ckv ∈ mp.Channels, ckv.2.Name = ckv.1) ∧
      (p.DefaultChannel = "" → mp.DefaultChannel = none) ∧
      (p.DefaultChannel ≠ "" →
        mp.DefaultChannel = some p.DefaultChannel ∧
        ∃ ch, mp.Channels.lookup p.DefaultChannel = some ch ∧
          ch.Name = p.DefaultChannel ∧
          ((∀ c ∈ cfg.Channels, ¬ (c.Package = p.Name ∧ c.Name = p.DefaultChannel)) →
            ch = { Name := p.DefaultChannel, Package := p.Name, Bundles := [],
                   Properties := [] }))) ∧
    (∀ kv ∈ m, ∃ p ∈ cfg.Packages, p.Name = kv.1 ∧ GoMap.lookup kv.1 m = some kv.2) := by
  obtain ⟨hv, hm⟩ := convert_ok h
  have hkn : (GoMap.keys (cfg.Packages.map (fun p => (p.Name, specPackage L cfg p)))).Nodup := by
    have hk : GoMap.keys (cfg.Packages.map (fun p => (p.Name, specPackage L cfg p)))
        = cfg.Packages.map (fun p => p.Name) := by
      simp [GoMap.keys, Function.comp_def]
    rw [hk]
    exact hv.package_unique
  have hlk : ∀ p ∈ cfg.Packages, GoMap.lookup p.Name m = some (specPackage L cfg p) := by
    intro p hp
    rw [hm]
    exact GoMap.lookup_of_mem hkn (List.mem_map.mpr ⟨p, hp, rfl⟩)
  refine ⟨?_, ?_⟩
  swap
  · intro kv hkv
    rw [hm] at hkv
    obtain ⟨p, hp, rfl⟩ := List.mem_map.mp hkv
    exact ⟨p, hp, rfl, hlk p hp⟩
  intro p hp
  refine ⟨specPackage L cfg p, hlk p hp, ?_⟩
  rw [specPackage_eq hv hp]
  simp only
  have hrk : GoMap.keys ((cfg.Channels.filter (fun c => c.Package = p.Name)).map
      (fun c => (c.Name, specChannel L cfg c)))
      = (cfg.Channels.filter (fun c => c.Package = p.Name)).map (fun c => c.Name) := by
    simp [GoMap.keys, Function.comp_def]
  have hrn : (GoMap.keys ((cfg.Channels.filter (fun c => c.Package = p.Name)).map
      (fun c => (c.Name, specChannel L cfg c)))).Nodup := by
    rw [hrk]; exact hv.channel_unique p.Name
  have hnd : (GoMap.keys ((cfg.Channels.filter (fun c => c.Package = p.Name)).map
      (fun c => (c.Name, specChannel L cfg c)) ++ synthChannels cfg p)).Nodup := by
    unfold synthChannels
    by_cases hn : needsDefault cfg p
    · rw [if_pos hn]
      simp only [GoMap.keys, List.map_append, List.map_cons, List.map_nil]
      rw [List.nodup_append]
      refine ⟨hrn, by simp, ?_⟩
      intro a ha hb
      simp only [List.mem_singleton] at hb
      subst hb
      have ha' : p.DefaultChannel ∈ GoMap.keys ((cfg.Channels.filter
          (fun c => c.Package = p.Name)).map (fun c => (c.Name, specChannel L cfg c))) := ha
      rw [hrk] at ha'
      obtain ⟨c, hc, hcn⟩ := List.mem_map.mp ha'
      obtain ⟨hc1, hc2⟩ := List.mem_filter.mp hc
      exact hn.2 c hc1 ⟨by simpa using hc2, hcn⟩
    · rw [if_neg hn, List.append_nil]
      exact hrn
  refine ⟨hnd, ?_, ?_, ?_⟩
  · intro ckv hckv
    rcases List.mem_append.mp hckv with hc | hc
    · obtain ⟨c, _, rfl⟩ := List.mem_map.mp hc
      exact (specChannel_fields L cfg c).1
    · unfold synthChannels at hc
      by_cases hn : needsDefault cfg p
      · rw [if_pos hn] at hc
        simp only [List.mem_singleton] at hc
        subst hc
        rfl
      · rw [if_neg hn] at hc
        simp at hc
  · intro he
    rw [if_pos he]
  · intro hne
    rw [if_neg hne]
    refine ⟨rfl, ?_⟩
    by_cases hex : ∃ c ∈ cfg.Channels, c.Package = p.Name ∧ c.Name = p.DefaultChannel
    · obtain ⟨c, hc, hcp, hcn⟩ := hex
      refine ⟨specChannel L cfg c, ?_, ?_, ?_⟩
      · apply GoMap.lookup_of_mem hnd
        apply List.mem_append_left
        refine List.mem_map.mpr ⟨c, List.mem_filter.mpr ⟨hc, by simpa using hcp⟩, ?_⟩
        rw [hcn]
      · rw [(specChannel_fields L cfg c).1, hcn]
      · intro hno
        exact absurd ⟨hcp, hcn⟩ (hno c hc)
    · have hn : needsDefault cfg p := by
        refine ⟨hne, ?_⟩
        intro c hc hcc
        exact hex ⟨c, hc, hcc⟩
      refine ⟨{ Name := p.DefaultChannel, Package := p.Name }, ?_, rfl, fun _ => rfl⟩
      apply GoMap.lookup_of_mem hnd
      apply List.mem_append_right
      simp [synthChannels, hn]

/-- Witness of C8: the build of a package declaring the default channel `stable`, with no
`stable` channel record, succeeds, and the catalog holds under the package's name a package
whose default channel is `stable`, stored under that name, named `stable`, with zero
bundles. -/
theorem convert_ok_default_channel_witness :
    ∃ m, ConvertDeclcfgToDiffModel exampleLib defaultOnlyInput = .ok m ∧
      ∃ mp, GoMap.lookup "p" m = some mp ∧
        mp.DefaultChannel = some "stable" ∧
        mp.Channels.lookup "stable" =
          some { Name := "stable", Package := "p", Bundles := [], Properties := [] } := by
  refine ⟨_, rfl, ?_⟩
  obtain ⟨mp, hl, _, _, _, hd⟩ :=
    (convert_ok_default_channel exampleLib defaultOnlyInput _ rfl).1
      { Name := "p", DefaultChannel := "stable" } (by simp [defaultOnlyInput])
  obtain ⟨h1, ch, h2, _, h4⟩ := hd (by decide)
  refine ⟨mp, hl, h1, ?_⟩
  rw [h2, h4 (by decide)]

/-! ## The awaiting-entries set is overwritten per channel record -/

/-- C4 (failing input): on `danglingEntryInput` the entry `foo` of the channel `c1` has no
bundle record, yet the build succeeds, and the view `foo` of `c1` in the catalog is the
unfilled stub: no image, no properties, no decoded properties. -/
theorem convert_accepts_entry_without_bundle :
    (∃ c ∈ danglingEntryInput.Channels, ∃ e ∈ c.Entries,
      ∀ b ∈ danglingEntryInput.Bundles, ¬ (b.Package = c.Package ∧ b.Name = e.Name)) ∧
    ∃ m, ConvertDeclcfgToDiffModel exampleLib danglingEntryInput = .ok m ∧
      ((m.lookup "p").bind (fun mp => (mp.Channels.lookup "c1").bind
        (fun ch => ch.Bundles.lookup "foo")))
        = some { Name := "foo", Package := "p", Channel := "c1" } := by
  refine ⟨by decide, _, rfl, ?_⟩
  decide

/-- C10 (failing input): `danglingEntryInput` and `danglingEntryInputReordered` differ only
in the order of their channel records; the build succeeds on the first and fails on the
second. -/
theorem convert_depends_on_channel_order :
    danglingEntryInputReordered.Packages.Perm danglingEntryInput.Packages ∧
    danglingEntryInputReordered.Channels.Perm danglingEntryInput.Channels ∧
    danglingEntryInputReordered.Bundles.Perm danglingEntryInput.Bundles ∧
    (∃ m, ConvertDeclcfgToDiffModel exampleLib danglingEntryInput = .ok m) ∧
    ConvertDeclcfgToDiffModel exampleLib danglingEntryInputReordered
      = .error (.noBundleBlobs "p" ["foo"]) := by
  refine ⟨List.Perm.refl _, List.reverse_perm _, List.Perm.refl _, ⟨_, rfl⟩, ?_⟩
  decide

/-! ## The serializer, loop by loop -/

theorem mergeView_eq (bm : GoMap declcfg.Bundle) (chb : DiffBundle) :
    mergeView bm chb =
      bm.insert chb.Name
        { (bm.lookup chb.Name).getD (newRecord chb) with
          Properties := ((bm.lookup chb.Name).getD (newRecord chb)).Properties
            ++ chb.Properties } := by
  unfold mergeView traverseBundle
  cases GoMap.lookup chb.Name bm <;> rfl

theorem foldl_traverseBundle (vs : List DiffBundle) :
    ∀ (es : List declcfg.ChannelEntry) (bm : GoMap declcfg.Bundle),
      vs.foldl traverseBundle (es, bm) = (es ++ vs.map entryOf, vs.foldl mergeView bm) := by
  induction vs with
  | nil => intro es bm; simp
  | cons v vs ih =>
    intro es bm
    simp only [List.foldl_cons, List.map_cons]
    have : traverseBundle (es, bm) v = (es ++ [entryOf v], mergeView bm v) := rfl
    rw [this, ih]
    simp

theorem traverseChannel_eq (st : List declcfg.Channel × GoMap declcfg.Bundle)
    (ch : DiffChannel) :
    traverseChannel st ch
      = (st.1 ++ [channelRecord ch], ch.Bundles.values.foldl mergeView st.2) := by
  unfold traverseChannel
  simp only [foldl_traverseBundle, List.nil_append]
  rfl

theorem foldl_traverseChannel (chs : List DiffChannel) :
    ∀ (st : List declcfg.Channel × GoMap declcfg.Bundle),
      chs.foldl traverseChannel st
        = (st.1 ++ chs.map channelRecord,
           (chs.flatMap (fun ch => ch.Bundles.values)).foldl mergeView st.2) := by
  induction chs with
  | nil => intro st; simp
  | cons ch chs ih =>
    intro st
    simp only [List.foldl_cons, List.map_cons, List.flatMap_cons, List.foldl_append]
    rw [traverseChannel_eq, ih]
    simp

theorem traverseModelChannels_eq (mpkg : DiffPackage) :
    traverseModelChannels mpkg
      = (mpkg.Channels.values.map channelRecord, bundleRecords mpkg) := by
  unfold traverseModelChannels bundleRecords allViews
  simp only [foldl_traverseChannel, List.nil_append]

theorem emitPackage_eq (cfg : declcfg.DeclarativeConfig) (mpkg : DiffPackage) :
    emitPackage cfg mpkg =
      { Packages := cfg.Packages ++ [packageRecord mpkg]
        Channels := cfg.Channels ++ mpkg.Channels.values.map channelRecord
        Bundles := cfg.Bundles ++ bundleRecords mpkg } := by
  unfold emitPackage
  simp only [traverseModelChannels_eq]
  unfold packageRecord
  cases mpkg.DefaultChannel <;> rfl

theorem foldl_emitPackage (pkgs : List DiffPackage) :
    ∀ (cfg : declcfg.DeclarativeConfig),
      pkgs.foldl emitPackage cfg =
        { Packages := cfg.Packages ++ pkgs.map packageRecord
          Channels := cfg.Channels ++
            pkgs.flatMap (fun mpkg => mpkg.Channels.values.map channelRecord)
          Bundles := cfg.Bundles ++ pkgs.flatMap bundleRecords } := by
  induction pkgs with
  | nil => intro cfg; simp
  | cons p pkgs ih =>
    intro cfg
    simp only [List.foldl_cons, List.map_cons, List.flatMap_cons]
    rw [emitPackage_eq, ih]
    simp

/-- The output of the serializer: the three lists of records, each sorted. -/
theorem convertDiffModelToDeclcfg_eq (m : DiffModel) :
    ConvertDiffModelToDeclcfg m =
      { Packages := sortSlice packageLess (m.values.map packageRecord)
        Channels := sortSlice channelLess
          (m.values.flatMap (fun mpkg => mpkg.Channels.values.map channelRecord))
        Bundles := sortSlice bundleLess (m.values.flatMap bundleRecords) } := by
  unfold ConvertDiffModelToDeclcfg
  simp only [foldl_emitPackage, List.nil_append]

theorem sortSlice_perm {α : Type} (less : α → α → Bool) (l : List α) :
    (sortSlice less l).Perm l := by
  unfold sortSlice
  exact List.perm_insertionSort _ l

theorem GoMap.keys_insert_nodup {β : Type} (k : String) (v : β) {m : GoMap β}
    (hn : m.keys.Nodup) : (GoMap.insert k v m).keys.Nodup := by
  by_cases hk : k ∈ m.keys
  · rw [GoMap.keys_insert_of_mem v hk]; exact hn
  · rw [GoMap.insert_of_not_mem v hk]
    simp only [GoMap.keys, List.map_append, List.map_cons, List.map_nil]
    rw [List.nodup_append]
    refine ⟨hn, by simp, ?_⟩
    intro a ha hb
    simp only [List.mem_singleton] at hb
    subst hb
    exact hk ha

theorem GoMap.mem_keys_insert {β : Type} (k k' : String) (v : β) (m : GoMap β) :
    k' ∈ (GoMap.insert k v m).keys ↔ k' = k ∨ k' ∈ m.keys := by
  rw [← GoMap.lookup_isSome_iff, GoMap.lookup_insert, ← GoMap.lookup_isSome_iff]
  by_cases h : k = k'
  · simp [h]
  · have h2 : ¬ k' = k := fun e => h e.symm
    simp [h, h2]

theorem keys_foldl_mergeView_nodup (vs : List DiffBundle) :
    ∀ (bm : GoMap declcfg.Bundle), bm.keys.Nodup → (vs.foldl mergeView bm).keys.Nodup := by
  induction vs with
  | nil => intro bm h; exact h
  | cons v vs ih =>
    intro bm h
    simp only [List.foldl_cons]
    apply ih
    rw [mergeView_eq]
    exact GoMap.keys_insert_nodup _ _ h

theorem mem_keys_foldl_mergeView (vs : List DiffBundle) :
    ∀ (bm : GoMap declcfg.Bundle) (n : String),
      n ∈ (vs.foldl mergeView bm).keys ↔ n ∈ bm.keys ∨ ∃ v ∈ vs, v.Name = n := by
  induction vs with
  | nil => intro bm n; simp
  | cons v vs ih =>
    intro bm n
    simp only [List.foldl_cons]
    rw [ih, mergeView_eq, GoMap.mem_keys_insert]
    simp only [List.mem_cons, exists_eq_or_imp]
    constructor
    · rintro ((h | h) | h)
      · exact Or.inr (Or.inl h.symm)
      · exact Or.inl h
      · exact Or.inr (Or.inr h)
    · rintro (h | h | h)
      · exact Or.inl (Or.inr h)
      · exact Or.inl (Or.inl h.symm)
      · exact Or.inr h

/-- The content of the serializer's `bundleMap`, name by name. -/
theorem lookup_foldl_mergeView (vs : List DiffBundle) :
    ∀ (bm : GoMap declcfg.Bundle) (n : String),
      GoMap.lookup n (vs.foldl mergeView bm) = mergedRecord bm vs n := by
  induction vs with
  | nil => intro bm n; rfl
  | cons v vs ih =>
    intro bm n
    simp only [List.foldl_cons]
    rw [ih]
    unfold mergedRecord
    rw [mergeView_eq, GoMap.lookup_insert]
    by_cases hv : v.Name = n
    · subst hv
      simp only [if_true, decide_True, List.filter_cons_of_pos]
      cases hf : vs.filter (fun x => x.Name = v.Name) with
      | nil => simp
      | cons w rest => simp [List.append_assoc]
    · simp only [hv, if_false, decide_False, Bool.false_eq_true, not_false_eq_true,
        List.filter_cons_of_neg]

theorem mergedRecord_nil_some {vs : List DiffBundle} {n : String} {y : declcfg.Bundle}
    (h : mergedRecord [] vs n = some y) :
    ∃ v rest, vs.filter (fun x => x.Name = n) = v :: rest ∧
      y = { newRecord v with Properties := (v :: rest).flatMap (fun x => x.Properties) } := by
  unfold mergedRecord at h
  cases hf : vs.filter (fun x => x.Name = n) with
  | nil => simp [hf, GoMap.lookup] at h
  | cons v rest =>
    simp only [hf, GoMap.lookup, Option.getD_none, Option.some.injEq] at h
    refine ⟨v, rest, rfl, ?_⟩
    rw [← h]
    simp [newRecord]

theorem mergedRecord_name {vs : List DiffBundle} {n : String} {y : declcfg.Bundle}
    (h : mergedRecord [] vs n = some y) : y.Name = n := by
  obtain ⟨v, rest, hf, hy⟩ := mergedRecord_nil_some h
  have hv : v ∈ vs.filter (fun x => x.Name = n) := by rw [hf]; exact List.mem_cons_self _ _
  have := (List.mem_filter.mp hv).2
  rw [hy]
  simpa [newRecord] using this

/-- The bundle records emitted for a package: one per name stored in `bundleMap`. -/
theorem mem_bundleRecords (mpkg : DiffPackage) (x : declcfg.Bundle) :
    x ∈ bundleRecords mpkg ↔
      ∃ n y, mergedRecord [] (allViews mpkg) n = some y ∧ x = finishBundle y := by
  unfold bundleRecords
  have hn : ((allViews mpkg).foldl mergeView []).keys.Nodup :=
    keys_foldl_mergeView_nodup _ [] (by simp [GoMap.keys])
  simp only [List.mem_map, GoMap.values]
  constructor
  · rintro ⟨y, ⟨⟨k, y'⟩, hkv, rfl⟩, rfl⟩
    refine ⟨k, y', ?_, rfl⟩
    rw [← lookup_foldl_mergeView]
    exact GoMap.lookup_of_mem hn hkv
  · rintro ⟨n, y, hl, rfl⟩
    rw [← lookup_foldl_mergeView] at hl
    exact ⟨y, ⟨(n, y), GoMap.mem_of_lookup hl, rfl⟩, rfl⟩

theorem bundleRecords_names (mpkg : DiffPackage) :
    (bundleRecords mpkg).map (fun b => b.Name) = ((allViews mpkg).foldl mergeView []).keys := by
  unfold bundleRecords GoMap.values GoMap.keys
  have hn : ((allViews mpkg).foldl mergeView []).keys.Nodup :=
    keys_foldl_mergeView_nodup _ [] (by simp [GoMap.keys])
  rw [List.map_map, List.map_map]
  apply List.map_congr_left
  rintro ⟨k, y⟩ hkv
  have hl := GoMap.lookup_of_mem hn hkv
  rw [lookup_foldl_mergeView] at hl
  exact mergedRecord_name (y := y) hl

theorem bundleRecords_nodup (mpkg : DiffPackage) : (bundleRecords mpkg).Nodup := by
  apply List.Nodup.of_map (fun b => b.Name)
  rw [bundleRecords_names]
  exact keys_foldl_mergeView_nodup _ [] (by simp [GoMap.keys])

theorem mem_deduplicate (l : List property.Property) (x : property.Property) :
    x ∈ property.Deduplicate l ↔ x ∈ l := by
  induction l with
  | nil => simp [property.Deduplicate]
  | cons p l ih =>
    simp only [property.Deduplicate, List.mem_cons, List.mem_filter, ih, ne_eq,
      decide_not, Bool.not_eq_true', decide_eq_false_iff_not]
    by_cases h : x = p <;> simp [h]

theorem deduplicate_append (l l' : List property.Property) :
    property.Deduplicate (l ++ l') =
      property.Deduplicate l ++ (property.Deduplicate l').filter (fun x => x ∉ l) := by
  induction l with
  | nil => simp [property.Deduplicate]
  | cons p l ih =>
    have e : property.Deduplicate (p :: l ++ l')
        = p :: (property.Deduplicate (l ++ l')).filter (fun q => q ≠ p) := rfl
    rw [e, ih, List.filter_append, List.filter_filter]
    simp only [property.Deduplicate, List.cons_append, List.cons.injEq, true_and]
    congr 1
    apply List.filter_congr
    intro x _
    by_cases h : x = p <;> simp [h]

theorem deduplicate_append_of_subset {l l' : List property.Property}
    (h : ∀ x ∈ l', x ∈ l) : property.Deduplicate (l ++ l') = property.Deduplicate l := by
  rw [deduplicate_append]
  have : (property.Deduplicate l').filter (fun x => x ∉ l) = [] := by
    rw [List.filter_eq_nil_iff]
    intro x hx
    have := h x ((mem_deduplicate l' x).mp hx)
    simpa using this
  rw [this, List.append_nil]

theorem deduplicate_flatMap_const {vs : List DiffBundle} {ps : List property.Property}
    (h : ∀ v ∈ vs, v.Properties = ps) (hne : vs ≠ []) :
    property.Deduplicate (vs.flatMap (fun x => x.Properties)) = property.Deduplicate ps := by
  cases vs with
  | nil => exact absurd rfl hne
  | cons v rest =>
    simp only [List.flatMap_cons]
    rw [h v (List.mem_cons_self _ _)]
    apply deduplicate_append_of_subset
    intro x hx
    obtain ⟨w, hw, hxw⟩ := List.mem_flatMap.mp hx
    rw [h w (List.mem_cons_of_mem _ hw)] at hxw
    exact hxw

/-! ## The bundle views of a built catalog -/

theorem fillChannel_eq_map (b : declcfg.Bundle) (props : property.Properties)
    (ver : semver.Version) (mch : DiffChannel) (hn : mch.Bundles.keys.Nodup) :
    fillChannel b props ver mch =
      { mch with
        Bundles := mch.Bundles.map (fun kv =>
          (kv.1, if kv.1 = b.Name then fillBundle b props ver kv.2 else kv.2)) } := by
  unfold fillChannel
  cases hl : GoMap.lookup b.Name mch.Bundles with
  | none =>
    have hk := (GoMap.lookup_eq_none_iff _ _).mp hl
    simp only
    symm
    rw [List.map_congr_left (g := id)]
    · simp
    · rintro ⟨k, v⟩ hkv
      have : k ≠ b.Name := by
        intro e
        apply hk
        rw [← e]
        exact List.mem_map_of_mem Prod.fst hkv
      simp [this]
  | some mb =>
    have hmem : b.Name ∈ mch.Bundles.keys := by
      rw [← GoMap.lookup_isSome_iff, hl]; rfl
    simp only
    rw [GoMap.insert_eq_modify _ hn hmem]
    unfold GoMap.modify
    congr 1
    apply List.map_congr_left
    rintro ⟨k, v⟩ hkv
    by_cases hk : k = b.Name
    · have hv : v = mb := by
        have := GoMap.lookup_of_mem hn hkv
        rw [hk, hl] at this
        exact (Option.some.inj this).symm
      simp [hk, hv]
    · simp [hk]

theorem fillFrom_eq_map (L : Lib) (b : declcfg.Bundle) (mch : DiffChannel)
    (hn : mch.Bundles.keys.Nodup) :
    fillFrom L b mch =
      { mch with Bundles := mch.Bundles.map (fun kv => (kv.1, fillView L b kv.1 kv.2)) } := by
  unfold fillFrom fillView
  cases hd : decodeBundle L b with
  | none =>
    simp only
    symm
    have : mch.Bundles.map (fun kv => (kv.1, kv.2)) = mch.Bundles := by simp
    rw [this]
  | some pv =>
    simp only
    exact fillChannel_eq_map b pv.1 pv.2 mch hn

theorem foldl_fillFrom_eq_map (L : Lib) (bs : List declcfg.Bundle) :
    ∀ (mch : DiffChannel), mch.Bundles.keys.Nodup →
      bs.foldl (fun ch b => fillFrom L b ch) mch =
        { mch with
          Bundles := mch.Bundles.map (fun kv =>
            (kv.1, bs.foldl (fun v b => fillView L b kv.1 v) kv.2)) } := by
  induction bs with
  | nil =>
    intro mch _
    simp
  | cons b bs ih =>
    intro mch hn
    simp only [List.foldl_cons]
    have hn1 : (fillFrom L b mch).Bundles.keys.Nodup := by
      rw [fillFrom_keys]; exact hn
    rw [ih _ hn1, fillFrom_eq_map L b mch hn]
    simp [List.map_map, Function.comp_def]

/-- The explicit form of the channel a successful build derives from a channel record. -/
theorem specChannel_eq (L : Lib) (cfg : declcfg.DeclarativeConfig) (c : declcfg.Channel)
    (hn : (c.Entries.map (fun e => e.Name)).Nodup) :
    specChannel L cfg c =
      { Name := c.Name
        Package := c.Package
        Bundles := c.Entries.map (fun e => (e.Name, specView L cfg c e))
        Properties := c.Properties } := by
  unfold specChannel
  have hk : (mkChannel c.Package c).Bundles.keys.Nodup := by
    simpa [mkChannel, GoMap.keys, Function.comp_def] using hn
  rw [foldl_fillFrom_eq_map L _ _ hk]
  simp [DiffChannel.Normalize, mkChannel, List.map_map, Function.comp_def, specView]

theorem foldl_fillView_none (L : Lib) (n : String) (bs : List declcfg.Bundle)
    (h : ∀ b ∈ bs, b.Name ≠ n) (v : DiffBundle) :
    bs.foldl (fun v b => fillView L b n v) v = v := by
  induction bs generalizing v with
  | nil => rfl
  | cons b bs ih =>
    simp only [List.foldl_cons]
    have hb : b.Name ≠ n := h b (List.mem_cons_self _ _)
    have hb2 : ¬ n = b.Name := fun e => hb e.symm
    have : fillView L b n v = v := by
      unfold fillView
      cases decodeBundle L b <;> simp [hb2]
    rw [this]
    exact ih (fun b' hb' => h b' (List.mem_cons_of_mem _ hb')) v

theorem foldl_fillView_some (L : Lib) (bs : List declcfg.Bundle)
    (hn : (bs.map (fun b => b.Name)).Nodup) {b : declcfg.Bundle} (hb : b ∈ bs)
    {pv : property.Properties × semver.Version} (hd : decodeBundle L b = some pv)
    (v : DiffBundle) :
    bs.foldl (fun v x => fillView L x b.Name v) v = fillBundle b pv.1 pv.2 v := by
  induction bs generalizing v with
  | nil => simp at hb
  | cons b0 bs ih =>
    simp only [List.map_cons, List.nodup_cons] at hn
    simp only [List.foldl_cons]
    by_cases h0 : b0.Name = b.Name
    · have hbe : b = b0 := by
        rcases List.mem_cons.mp hb with e | e
        · exact e
        · exfalso
          apply hn.1
          rw [h0]
          exact List.mem_map_of_mem (fun b => b.Name) e
      subst hbe
      have : fillView L b b.Name v = fillBundle b pv.1 pv.2 v := by
        simp [fillView, hd]
      rw [this]
      apply foldl_fillView_none
      intro b' hb' e
      apply hn.1
      rw [← e]
      exact List.mem_map_of_mem (fun b => b.Name) hb'
    · have hb' : b ∈ bs := by
        rcases List.mem_cons.mp hb with e | e
        · exact absurd (e ▸ rfl) h0
        · exact e
      have h1 : ¬ b.Name = b0.Name := fun e => h0 e.symm
      have : fillView L b0 b.Name v = v := by
        unfold fillView
        cases decodeBundle L b0 <;> simp [h1]
      rw [this]
      exact ih hn.2 hb' v

theorem fillView_entry (L : Lib) (b : declcfg.Bundle) (n : String) (v : DiffBundle) :
    entryOf (fillView L b n v) = entryOf v ∧ (fillView L b n v).Name = v.Name ∧
      (fillView L b n v).Package = v.Package := by
  unfold fillView
  cases decodeBundle L b with
  | none => exact ⟨rfl, rfl, rfl⟩
  | some pv =>
    simp only
    split <;> exact ⟨rfl, rfl, rfl⟩

theorem foldl_fillView_entry (L : Lib) (n : String) (bs : List declcfg.Bundle)
    (v : DiffBundle) :
    entryOf (bs.foldl (fun v b => fillView L b n v) v) = entryOf v ∧
      (bs.foldl (fun v b => fillView L b n v) v).Name = v.Name ∧
      (bs.foldl (fun v b => fillView L b n v) v).Package = v.Package := by
  induction bs generalizing v with
  | nil => exact ⟨rfl, rfl, rfl⟩
  | cons b bs ih =>
    simp only [List.foldl_cons]
    obtain ⟨h1, h2, h3⟩ := ih (fillView L b n v)
    obtain ⟨g1, g2, g3⟩ := fillView_entry L b n v
    exact ⟨h1.trans g1, h2.trans g2, h3.trans g3⟩

/-- The edge data, the name and the package of a view of the built catalog are those of
the entry it was created for. -/
theorem specView_entry (L : Lib) (cfg : declcfg.DeclarativeConfig) (c : declcfg.Channel)
    (e : declcfg.ChannelEntry) :
    entryOf (specView L cfg c e) = e ∧ (specView L cfg c e).Name = e.Name ∧
      (specView L cfg c e).Package = c.Package := by
  obtain ⟨h1, h2, h3⟩ := foldl_fillView_entry L e.Name
    (cfg.Bundles.filter (fun b => b.Package = c.Package)) (mkStub c.Package c e)
  refine ⟨?_, ?_, ?_⟩
  · have : entryOf (specView L cfg c e) = entryOf
        ((cfg.Bundles.filter (fun b => b.Package = c.Package)).foldl
          (fun v b => fillView L b e.Name v) (mkStub c.Package c e)) := rfl
    rw [this, h1]
    rfl
  · exact h2
  · exact h3

/-- A view of the built catalog whose name is that of a bundle record of its package is
that record's content, properties normalized, on the entry's stub. -/
theorem specView_filled {L : Lib} {cfg : declcfg.DeclarativeConfig} (hv : ValidInput L cfg)
    (c : declcfg.Channel) (e : declcfg.ChannelEntry) {b : declcfg.Bundle}
    (hb : b ∈ cfg.Bundles) (hp : b.Package = c.Package) (hname : b.Name = e.Name) :
    ∃ pv, decodeBundle L b = some pv ∧
      specView L cfg c e =
        DiffBundle.Normalize L (fillBundle b pv.1 pv.2 (mkStub c.Package c e)) := by
  have hs := hv.bundle_decodes b hb
  cases hd : decodeBundle L b with
  | none => simp [hd] at hs
  | some pv =>
    refine ⟨pv, rfl, ?_⟩
    unfold specView
    rw [← hname]
    rw [foldl_fillView_some L _ (hv.bundle_unique c.Package)
      (List.mem_filter.mpr ⟨hb, by simpa using hp⟩) hd]

/-! ## Round trip -/

theorem flatMap_filter_perm_aux {α β : Type} (key : α → String) (name : β → String)
    (cs : List α) (ps : List β) (hn : (ps.map name).Nodup) :
    (ps.flatMap (fun p => cs.filter (fun c => key c = name p))).Perm
      (cs.filter (fun c => key c ∈ ps.map name)) := by
  induction ps with
  | nil => simp
  | cons p ps ih =>
    simp only [List.map_cons, List.nodup_cons] at hn
    simp only [List.flatMap_cons]
    refine (List.Perm.append_left _ (ih hn.2)).trans ?_
    have hA := List.filter_append_perm (fun c => decide (key c = name p))
      (cs.filter (fun c => key c ∈ (p :: ps).map name))
    refine List.Perm.trans ?_ hA
    rw [List.filter_filter, List.filter_filter]
    have e1 : cs.filter (fun c => decide (key c = name p)) =
        cs.filter (fun a => decide (key a = name p) &&
          decide (key a ∈ (p :: ps).map name)) := by
      apply List.filter_congr
      intro c _
      by_cases hc : key c = name p <;> simp [hc]
    have e2 : cs.filter (fun c => decide (key c ∈ ps.map name)) =
        cs.filter (fun a => (!decide (key a = name p)) &&
          decide (key a ∈ (p :: ps).map name)) := by
      apply List.filter_congr
      intro c _
      by_cases hc : key c = name p
      · have : key c ∉ ps.map name := by rw [hc]; exact hn.1
        simp only [hc, decide_True, Bool.not_true, Bool.false_and, decide_eq_false_iff_not]
        rw [← hc]
        exact this
      · simp [hc]
    rw [← e1, ← e2]

/-- Grouping a list by the names of a duplicate-free list that covers its keys permutes
it. -/
theorem flatMap_filter_perm {α β : Type} (key : α → String) (name : β → String)
    (cs : List α) (ps : List β) (hn : (ps.map name).Nodup)
    (hall : ∀ c ∈ cs, key c ∈ ps.map name) :
    (ps.flatMap (fun p => cs.filter (fun c => key c = name p))).Perm cs := by
  have h := flatMap_filter_perm_aux key name cs ps hn
  have e : cs.filter (fun c => key c ∈ ps.map name) = cs := by
    rw [List.filter_eq_self]
    intro c hc
    simpa using hall c hc
  rw [e] at h
  exact h

theorem relatedImages_roundtrip (l : List declcfg.RelatedImage) :
    declcfg.ModelRelatedImagesToRelatedImages (declcfg.RelatedImagesToModelRelatedImages l)
      = l := by
  unfold declcfg.ModelRelatedImagesToRelatedImages declcfg.RelatedImagesToModelRelatedImages
  rw [List.map_map]
  conv_rhs => rw [← List.map_id l]
  rfl

theorem packageRecord_specPackage {L : Lib} {cfg : declcfg.DeclarativeConfig}
    (hv : ValidInput L cfg) {p : declcfg.Package} (hp : p ∈ cfg.Packages) :
    packageRecord (specPackage L cfg p) = expectedPackage p := by
  rw [specPackage_eq hv hp]
  unfold packageRecord expectedPackage
  obtain ⟨s, n, d, i, desc⟩ := p
  by_cases hd : d = ""
  · cases i <;> simp [hd]
  · cases i <;> simp [hd]

theorem channelRecord_specChannel {L : Lib} {cfg : declcfg.DeclarativeConfig}
    (hv : ValidInput L cfg) {c : declcfg.Channel} (hc : c ∈ cfg.Channels) :
    channelRecord (specChannel L cfg c) = expectedChannel c := by
  rw [specChannel_eq L cfg c (hv.entry_unique c hc)]
  unfold channelRecord expectedChannel
  simp only [GoMap.values, List.map_map, Function.comp_def]
  have : c.Entries.map (fun e => entryOf (specView L cfg c e)) = c.Entries := by
    conv_rhs => rw [← List.map_id c.Entries]
    apply List.map_congr_left
    intro e _
    exact (specView_entry L cfg c e).1
  rw [this]

theorem values_map_pair {α β : Type} (f : α → String) (g : α → β) (l : List α) :
    GoMap.values (l.map (fun a => (f a, g a))) = l.map g := by
  simp [GoMap.values, Function.comp_def]

theorem channelRecords_specPackage {L : Lib} {cfg : declcfg.DeclarativeConfig}
    (hv : ValidInput L cfg) {p : declcfg.Package} (hp : p ∈ cfg.Packages) :
    (specPackage L cfg p).Channels.values.map channelRecord =
      (cfg.Channels.filter (fun c => c.Package = p.Name)).map expectedChannel ++
        (if needsDefault cfg p then [synthRecord p] else []) := by
  rw [specPackage_eq hv hp]
  simp only [GoMap.values, List.map_append, List.map_map, Function.comp_def]
  congr 1
  · apply List.map_congr_left
    intro c hc
    exact channelRecord_specChannel hv (List.mem_filter.mp hc).1
  · unfold synthChannels
    by_cases hn : needsDefault cfg p
    · simp only [hn, if_true, List.map_cons, List.map_nil]
      rfl
    · simp [hn]

theorem flatMap_ite_singleton {α β : Type} (q : α → Prop) [DecidablePred q] (f : α → β)
    (l : List α) :
    l.flatMap (fun a => if q a then [f a] else []) = (l.filter (fun a => q a)).map f := by
  induction l with
  | nil => rfl
  | cons a l ih =>
    simp only [List.flatMap_cons, ih]
    by_cases h : q a <;> simp [h]

/-- The package records of the round trip. -/
theorem roundtrip_packages {L : Lib} {cfg : declcfg.DeclarativeConfig} {m : DiffModel}
    (h : ConvertDeclcfgToDiffModel L cfg = .ok m) :
    (ConvertDiffModelToDeclcfg m).Packages.Perm (cfg.Packages.map expectedPackage) := by
  obtain ⟨hv, hm⟩ := convert_ok h
  rw [convertDiffModelToDeclcfg_eq]
  simp only
  refine (sortSlice_perm _ _).trans ?_
  rw [hm, values_map_pair, List.map_map]
  have : cfg.Packages.map (packageRecord ∘ fun p => specPackage L cfg p)
      = cfg.Packages.map expectedPackage := by
    apply List.map_congr_left
    intro p hp
    exact packageRecord_specPackage hv hp
  rw [this]

/-- The channel records of the round trip. -/
theorem roundtrip_channels {L : Lib} {cfg : declcfg.DeclarativeConfig} {m : DiffModel}
    (h : ConvertDeclcfgToDiffModel L cfg = .ok m) :
    (ConvertDiffModelToDeclcfg m).Channels.Perm
      (cfg.Channels.map expectedChannel ++
        (cfg.Packages.filter (fun p => needsDefault cfg p)).map synthRecord) := by
  obtain ⟨hv, hm⟩ := convert_ok h
  rw [convertDiffModelToDeclcfg_eq]
  simp only
  refine (sortSlice_perm _ _).trans ?_
  rw [hm, values_map_pair, List.flatMap_map]
  have e1 : (cfg.Packages.flatMap
      (fun p => (specPackage L cfg p).Channels.values.map channelRecord)).Perm
      (cfg.Packages.flatMap (fun p =>
        (cfg.Channels.filter (fun c => c.Package = p.Name)).map expectedChannel ++
          (if needsDefault cfg p then [synthRecord p] else []))) := by
    apply List.Perm.flatMap_left
    intro p hp
    rw [channelRecords_specPackage hv hp]
  refine e1.trans ?_
  refine (List.flatMap_append_perm _ _ _).symm.trans ?_
  apply List.Perm.append
  · rw [← List.map_flatMap]
    apply List.Perm.map
    exact flatMap_filter_perm (fun c => c.Package) (fun p => p.Name) cfg.Channels
      cfg.Packages hv.package_unique hv.channel_package
  · rw [flatMap_ite_singleton]

/-- The views of a built package: one per entry of each of its channel records. -/
theorem allViews_specPackage {L : Lib} {cfg : declcfg.DeclarativeConfig}
    (hv : ValidInput L cfg) {p : declcfg.Package} (hp : p ∈ cfg.Packages) :
    allViews (specPackage L cfg p) =
      (cfg.Channels.filter (fun c => c.Package = p.Name)).flatMap
        (fun c => c.Entries.map (fun e => specView L cfg c e)) := by
  rw [specPackage_eq hv hp]
  unfold allViews
  simp only [GoMap.values, List.map_append, List.map_map, Function.comp_def,
    List.flatMap_append, List.flatMap_map]
  have hs : List.flatMap (synthChannels cfg p) (fun a => List.map Prod.snd a.2.Bundles)
      = [] := by
    unfold synthChannels
    by_cases hn : needsDefault cfg p <;> simp [hn]
  rw [hs, List.append_nil]
  apply List.flatMap_congr
  intro c hc
  rw [specChannel_eq L cfg c (hv.entry_unique c (List.mem_filter.mp hc).1)]
  simp [Function.comp_def]

/-- A view backed by a bundle record creates that record's singular fields on
serialization and carries its normalized properties. -/
theorem specView_record {L : Lib} {cfg : declcfg.DeclarativeConfig} (hv : ValidInput L cfg)
    (c : declcfg.Channel) (e : declcfg.ChannelEntry) {b : declcfg.Bundle}
    (hb : b ∈ cfg.Bundles) (hp : b.Package = c.Package) (hname : b.Name = e.Name) :
    newRecord (specView L cfg c e)
        = { b with Schema := declcfg.SchemaBundle, Properties := [] } ∧
      (specView L cfg c e).Properties = b.Properties.map (normalizeProperty L) := by
  obtain ⟨pv, _, hview⟩ := specView_filled hv c e hb hp hname
  rw [hview]
  constructor
  · simp only [newRecord, DiffBundle.Normalize, fillBundle, mkStub, relatedImages_roundtrip,
      ← hname, ← hp]
  · rfl

/-- The bundle records emitted for a built package, when every entry is backed by a bundle
record. -/
theorem bundleRecords_specPackage {L : Lib} {cfg : declcfg.DeclarativeConfig}
    (hv : ValidInput L cfg) (hback : EntriesBacked cfg) {p : declcfg.Package}
    (hp : p ∈ cfg.Packages) :
    (bundleRecords (specPackage L cfg p)).Perm
      ((cfg.Bundles.filter (fun b => b.Package = p.Name)).map (expectedBundle L)) := by
  have hviews : ∀ v ∈ allViews (specPackage L cfg p),
      ∃ c ∈ cfg.Channels, c.Package = p.Name ∧ ∃ e ∈ c.Entries, v = specView L cfg c e := by
    intro v hvm
    rw [allViews_specPackage hv hp] at hvm
    obtain ⟨c, hc, hve⟩ := List.mem_flatMap.mp hvm
    obtain ⟨e, he, rfl⟩ := List.mem_map.mp hve
    obtain ⟨hc1, hc2⟩ := List.mem_filter.mp hc
    exact ⟨c, hc1, by simpa using hc2, e, he, rfl⟩
  -- every view named like the record `b` of the package carries the content of `b`
  have hcontent : ∀ b ∈ cfg.Bundles, b.Package = p.Name →
      ∀ v ∈ allViews (specPackage L cfg p), v.Name = b.Name →
        newRecord v = { b with Schema := declcfg.SchemaBundle, Properties := [] } ∧
          v.Properties = b.Properties.map (normalizeProperty L) := by
    intro b hb hbp v hvm hvn
    obtain ⟨c, hc, hcp, e, he, rfl⟩ := hviews v hvm
    have hen : b.Name = e.Name := by
      rw [← hvn]; exact (specView_entry L cfg c e).2.1
    exact specView_record hv c e hb (hbp.trans hcp.symm) hen
  have hmerged : ∀ b ∈ cfg.Bundles, b.Package = p.Name → ∀ y,
      mergedRecord [] (allViews (specPackage L cfg p)) b.Name = some y →
        finishBundle y = expectedBundle L b := by
    intro b hb hbp y hy
    obtain ⟨v, rest, hf, hye⟩ := mergedRecord_nil_some hy
    have hin : ∀ w ∈ v :: rest,
        w ∈ allViews (specPackage L cfg p) ∧ w.Name = b.Name := by
      intro w hw
      rw [← hf] at hw
      obtain ⟨hw1, hw2⟩ := List.mem_filter.mp hw
      exact ⟨hw1, by simpa using hw2⟩
    have hv0 := hcontent b hb hbp v (hin v (List.mem_cons_self _ _)).1
      (hin v (List.mem_cons_self _ _)).2
    have hprops : property.Deduplicate ((v :: rest).flatMap (fun x => x.Properties))
        = property.Deduplicate (b.Properties.map (normalizeProperty L)) := by
      apply deduplicate_flatMap_const
      · intro w hw
        exact (hcontent b hb hbp w (hin w hw).1 (hin w hw).2).2
      · simp
    rw [hye]
    unfold finishBundle expectedBundle
    simp only [hprops, hv0.1]
  rw [List.perm_ext_iff_of_nodup (bundleRecords_nodup _)]
  · intro x
    rw [mem_bundleRecords]
    constructor
    · rintro ⟨n, y, hy, rfl⟩
      obtain ⟨v, rest, hf, _⟩ := mergedRecord_nil_some hy
      have hvm : v ∈ (allViews (specPackage L cfg p)).filter (fun x => x.Name = n) := by
        rw [hf]; exact List.mem_cons_self _ _
      obtain ⟨hv1, hv2⟩ := List.mem_filter.mp hvm
      obtain ⟨c, hc, hcp, e, he, rfl⟩ := hviews v hv1
      obtain ⟨b, hb, hbp, hbn⟩ := hback c hc e he
      have hn : b.Name = n := by
        rw [hbn, ← (specView_entry L cfg c e).2.1]
        simpa using hv2
      subst hn
      refine List.mem_map.mpr ⟨b, List.mem_filter.mpr ⟨hb, ?_⟩, ?_⟩
      · simpa using hbp.trans hcp
      · exact (hmerged b hb (hbp.trans hcp) y hy).symm
    · intro hx
      obtain ⟨b, hbf, rfl⟩ := List.mem_map.mp hx
      obtain ⟨hb, hbp⟩ := List.mem_filter.mp hbf
      have hbp' : b.Package = p.Name := by simpa using hbp
      obtain ⟨c, hc, hcp, hmem⟩ := hv.bundle_listed b hb
      obtain ⟨e, he, hen⟩ := List.mem_map.mp hmem
      have hvm : specView L cfg c e ∈ allViews (specPackage L cfg p) := by
        rw [allViews_specPackage hv hp]
        refine List.mem_flatMap.mpr ⟨c, List.mem_filter.mpr ⟨hc, ?_⟩,
          List.mem_map.mpr ⟨e, he, rfl⟩⟩
        simpa using hcp.trans hbp'
      have hkey : b.Name ∈ ((allViews (specPackage L cfg p)).foldl mergeView []).keys := by
        rw [mem_keys_foldl_mergeView]
        right
        exact ⟨_, hvm, (specView_entry L cfg c e).2.1.trans hen⟩
      rw [← GoMap.lookup_isSome_iff] at hkey
      cases hl : GoMap.lookup b.Name ((allViews (specPackage L cfg p)).foldl mergeView [])
        with
      | none => simp [hl] at hkey
      | some y =>
        rw [lookup_foldl_mergeView] at hl
        exact ⟨b.Name, y, hl, (hmerged b hb hbp' y hl).symm⟩
  · apply List.Nodup.of_map (fun b => b.Name)
    rw [List.map_map]
    exact hv.bundle_unique p.Name

/-- The bundle records of the round trip, when every entry is backed by a bundle record. -/
theorem roundtrip_bundles {L : Lib} {cfg : declcfg.DeclarativeConfig} {m : DiffModel}
    (h : ConvertDeclcfgToDiffModel L cfg = .ok m) (hback : EntriesBacked cfg) :
    (ConvertDiffModelToDeclcfg m).Bundles.Perm (cfg.Bundles.map (expectedBundle L)) := by
  obtain ⟨hv, hm⟩ := convert_ok h
  rw [convertDiffModelToDeclcfg_eq]
  simp only
  refine (sortSlice_perm _ _).trans ?_
  rw [hm, values_map_pair, List.flatMap_map]
  have e1 : (cfg.Packages.flatMap (fun p => bundleRecords (specPackage L cfg p))).Perm
      (cfg.Packages.flatMap (fun p =>
        (cfg.Bundles.filter (fun b => b.Package = p.Name)).map (expectedBundle L))) := by
    apply List.Perm.flatMap_left
    intro p hp
    exact bundleRecords_specPackage hv hback hp
  refine e1.trans ?_
  rw [← List.map_flatMap]
  apply List.Perm.map
  exact flatMap_filter_perm (fun b => b.Package) (fun p => p.Name) cfg.Bundles
    cfg.Packages hv.package_unique (fun b hb => (hv.bundle_package b hb).2)

/-- C9 (counterexample): the build of `defaultOnlyInput` succeeds; the input has no channel
record, yet the serialized catalog has one, for the synthesized default channel, so its
channel records are not the input's. -/
theorem roundtrip_adds_synthesized_channel :
    ∃ m, ConvertDeclcfgToDiffModel exampleLib defaultOnlyInput = .ok m ∧
      defaultOnlyInput.Channels = [] ∧
      (ConvertDiffModelToDeclcfg m).Channels
        = [{ Schema := "olm.channel", Name := "stable", Package := "p" }] ∧
      ¬ (ConvertDiffModelToDeclcfg m).Channels.Perm
          (defaultOnlyInput.Channels.map expectedChannel) := by
  refine ⟨_, rfl, rfl, by decide, ?_⟩
  intro hperm
  have := hperm.length_eq
  revert this
  decide

/-- C9 (amended): after a successful build the serialized catalog consists of one package
record per input package record; one channel record per input channel record and one
empty channel record per package whose declared default channel no channel record
provides; and, when every entry of every channel record is backed by a bundle record of its
package, one bundle record per input bundle record; each with the input record's field
values, up to the schema tag, the sorting of channel entries, and the normalization,
deduplication and sorting of bundle properties. -/
theorem roundtrip_up_to_canonical_form (L : Lib) (cfg : declcfg.DeclarativeConfig)
    (m : DiffModel) (h : ConvertDeclcfgToDiffModel L cfg = .ok m) :
    (ConvertDiffModelToDeclcfg m).Packages.Perm (cfg.Packages.map expectedPackage) ∧
    (ConvertDiffModelToDeclcfg m).Channels.Perm
      (cfg.Channels.map expectedChannel ++
        (cfg.Packages.filter (fun p => needsDefault cfg p)).map synthRecord) ∧
    (EntriesBacked cfg →
      (ConvertDiffModelToDeclcfg m).Bundles.Perm (cfg.Bundles.map (expectedBundle L))) :=
  ⟨roundtrip_packages h, roundtrip_channels h, fun hback => roundtrip_bundles h hback⟩

/-- Witness of C9 (amended): the build of `exampleInput` succeeds, every entry is backed,
and the serialized catalog has exactly the input's records in canonical form. -/
theorem roundtrip_up_to_canonical_form_witness :
    ∃ m, ConvertDeclcfgToDiffModel exampleLib exampleInput = .ok m ∧
      EntriesBacked exampleInput ∧
      (ConvertDiffModelToDeclcfg m).Packages.Perm
        (exampleInput.Packages.map expectedPackage) ∧
      (ConvertDiffModelToDeclcfg m).Channels.Perm
        (exampleInput.Channels.map expectedChannel) ∧
      (ConvertDiffModelToDeclcfg m).Bundles.Perm
        (exampleInput.Bundles.map (expectedBundle exampleLib)) :=
  exampleInput_ok.elim (fun m hm =>
    have hr := roundtrip_up_to_canonical_form exampleLib exampleInput m hm
    have hback : EntriesBacked exampleInput := by decide
    ⟨m, hm, hback, hr.1,
      hr.2.1.trans (List.Perm.of_eq (by decide)), hr.2.2 hback⟩)

/-! ## Head candidates -/

/-- C18 (counterexample): in the channel whose only bundle `A` replaces itself no other
bundle names `A`, yet `A` is not a head candidate and `Head` finds no head. -/
theorem head_self_edge_not_candidate :
    (∀ b ∈ selfLoopChannel.Bundles.values, ∀ other ∈ selfLoopChannel.Bundles.values,
      other ≠ b → ¬ (other.Replaces = b.Name ∨ b.Name ∈ other.Skips)) ∧
    DiffChannel.Head.heads selfLoopChannel = [] ∧
    selfLoopChannel.Head = .error "no channel head found in graph" := by
  refine ⟨by decide, by decide, by decide⟩

/-- C18 (amended): a bundle is a head candidate of `Head` exactly when it is a bundle of the
channel and no bundle of the channel, itself included, names it in its non-empty `Replaces`
or in its `Skips`. -/
theorem head_candidate_iff (c : DiffChannel) (b : DiffBundle) :
    b ∈ DiffChannel.Head.heads c ↔ b ∈ c.Bundles.values ∧ ¬ namedByEdge c b.Name := by
  rw [heads_eq_candidates, headCandidates, List.mem_filter, ← inDegree_pos_iff]
  simp only [decide_eq_true_eq]
  constructor
  · rintro ⟨h1, h2⟩
    exact ⟨h1, by omega⟩
  · rintro ⟨h1, h2⟩
    exact ⟨h1, by omega⟩

/-! ## Normalization -/

theorem normalizeProperty_idem (L : Lib) (p : property.Property) :
    normalizeProperty L (normalizeProperty L p) = normalizeProperty L p := by
  unfold normalizeProperty
  cases hb : L.build p with
  | none => simp [hb]
  | some q =>
    simp only
    rcases L.build_stable p q hb with h | h <;> simp [h]

/-- C13: `Normalize` is idempotent: normalizing a normalized catalog changes nothing, in
particular no bundle property. The library assumption of the claim is `Lib.build_stable`. -/
theorem normalize_idempotent (L : Lib) (m : DiffModel) :
    DiffModel.Normalize L (DiffModel.Normalize L m) = DiffModel.Normalize L m := by
  simp only [DiffModel.Normalize, DiffPackage.Normalize, DiffChannel.Normalize,
    DiffBundle.Normalize, List.map_map, Function.comp_def, normalizeProperty_idem]

theorem lookup_map_values {β γ : Type} (f : β → γ) (k : String) (m : GoMap β) :
    GoMap.lookup k (m.map (fun kv => (kv.1, f kv.2))) = (GoMap.lookup k m).map f :=
  GoMap.lookup_map_snd (fun _ v => f v) k m

/-- C14: `Normalize` keeps the keys of every map; under every key it keeps every field of
the package, of the channel and of the bundle except the bundle's properties; and the
property at each index is the canonical encoding of the old one when `property.Build`
succeeds on it and the old one otherwise. -/
theorem normalize_frame (L : Lib) (m : DiffModel) :
    (DiffModel.Normalize L m).keys = m.keys ∧
    ∀ k pkg, GoMap.lookup k m = some pkg →
      ∃ pkg', GoMap.lookup k (DiffModel.Normalize L m) = some pkg' ∧
        pkg'.Name = pkg.Name ∧ pkg'.Description = pkg.Description ∧ pkg'.Icon = pkg.Icon ∧
        pkg'.DefaultChannel = pkg.DefaultChannel ∧
        pkg'.Channels.keys = pkg.Channels.keys ∧
        ∀ c ch, GoMap.lookup c pkg.Channels = some ch →
          ∃ ch', GoMap.lookup c pkg'.Channels = some ch' ∧
            ch'.Name = ch.Name ∧ ch'.Package = ch.Package ∧
            ch'.Properties = ch.Properties ∧
            ch'.Bundles.keys = ch.Bundles.keys ∧
            ∀ n b, GoMap.lookup n ch.Bundles = some b →
              ∃ b', GoMap.lookup n ch'.Bundles = some b' ∧
                { b' with Properties := b.Properties } = b ∧
                b'.Properties.length = b.Properties.length ∧
                ∀ (i : Nat) (p : property.Property), b.Properties[i]? = some p →
                  b'.Properties[i]? = some
                    (match L.build p with
                     | some normalized => normalized
                     | none => p) := by
  refine ⟨GoMap.keys_map_snd (fun kv : String × DiffPackage => kv.2.Normalize L) m, ?_⟩
  intro k pkg hk
  refine ⟨pkg.Normalize L, ?_, rfl, rfl, rfl, rfl,
    GoMap.keys_map_snd (fun kv : String × DiffChannel => kv.2.Normalize L) pkg.Channels, ?_⟩
  · unfold DiffModel.Normalize
    rw [lookup_map_values, hk]
    rfl
  intro c ch hc
  refine ⟨ch.Normalize L, ?_, rfl, rfl, rfl,
    GoMap.keys_map_snd (fun kv : String × DiffBundle => kv.2.Normalize L) ch.Bundles, ?_⟩
  · unfold DiffPackage.Normalize
    simp only
    rw [lookup_map_values, hc]
    rfl
  intro n b hn
  refine ⟨b.Normalize L, ?_, rfl, ?_, ?_⟩
  · unfold DiffChannel.Normalize
    simp only
    rw [lookup_map_values, hn]
    rfl
  · simp [DiffBundle.Normalize]
  · intro i p hp
    simp only [DiffBundle.Normalize, List.getElem?_map, hp, Option.map_some']
    rfl

/-! ## Property decoding -/

theorem forall₂_snoc_hit {α β : Type} {R : α → β → Prop} {t : α → Bool} {pre : List α}
    {l : List β} {q : α} {p : β} (h : List.Forall₂ R (pre.filter t) l) (ht : t q = true)
    (hr : R q p) : List.Forall₂ R ((pre ++ [q]).filter t) (l ++ [p]) := by
  rw [List.filter_append]
  apply List.rel_append h
  simp [List.filter, ht, hr]

theorem forall₂_snoc_miss {α β : Type} {R : α → β → Prop} {t : α → Bool} {pre : List α}
    {l : List β} {q : α} (h : List.Forall₂ R (pre.filter t) l) (ht : t q = false) :
    List.Forall₂ R ((pre ++ [q]).filter t) l := by
  rw [List.filter_append]
  simp [List.filter, ht, h]

theorem filter_snoc_miss {α : Type} {t : α → Bool} {pre : List α} {q : α}
    (ht : t q = false) : (pre ++ [q]).filter t = pre.filter t := by
  rw [List.filter_append]
  simp [List.filter, ht]

theorem filter_snoc_hit {α : Type} {t : α → Bool} {pre : List α} {q : α}
    (ht : t q = true) : (pre ++ [q]).filter t = pre.filter t ++ [q] := by
  rw [List.filter_append]
  simp [List.filter, ht]

/-- One successful iteration of the loop of `Parse` keeps the categories in step with the
properties read so far. -/
theorem parseStep_parsed {L : Lib} {pre : List property.Property}
    {st st' : Nat × DiffProperties} {q : property.Property} (hp : Parsed L pre st.2)
    (h : parseStep L st q = .ok st') : Parsed L (pre ++ [q]) st'.2 := by
  obtain ⟨h1, h2, h3, h4, h5, h6, h7, h8, h9⟩ := hp
  unfold parseStep at h
  by_cases t1 : q.Type_ = property.TypePackage
  · simp only [t1, if_true] at h
    cases hd : L.unmarshalPackage q.Value with
    | none => simp [hd] at h
    | some p =>
      simp only [hd, Except.ok.injEq] at h
      subst h
      refine ⟨forall₂_snoc_hit h1 (by simp [t1]) hd, forall₂_snoc_miss h2 ?_,
        forall₂_snoc_miss h3 ?_, forall₂_snoc_miss h4 ?_, forall₂_snoc_miss h5 ?_,
        forall₂_snoc_miss h6 ?_, ?_, h8, ?_⟩
      all_goals first
        | (simp [t1, property.TypePackage, property.TypePackageRequired, property.TypeGVK,
            property.TypeGVKRequired, property.TypeBundleObject, TypeChannel]; done)
        | (simp only [List.length_append, List.length_singleton]; omega)
        | (rw [filter_snoc_miss (by simp [isOtherType, t1])]; exact h7)
  · simp only [t1, if_false] at h
    by_cases t2 : q.Type_ = property.TypePackageRequired
    · simp only [t2, if_true] at h
      cases hd : L.unmarshalPackageRequired q.Value with
      | none => simp [hd] at h
      | some p =>
        simp only [hd, Except.ok.injEq] at h
        subst h
        refine ⟨forall₂_snoc_miss h1 ?_, forall₂_snoc_hit h2 (by simp [t2]) hd,
          forall₂_snoc_miss h3 ?_, forall₂_snoc_miss h4 ?_, forall₂_snoc_miss h5 ?_,
          forall₂_snoc_miss h6 ?_, ?_, h8, ?_⟩
        all_goals first
          | (simp [t2, property.TypePackage, property.TypePackageRequired, property.TypeGVK,
              property.TypeGVKRequired, property.TypeBundleObject, TypeChannel]; done)
          | (simp only [List.length_append, List.length_singleton]; omega)
          | (rw [filter_snoc_miss (by simp [isOtherType, t2])]; exact h7)
    · simp only [t2, if_false] at h
      by_cases t3 : q.Type_ = property.TypeGVK
      · simp only [t3, if_true] at h
        cases hd : L.unmarshalGVK q.Value with
        | none => simp [hd] at h
        | some p =>
          simp only [hd, Except.ok.injEq] at h
          subst h
          refine ⟨forall₂_snoc_miss h1 ?_, forall₂_snoc_miss h2 ?_,
            forall₂_snoc_hit h3 (by simp [t3]) hd, forall₂_snoc_miss h4 ?_,
            forall₂_snoc_miss h5 ?_, forall₂_snoc_miss h6 ?_, ?_, h8, ?_⟩
          all_goals first
            | (simp [t3, property.TypePackage, property.TypePackageRequired, property.TypeGVK,
                property.TypeGVKRequired, property.TypeBundleObject, TypeChannel]; done)
            | (simp only [List.length_append, List.length_singleton]; omega)
            | (rw [filter_snoc_miss (by simp [isOtherType, t3])]; exact h7)
      · simp only [t3, if_false] at h
        by_cases t4 : q.Type_ = property.TypeGVKRequired
        · simp only [t4, if_true] at h
          cases hd : L.unmarshalGVKRequired q.Value with
          | none => simp [hd] at h
          | some p =>
            simp only [hd, Except.ok.injEq] at h
            subst h
            refine ⟨forall₂_snoc_miss h1 ?_, forall₂_snoc_miss h2 ?_,
              forall₂_snoc_miss h3 ?_, forall₂_snoc_hit h4 (by simp [t4]) hd,
              forall₂_snoc_miss h5 ?_, forall₂_snoc_miss h6 ?_, ?_, h8, ?_⟩
            all_goals first
              | (simp [t4, property.TypePackage, property.TypePackageRequired,
                  property.TypeGVK, property.TypeGVKRequired, property.TypeBundleObject,
                  TypeChannel]; done)
              | (simp only [List.length_append, List.length_singleton]; omega)
              | (rw [filter_snoc_miss (by simp [isOtherType, t4])]; exact h7)
        · simp only [t4, if_false] at h
          by_cases t5 : q.Type_ = property.TypeBundleObject
          · simp only [t5, if_true] at h
            cases hd : L.unmarshalBundleObject q.Value with
            | none => simp [hd] at h
            | some p =>
              simp only [hd, Except.ok.injEq] at h
              subst h
              refine ⟨forall₂_snoc_miss h1 ?_, forall₂_snoc_miss h2 ?_,
                forall₂_snoc_miss h3 ?_, forall₂_snoc_miss h4 ?_,
                forall₂_snoc_hit h5 (by simp [t5]) hd, forall₂_snoc_miss h6 ?_, ?_, h8, ?_⟩
              all_goals first
                | (simp [t5, property.TypePackage, property.TypePackageRequired,
                    property.TypeGVK, property.TypeGVKRequired, property.TypeBundleObject,
                    TypeChannel]; done)
                | (simp only [List.length_append, List.length_singleton]; omega)
                | (rw [filter_snoc_miss (by simp [isOtherType, t5])]; exact h7)
          · simp only [t5, if_false] at h
            by_cases t6 : q.Type_ = TypeChannel
            · simp only [t6, if_true] at h
              cases hd : L.unmarshalChannel q.Value with
              | none => simp [hd] at h
              | some p =>
                simp only [hd, Except.ok.injEq] at h
                subst h
                refine ⟨forall₂_snoc_miss h1 ?_, forall₂_snoc_miss h2 ?_,
                  forall₂_snoc_miss h3 ?_, forall₂_snoc_miss h4 ?_,
                  forall₂_snoc_miss h5 ?_, forall₂_snoc_hit h6 (by simp [t6]) hd, ?_, h8, ?_⟩
                all_goals first
                  | (simp [t6, property.TypePackage, property.TypePackageRequired,
                      property.TypeGVK, property.TypeGVKRequired, property.TypeBundleObject,
                      TypeChannel]; done)
                  | (simp only [List.length_append, List.length_singleton]; omega)
                  | (rw [filter_snoc_miss (by simp [isOtherType, t6])]; exact h7)
            · simp only [t6, if_false] at h
              by_cases hr : L.unmarshalRaw q.Value = true
              · simp only [hr, if_true, Except.ok.injEq] at h
                subst h
                have ho : isOtherType q = true := by
                  simp [isOtherType, t1, t2, t3, t4, t5, t6]
                refine ⟨forall₂_snoc_miss h1 (by simp [t1]), forall₂_snoc_miss h2 (by simp [t2]),
                  forall₂_snoc_miss h3 (by simp [t3]), forall₂_snoc_miss h4 (by simp [t4]),
                  forall₂_snoc_miss h5 (by simp [t5]), forall₂_snoc_miss h6 (by simp [t6]),
                  ?_, ?_, ?_⟩
                · rw [filter_snoc_hit ho]
                  simp only
                  rw [h7]
                · intro x hx
                  simp only [List.mem_append, List.mem_singleton] at hx
                  rcases hx with hx | hx
                  · exact h8 x hx
                  · rw [hx]; exact hr
                · simp only [List.length_append, List.length_singleton]
                  omega
              · simp [hr] at h

theorem parse_fold_parsed (L : Lib) (ps : List property.Property) :
    ∀ (pre : List property.Property) (st st' : Nat × DiffProperties),
      Parsed L pre st.2 → foldE (parseStep L) st ps = .ok st' →
      Parsed L (pre ++ ps) st'.2 := by
  induction ps with
  | nil =>
    intro pre st st' hp h
    simp only [foldE, Except.ok.injEq] at h
    rw [← h, List.append_nil]
    exact hp
  | cons q ps ih =>
    intro pre st st' hp h
    simp only [foldE] at h
    cases hstep : parseStep L st q with
    | error e => simp [hstep] at h
    | ok st1 =>
      simp only [hstep] at h
      have := ih (pre ++ [q]) st1 st' (parseStep_parsed hp hstep) h
      simpa using this

theorem parsed_nil (L : Lib) : Parsed L [] {} :=
  ⟨List.Forall₂.nil, List.Forall₂.nil, List.Forall₂.nil, List.Forall₂.nil, List.Forall₂.nil,
    List.Forall₂.nil, rfl, by simp, rfl⟩

/-- C17: when `Parse` succeeds, each category lists, in input order, the decoded values of
exactly the input properties with its type tag, `Others` is the list of the input
properties with an unrecognized tag, unchanged and in input order, every category is as
long as the number of input properties with its tag, and the category lengths add up to
the length of the input. -/
theorem parse_ok_categories (L : Lib) (props : List property.Property)
    (out : DiffProperties) (h : Parse L props = .ok out) :
    Parsed L props out ∧
    out.Packages.length = (props.filter (fun q => q.Type_ = property.TypePackage)).length ∧
    out.PackagesRequired.length
      = (props.filter (fun q => q.Type_ = property.TypePackageRequired)).length ∧
    out.GVKs.length = (props.filter (fun q => q.Type_ = property.TypeGVK)).length ∧
    out.GVKsRequired.length
      = (props.filter (fun q => q.Type_ = property.TypeGVKRequired)).length ∧
    out.BundleObjects.length
      = (props.filter (fun q => q.Type_ = property.TypeBundleObject)).length ∧
    out.Channels.length = (props.filter (fun q => q.Type_ = TypeChannel)).length ∧
    out.Others.length = (props.filter isOtherType).length := by
  unfold Parse at h
  cases hf : foldE (parseStep L) (0, {}) props with
  | error e => simp [hf] at h
  | ok st =>
    simp only [hf, Except.ok.injEq] at h
    have hp := parse_fold_parsed L props [] (0, {}) st (parsed_nil L) hf
    rw [h, List.nil_append] at hp
    refine ⟨hp, hp.packages.length_eq.symm, hp.packagesRequired.length_eq.symm,
      hp.gvks.length_eq.symm, hp.gvksRequired.length_eq.symm,
      hp.bundleObjects.length_eq.symm, hp.channels.length_eq.symm, ?_⟩
    rw [hp.others]

/-- Witness of C17: a list with one `olm.package` property and one property of an
unrecognized type parses into one decoded package and one opaque property. -/
theorem parse_ok_categories_witness :
    ∃ out, Parse exampleLib [⟨"custom", "1"⟩, examplePackageProperty] = .ok out ∧
      out.Packages = [⟨"p", "1.0.0"⟩] ∧ out.Others = [⟨"custom", "1"⟩] ∧
      Parsed exampleLib [⟨"custom", "1"⟩, examplePackageProperty] out :=
  ⟨_, rfl, rfl, rfl,
    (parse_ok_categories exampleLib [⟨"custom", "1"⟩, examplePackageProperty] _ rfl).1⟩

/-! ## Incremental insertion -/

/-- The catalog after `AddBundle`, in one expression. -/
theorem addBundle_eq (m : DiffModel) (b : DiffBundle) (bPackage : DiffPackage) :
    m.AddBundle b bPackage = m.insert bPackage.Name (packageAfter m b bPackage) := by
  have hp : (match m.lookup bPackage.Name with
      | some present => present
      | none => bPackage) = packageBefore m bPackage := by
    unfold packageBefore
    cases m.lookup bPackage.Name <;> rfl
  unfold DiffModel.AddBundle
  simp only [hp]
  congr 1
  unfold packageAfter channelAfter channelBefore
  cases hc : GoMap.lookup b.Channel (packageBefore m bPackage).Channels with
  | none =>
    cases hd : (packageBefore m bPackage).DefaultChannel <;> simp [hd]
  | some ch =>
    cases hd : (packageBefore m bPackage).DefaultChannel <;> simp [hd]

/-- What `AddBundle` stores and what it leaves alone. -/
theorem addBundle_char (m : DiffModel) (b : DiffBundle) (bPackage : DiffPackage) :
    GoMap.lookup bPackage.Name (m.AddBundle b bPackage) = some (packageAfter m b bPackage) ∧
    GoMap.lookup b.Channel (packageAfter m b bPackage).Channels
      = some (channelAfter (packageBefore m bPackage) b) ∧
    GoMap.lookup b.Name (channelAfter (packageBefore m bPackage) b).Bundles
      = some { b with
               Package := (packageAfter m b bPackage).Name
               Channel := (channelAfter (packageBefore m bPackage) b).Name } ∧
    (∀ k, k ≠ bPackage.Name → GoMap.lookup k (m.AddBundle b bPackage) = GoMap.lookup k m) ∧
    (∀ c, c ≠ b.Channel → GoMap.lookup c (packageAfter m b bPackage).Channels
      = GoMap.lookup c (packageBefore m bPackage).Channels) ∧
    (∀ n, n ≠ b.Name → GoMap.lookup n (channelAfter (packageBefore m bPackage) b).Bundles
      = GoMap.lookup n (channelBefore (packageBefore m bPackage) b).Bundles) := by
  rw [addBundle_eq]
  refine ⟨?_, ?_, ?_, ?_, ?_, ?_⟩
  · rw [GoMap.lookup_insert, if_pos rfl]
  · unfold packageAfter
    simp only
    rw [GoMap.lookup_insert, if_pos rfl]
  · unfold channelAfter
    simp only
    rw [GoMap.lookup_insert, if_pos rfl]
    rfl
  · intro k hk
    rw [GoMap.lookup_insert, if_neg (fun e => hk e.symm)]
  · intro c hc
    unfold packageAfter
    simp only
    rw [GoMap.lookup_insert, if_neg (fun e => hc e.symm)]
  · intro n hn
    unfold channelAfter
    simp only
    rw [GoMap.lookup_insert, if_neg (fun e => hn e.symm)]

/-- C11: after `AddBundle` the catalog has a package under the name of `b`'s package, that
package has a channel under `b`'s channel name, and that channel holds under `b`'s name the
bundle `b` with its back-references set to that package and that channel, whatever was
stored there before; every other package, every other channel of the package, every other
bundle of the channel, and the own fields of the package and of the channel are as before
(the package before being the one supplied with `b` when the catalog had none, the channel
before being the new empty channel when the package had none). -/
theorem addBundle_inserts (m : DiffModel) (b : DiffBundle) (bPackage : DiffPackage) :
    ∃ p ch,
      GoMap.lookup bPackage.Name (m.AddBundle b bPackage) = some p ∧
      GoMap.lookup b.Channel p.Channels = some ch ∧
      GoMap.lookup b.Name ch.Bundles = some { b with Package := p.Name, Channel := ch.Name } ∧
      (∀ k, k ≠ bPackage.Name → GoMap.lookup k (m.AddBundle b bPackage) = GoMap.lookup k m) ∧
      p.Name = (packageBefore m bPackage).Name ∧
      p.Description = (packageBefore m bPackage).Description ∧
      p.Icon = (packageBefore m bPackage).Icon ∧
      (∀ c, c ≠ b.Channel →
        GoMap.lookup c p.Channels = GoMap.lookup c (packageBefore m bPackage).Channels) ∧
      ch.Name = (channelBefore (packageBefore m bPackage) b).Name ∧
      ch.Package = (channelBefore (packageBefore m bPackage) b).Package ∧
      ch.Properties = (channelBefore (packageBefore m bPackage) b).Properties ∧
      (∀ n, n ≠ b.Name → GoMap.lookup n ch.Bundles
        = GoMap.lookup n (channelBefore (packageBefore m bPackage) b).Bundles) := by
  obtain ⟨h1, h2, h3, h4, h5, h6⟩ := addBundle_char m b bPackage
  exact ⟨packageAfter m b bPackage, channelAfter (packageBefore m bPackage) b,
    h1, h2, h3, h4, rfl, rfl, rfl, h5, rfl, rfl, rfl, h6⟩

theorem lookup_addBundles_other (k : String) (bs : List (DiffBundle × DiffPackage)) :
    ∀ (m : DiffModel), (∀ y ∈ bs, y.2.Name ≠ k) →
      GoMap.lookup k (addBundles m bs) = GoMap.lookup k m := by
  induction bs with
  | nil => intro m _; rfl
  | cons y bs ih =>
    intro m h
    unfold addBundles
    simp only [List.foldl_cons]
    have h1 := ih (m.AddBundle y.1 y.2) (fun z hz => h z (List.mem_cons_of_mem _ hz))
    unfold addBundles at h1
    rw [h1]
    exact (addBundle_char m y.1 y.2).2.2.2.1 k (fun e => h y (List.mem_cons_self _ _) e.symm)

/-- Once the package under `k` has the default channel named `d`, which is the name of its
channel under `c`, no `AddBundle` changes that. -/
theorem addBundle_keeps_default {m : DiffModel} {k c d : String}
    (h : ∃ p ch, GoMap.lookup k m = some p ∧ p.DefaultChannel = some d ∧
      GoMap.lookup c p.Channels = some ch ∧ ch.Name = d)
    (b : DiffBundle) (bPackage : DiffPackage) :
    ∃ p ch, GoMap.lookup k (m.AddBundle b bPackage) = some p ∧ p.DefaultChannel = some d ∧
      GoMap.lookup c p.Channels = some ch ∧ ch.Name = d := by
  obtain ⟨p, ch, hp, hd, hc, hn⟩ := h
  obtain ⟨h1, h2, _, h4, h5, _⟩ := addBundle_char m b bPackage
  by_cases hk : bPackage.Name = k
  · have hb : packageBefore m bPackage = p := by
      unfold packageBefore
      rw [hk, hp]
      rfl
    rw [hk] at h1
    rw [hb] at h2 h5
    have hdef : (packageAfter m b bPackage).DefaultChannel = some d := by
      unfold packageAfter
      simp only [hb, hd]
    by_cases hcc : b.Channel = c
    · refine ⟨packageAfter m b bPackage, channelAfter p b, h1, hdef, ?_, ?_⟩
      · rw [← hcc]; exact h2
      · show (channelBefore p b).Name = d
        unfold channelBefore
        rw [hcc, hc]
        exact hn
    · refine ⟨packageAfter m b bPackage, ch, h1, hdef, ?_, hn⟩
      rw [h5 c (fun e => hcc e.symm)]
      exact hc
  · refine ⟨p, ch, ?_, hd, hc, hn⟩
    rw [h4 k (fun e => hk e.symm)]
    exact hp

theorem addBundles_keeps_default {k c d : String} (bs : List (DiffBundle × DiffPackage)) :
    ∀ (m : DiffModel),
      (∃ p ch, GoMap.lookup k m = some p ∧ p.DefaultChannel = some d ∧
        GoMap.lookup c p.Channels = some ch ∧ ch.Name = d) →
      ∃ p ch, GoMap.lookup k (addBundles m bs) = some p ∧ p.DefaultChannel = some d ∧
        GoMap.lookup c p.Channels = some ch ∧ ch.Name = d := by
  induction bs with
  | nil => intro m h; exact h
  | cons y bs ih =>
    intro m h
    have := ih (m.AddBundle y.1 y.2) (addBundle_keeps_default h y.1 y.2)
    exact this

theorem addBundles_append (m : DiffModel) (l1 l2 : List (DiffBundle × DiffPackage)) :
    addBundles m (l1 ++ l2) = addBundles (addBundles m l1) l2 := by
  unfold addBundles
  rw [List.foldl_append]

/-- C12: `AddBundle` keeps the default channel of a package that had one and gives a package
that had none the channel into which the bundle was inserted; so in a sequence of `AddBundle`
calls from the empty catalog, a package whose first inserted bundle came with a package
without default has, after every later call, the channel of that first bundle as its
default channel. -/
theorem addBundle_default_channel (m : DiffModel) (b : DiffBundle) (bPackage : DiffPackage) :
    (∃ p ch,
      GoMap.lookup bPackage.Name (m.AddBundle b bPackage) = some p ∧
      GoMap.lookup b.Channel p.Channels = some ch ∧
      (∀ d, (packageBefore m bPackage).DefaultChannel = some d → p.DefaultChannel = some d) ∧
      ((packageBefore m bPackage).DefaultChannel = none →
        p.DefaultChannel = some ch.Name)) ∧
    (∀ (pre post : List (DiffBundle × DiffPackage)) (x : DiffBundle × DiffPackage),
      x.2.DefaultChannel = none → (∀ y ∈ pre, y.2.Name ≠ x.2.Name) →
      ∃ p ch,
        GoMap.lookup x.2.Name (addBundles [] (pre ++ x :: post)) = some p ∧
        GoMap.lookup x.1.Channel p.Channels = some ch ∧
        p.DefaultChannel = some ch.Name ∧
        ch.Name = (channelBefore x.2 x.1).Name) := by
  constructor
  · obtain ⟨h1, h2, _, _, _, _⟩ := addBundle_char m b bPackage
    refine ⟨packageAfter m b bPackage, channelAfter (packageBefore m bPackage) b,
      h1, h2, ?_, ?_⟩
    · intro d hd
      unfold packageAfter
      simp only [hd]
    · intro hd
      unfold packageAfter
      simp only [hd]
      rfl
  · intro pre post x hx hpre
    have hnone : GoMap.lookup x.2.Name (addBundles [] pre) = none := by
      rw [lookup_addBundles_other x.2.Name pre [] hpre]
      rfl
    have hb : packageBefore (addBundles [] pre) x.2 = x.2 := by
      unfold packageBefore
      rw [hnone]
      rfl
    obtain ⟨h1, h2, _, _, _, _⟩ := addBundle_char (addBundles [] pre) x.1 x.2
    rw [hb] at h2
    have hfirst : ∃ p ch, GoMap.lookup x.2.Name ((addBundles [] pre).AddBundle x.1 x.2) = some p ∧
        p.DefaultChannel = some (channelBefore x.2 x.1).Name ∧
        GoMap.lookup x.1.Channel p.Channels = some ch ∧
        ch.Name = (channelBefore x.2 x.1).Name := by
      refine ⟨packageAfter (addBundles [] pre) x.1 x.2, channelAfter x.2 x.1,
        h1, ?_, h2, rfl⟩
      unfold packageAfter
      simp only [hb, hx]
    have hall := addBundles_keeps_default post _ hfirst
    obtain ⟨p, ch, g1, g2, g3, g4⟩ := hall
    refine ⟨p, ch, ?_, g3, ?_, g4⟩
    · rw [addBundles_append]
      exact g1
    · rw [g2, g4]

/-- Witness of C12: after inserting a bundle in `stable` and then one in `beta` for the
package `p`, the default channel of `p` is `stable`. -/
theorem addBundle_default_channel_witness :
    ∃ p ch,
      GoMap.lookup "p" (addBundles [] exampleInsertions) = some p ∧
      GoMap.lookup "stable" p.Channels = some ch ∧
      p.DefaultChannel = some ch.Name ∧ ch.Name = "stable" :=
  (addBundle_default_channel []
      { Name := "a", Image := "img-a", Package := "p", Channel := "stable" } { Name := "p" }).2
    [] [({ Name := "b", Image := "img-b", Package := "p", Channel := "beta" }, { Name := "p" })]
    ({ Name := "a", Image := "img-a", Package := "p", Channel := "stable" }, { Name := "p" })
    rfl (by simp)

/-! ## Filled views of a built catalog -/

theorem specPackage_channels_nodup {L : Lib} {cfg : declcfg.DeclarativeConfig}
    (hv : ValidInput L cfg) {p : declcfg.Package} (hp : p ∈ cfg.Packages) :
    (specPackage L cfg p).Channels.keys.Nodup := by
  rw [specPackage_eq hv hp]
  simp only
  have hrk : GoMap.keys ((cfg.Channels.filter (fun c => c.Package = p.Name)).map
      (fun c => (c.Name, specChannel L cfg c)))
      = (cfg.Channels.filter (fun c => c.Package = p.Name)).map (fun c => c.Name) := by
    simp [GoMap.keys, Function.comp_def]
  unfold synthChannels
  by_cases hn : needsDefault cfg p
  · rw [if_pos hn]
    simp only [GoMap.keys, List.map_append, List.map_cons, List.map_nil]
    rw [List.nodup_append]
    refine ⟨?_, by simp, ?_⟩
    · have := hv.channel_unique p.Name
      rw [← hrk] at this
      exact this
    · intro a ha hb
      simp only [List.mem_singleton] at hb
      subst hb
      have ha' : p.DefaultChannel ∈ GoMap.keys ((cfg.Channels.filter
          (fun c => c.Package = p.Name)).map (fun c => (c.Name, specChannel L cfg c))) := ha
      rw [hrk] at ha'
      obtain ⟨c, hc, hcn⟩ := List.mem_map.mp ha'
      obtain ⟨hc1, hc2⟩ := List.mem_filter.mp hc
      exact hn.2 c hc1 ⟨by simpa using hc2, hcn⟩
  · rw [if_neg hn, List.append_nil, hrk]
    exact hv.channel_unique p.Name

/-- C19: after a successful build, for every bundle record `b` and every entry named
`b.Name` of a channel record of `b`'s package, the view stored under that package, channel
and name has `b`'s image, related images, manifest payload and objects, the version parsed
from `b`'s one `olm.package` property, `b`'s properties each replaced by its canonical
encoding where `property.Build` succeeds, and the entry's replaces, skips and skipRange. -/
theorem convert_ok_fills_every_channel (L : Lib) (cfg : declcfg.DeclarativeConfig)
    (m : DiffModel) (h : ConvertDeclcfgToDiffModel L cfg = .ok m) :
    ∀ b ∈ cfg.Bundles, ∀ c ∈ cfg.Channels, c.Package = b.Package →
      ∀ e ∈ c.Entries, e.Name = b.Name →
        ∃ mp ch v props pp,
          GoMap.lookup b.Package m = some mp ∧
          GoMap.lookup c.Name mp.Channels = some ch ∧
          GoMap.lookup b.Name ch.Bundles = some v ∧
          v.Image = b.Image ∧
          v.RelatedImages = declcfg.RelatedImagesToModelRelatedImages b.RelatedImages ∧
          v.CsvJSON = b.CsvJSON ∧
          v.Objects = b.Objects ∧
          property.Parse L b.Properties = .ok props ∧ props.Packages = [pp] ∧
          L.semverParse pp.Version = some v.Version ∧
          v.PropertiesP = some props ∧
          v.Properties = b.Properties.map (normalizeProperty L) ∧
          v.Name = e.Name ∧ v.Replaces = e.Replaces ∧ v.Skips = e.Skips ∧
          v.SkipRange = e.SkipRange := by
  obtain ⟨hv, hm⟩ := convert_ok h
  intro b hb c hc hcp e he hen
  obtain ⟨p, hp, hpn⟩ := List.mem_map.mp (hv.channel_package c hc)
  obtain ⟨pv, hdec, hview⟩ := specView_filled hv c e hb hcp.symm hen.symm
  obtain ⟨hparse, pp, hpk, _, hver⟩ := decodeBundle_some hdec
  have hmn : m.keys.Nodup := by
    rw [hm]
    simpa [GoMap.keys, Function.comp_def] using hv.package_unique
  have hl1 : GoMap.lookup b.Package m = some (specPackage L cfg p) := by
    apply GoMap.lookup_of_mem hmn
    rw [hm, ← hcp, ← hpn]
    exact List.mem_map.mpr ⟨p, hp, rfl⟩
  have hl2 : GoMap.lookup c.Name (specPackage L cfg p).Channels
      = some (specChannel L cfg c) := by
    apply GoMap.lookup_of_mem (specPackage_channels_nodup hv hp)
    rw [specPackage_eq hv hp]
    apply List.mem_append_left
    exact List.mem_map.mpr ⟨c, List.mem_filter.mpr ⟨hc, by simpa using hpn.symm⟩, rfl⟩
  have hl3 : GoMap.lookup b.Name (specChannel L cfg c).Bundles
      = some (specView L cfg c e) := by
    apply GoMap.lookup_of_mem
    · rw [specChannel_keys]; exact hv.entry_unique c hc
    · rw [specChannel_eq L cfg c (hv.entry_unique c hc), ← hen]
      exact List.mem_map.mpr ⟨e, he, rfl⟩
  refine ⟨_, _, _, pv.1, pp, hl1, hl2, hl3, ?_⟩
  rw [hview]
  exact ⟨rfl, rfl, rfl, rfl, hparse, hpk, hver, rfl, rfl, rfl, rfl, rfl, rfl⟩

/-- Witness of C19: in the catalog built from `exampleInput` the view `A` of the channel
`stable` has the image of the bundle record `A`. -/
theorem convert_ok_fills_every_channel_witness :
    ∃ m mp ch v, ConvertDeclcfgToDiffModel exampleLib exampleInput = .ok m ∧
      GoMap.lookup "p" m = some mp ∧ GoMap.lookup "stable" mp.Channels = some ch ∧
      GoMap.lookup "A" ch.Bundles = some v ∧ v.Image = "img-a" ∧
      v.Properties = [examplePackageProperty] :=
  exampleInput_ok.elim (fun m hm =>
    have h := convert_ok_fills_every_channel exampleLib exampleInput m hm
      { Name := "A", Package := "p", Image := "img-a", Properties := [examplePackageProperty] }
      (by decide)
      { Name := "stable", Package := "p",
        Entries := [{ Name := "A" }, { Name := "B", Replaces := "A" }] }
      (by decide) rfl { Name := "A" } (by decide) rfl
    h.elim (fun mp h1 => h1.elim (fun ch h2 => h2.elim (fun v h3 =>
      h3.elim (fun _ h4 => h4.elim (fun _ h5 =>
        ⟨m, mp, ch, v, hm, h5.1, h5.2.1, h5.2.2.1, h5.2.2.2.1,
          h5.2.2.2.2.2.2.2.2.2.2.2.1⟩))))))

/-! ## Sorted output -/

theorem sortSlice_sorted_key {α κ : Type} [LinearOrder κ] (key : α → κ)
    (less : α → α → Bool) (hless : ∀ a b, less a b = true ↔ key a < key b) (l : List α) :
    (sortSlice less l).Sorted (fun a b => key a ≤ key b) := by
  have hr : ∀ a b, less b a = false ↔ key a ≤ key b := by
    intro a b
    rw [← Bool.not_eq_true, hless, not_lt]
  haveI : IsTotal α (fun a b => less b a = false) :=
    ⟨fun a b => by rw [hr, hr]; exact le_total _ _⟩
  haveI : IsTrans α (fun a b => less b a = false) :=
    ⟨fun a b c => by rw [hr, hr, hr]; exact le_trans⟩
  have h := List.sorted_insertionSort (fun a b => less b a = false) l
  exact List.Pairwise.imp (fun hab => (hr _ _).mp hab) h

theorem lexLess_iff (p1 n1 p2 n2 : String) :
    (if p1 ≠ p2 then strLt p1 p2 else strLt n1 n2) = true ↔
      toLex (p1, n1) < toLex (p2, n2) := by
  rw [Prod.Lex.lt_iff]
  by_cases h : p1 = p2
  · subst h
    simp [strLt_iff]
  · have hne : p1 ≠ p2 := h
    simp only [ne_eq, h, not_false_eq_true, if_true, strLt_iff, false_and, or_false]

theorem packageLess_iff (a b : declcfg.Package) : packageLess a b = true ↔ a.Name < b.Name :=
  strLt_iff _ _

theorem entryLess_iff (a b : declcfg.ChannelEntry) : entryLess a b = true ↔ a.Name < b.Name :=
  strLt_iff _ _

theorem channelLess_iff (a b : declcfg.Channel) :
    channelLess a b = true ↔ toLex (a.Package, a.Name) < toLex (b.Package, b.Name) :=
  lexLess_iff _ _ _ _

theorem bundleLess_iff (a b : declcfg.Bundle) :
    bundleLess a b = true ↔ toLex (a.Package, a.Name) < toLex (b.Package, b.Name) :=
  lexLess_iff _ _ _ _

theorem propertyLess_iff (a b : property.Property) :
    propertyLess a b = true ↔ toLex (a.Type_, a.Value) < toLex (b.Type_, b.Value) :=
  lexLess_iff _ _ _ _

theorem sorted_packages (l : List declcfg.Package) :
    (sortSlice packageLess l).Sorted (fun a b => a.Name ≤ b.Name) :=
  sortSlice_sorted_key (fun a => a.Name) packageLess packageLess_iff l

theorem sorted_entries (l : List declcfg.ChannelEntry) :
    (sortSlice entryLess l).Sorted (fun a b => a.Name ≤ b.Name) :=
  sortSlice_sorted_key (fun a => a.Name) entryLess entryLess_iff l

theorem sorted_channels (l : List declcfg.Channel) :
    (sortSlice channelLess l).Sorted
      (fun a b => a.Package < b.Package ∨ (a.Package = b.Package ∧ a.Name ≤ b.Name)) := by
  have h := sortSlice_sorted_key (fun a : declcfg.Channel => toLex (a.Package, a.Name))
    channelLess channelLess_iff l
  exact List.Pairwise.imp (fun hab => (Prod.Lex.le_iff _ _).mp hab) h

theorem sorted_bundles (l : List declcfg.Bundle) :
    (sortSlice bundleLess l).Sorted
      (fun a b => a.Package < b.Package ∨ (a.Package = b.Package ∧ a.Name ≤ b.Name)) := by
  have h := sortSlice_sorted_key (fun a : declcfg.Bundle => toLex (a.Package, a.Name))
    bundleLess bundleLess_iff l
  exact List.Pairwise.imp (fun hab => (Prod.Lex.le_iff _ _).mp hab) h

theorem sorted_properties (l : List property.Property) :
    (sortSlice propertyLess l).Sorted
      (fun a b => toLex (a.Type_, a.Value) ≤ toLex (b.Type_, b.Value)) :=
  sortSlice_sorted_key (fun a : property.Property => toLex (a.Type_, a.Value))
    propertyLess propertyLess_iff l

/-- C15: the output of the serializer is ordered (package records by name, channel records
and bundle records by package and then name, the entries of every channel record by name),
its package records are those of the packages of the catalog, one each, its channel records
those of the channels, one each, and the entries of the record of a channel are those of
its bundle views, one each, with the view's name, replaces, skips and skipRange. -/
theorem serializer_output_ordered (m : DiffModel) :
    (ConvertDiffModelToDeclcfg m).Packages.Sorted (fun a b => a.Name ≤ b.Name) ∧
    (ConvertDiffModelToDeclcfg m).Channels.Sorted
      (fun a b => a.Package < b.Package ∨ (a.Package = b.Package ∧ a.Name ≤ b.Name)) ∧
    (ConvertDiffModelToDeclcfg m).Bundles.Sorted
      (fun a b => a.Package < b.Package ∨ (a.Package = b.Package ∧ a.Name ≤ b.Name)) ∧
    (∀ c ∈ (ConvertDiffModelToDeclcfg m).Channels,
      c.Entries.Sorted (fun a b => a.Name ≤ b.Name)) ∧
    (ConvertDiffModelToDeclcfg m).Packages.Perm (m.values.map packageRecord) ∧
    (∀ mpkg : DiffPackage,
      (packageRecord mpkg).Name = mpkg.Name ∧
      (packageRecord mpkg).Description = mpkg.Description ∧
      (packageRecord mpkg).DefaultChannel = mpkg.DefaultChannel.getD "") ∧
    (ConvertDiffModelToDeclcfg m).Channels.Perm
      (m.values.flatMap (fun mpkg => mpkg.Channels.values.map channelRecord)) ∧
    (∀ ch : DiffChannel,
      (channelRecord ch).Name = ch.Name ∧ (channelRecord ch).Package = ch.Package ∧
      (channelRecord ch).Properties = ch.Properties ∧
      (channelRecord ch).Entries.Perm
        (ch.Bundles.values.map (fun chb =>
          { Name := chb.Name, Replaces := chb.Replaces, Skips := chb.Skips,
            SkipRange := chb.SkipRange }))) := by
  rw [convertDiffModelToDeclcfg_eq]
  refine ⟨sorted_packages _, sorted_channels _, sorted_bundles _, ?_, sortSlice_perm _ _,
    fun mpkg => ⟨rfl, rfl, rfl⟩, sortSlice_perm _ _, fun ch => ⟨rfl, rfl, rfl, ?_⟩⟩
  · intro c hc
    have hc' := (sortSlice_perm _ _).mem_iff.mp hc
    obtain ⟨mpkg, _, hcm⟩ := List.mem_flatMap.mp hc'
    obtain ⟨ch, _, rfl⟩ := List.mem_map.mp hcm
    exact sorted_entries _
  · exact sortSlice_perm _ _

theorem deduplicate_nodup (l : List property.Property) : (property.Deduplicate l).Nodup := by
  induction l with
  | nil => simp [property.Deduplicate]
  | cons p l ih =>
    simp only [property.Deduplicate, List.nodup_cons, List.mem_filter, ne_eq, decide_not,
      Bool.not_eq_true', decide_eq_false_iff_not, not_true_eq_false, and_false,
      not_false_eq_true, true_and]
    exact ih.filter _

theorem property_eq_of_key {a b : property.Property}
    (h : toLex (a.Type_, a.Value) = toLex (b.Type_, b.Value)) : a = b := by
  have h2 : (a.Type_, a.Value) = (b.Type_, b.Value) := h
  obtain ⟨t1, v1⟩ := a
  obtain ⟨t2, v2⟩ := b
  simp only [Prod.mk.injEq] at h2
  simp [h2.1, h2.2]

/-- The properties of an emitted bundle record: no repetition, strictly ascending. -/
theorem finished_properties (l : List property.Property) :
    (sortSlice propertyLess (property.Deduplicate l)).Nodup ∧
    (sortSlice propertyLess (property.Deduplicate l)).Sorted
      (fun a b => a.Type_ < b.Type_ ∨ (a.Type_ = b.Type_ ∧ a.Value < b.Value)) ∧
    ∀ q, q ∈ sortSlice propertyLess (property.Deduplicate l) ↔ q ∈ l := by
  have hperm := sortSlice_perm propertyLess (property.Deduplicate l)
  have hnd : (sortSlice propertyLess (property.Deduplicate l)).Nodup :=
    hperm.nodup_iff.mpr (deduplicate_nodup l)
  refine ⟨hnd, ?_, ?_⟩
  · have hs := sorted_properties (property.Deduplicate l)
    refine List.Pairwise.imp₂ ?_ hs hnd
    intro a b hle hne
    exact (Prod.Lex.lt_iff (a.Type_, a.Value) (b.Type_, b.Value)).mp
      (lt_of_le_of_ne hle (fun e => hne (property_eq_of_key e)))
  · intro q
    rw [hperm.mem_iff, mem_deduplicate]

/-- C16: for every package, `traverseModelChannels` emits one bundle record per name of a
bundle view of the package, and the properties of the record of a name are exactly the
properties of the views of that name, each once, strictly ascending by type tag and then by
raw value; the serializer emits these records for every package of the catalog. -/
theorem serializer_bundle_records (mpkg : DiffPackage) :
    (((traverseModelChannels mpkg).2).map (fun r => r.Name)).Nodup ∧
    (∀ n, n ∈ ((traverseModelChannels mpkg).2).map (fun r => r.Name) ↔
      ∃ v ∈ allViews mpkg, v.Name = n) ∧
    (∀ r ∈ (traverseModelChannels mpkg).2,
      r.Properties.Nodup ∧
      r.Properties.Sorted
        (fun a b => a.Type_ < b.Type_ ∨ (a.Type_ = b.Type_ ∧ a.Value < b.Value)) ∧
      ∀ q, q ∈ r.Properties ↔ ∃ v ∈ allViews mpkg, v.Name = r.Name ∧ q ∈ v.Properties) ∧
    (∀ m : DiffModel, (ConvertDiffModelToDeclcfg m).Bundles.Perm
      (m.values.flatMap (fun p => (traverseModelChannels p).2))) := by
  have hrec : ∀ p : DiffPackage, (traverseModelChannels p).2 = bundleRecords p := by
    intro p
    rw [traverseModelChannels_eq]
  rw [hrec]
  refine ⟨?_, ?_, ?_, ?_⟩
  · rw [bundleRecords_names]
    exact keys_foldl_mergeView_nodup _ [] (by simp [GoMap.keys])
  · intro n
    rw [bundleRecords_names, mem_keys_foldl_mergeView]
    simp [GoMap.keys]
  · intro r hr
    obtain ⟨n, y, hy, rfl⟩ := (mem_bundleRecords mpkg r).mp hr
    obtain ⟨v, rest, hf, hye⟩ := mergedRecord_nil_some hy
    have hname : y.Name = n := mergedRecord_name hy
    have hprops : (finishBundle y).Properties = sortSlice propertyLess
        (property.Deduplicate ((v :: rest).flatMap (fun x => x.Properties))) := by
      rw [hye]
      rfl
    obtain ⟨h1, h2, h3⟩ := finished_properties ((v :: rest).flatMap (fun x => x.Properties))
    rw [hprops]
    refine ⟨h1, h2, ?_⟩
    intro q
    rw [h3, List.mem_flatMap, ← hf]
    have hfin : (finishBundle y).Name = n := hname
    constructor
    · rintro ⟨w, hw, hq⟩
      obtain ⟨hw1, hw2⟩ := List.mem_filter.mp hw
      exact ⟨w, hw1, by rw [hfin]; simpa using hw2, hq⟩
    · rintro ⟨w, hw1, hw2, hq⟩
      refine ⟨w, List.mem_filter.mpr ⟨hw1, ?_⟩, hq⟩
      rw [hfin] at hw2
      simpa using hw2
  · intro m
    rw [convertDiffModelToDeclcfg_eq]
    simp only
    refine (sortSlice_perm _ _).trans ?_
    have : (fun p => (traverseModelChannels p).2) = bundleRecords := funext hrec
    rw [this]

/-! ## Traversal order -/

/-- C20 (counterexample): `conflictingViewsReordered` is `conflictingViews` with the two
channels of its package visited in the other order, and the serializer gives the bundle
record `x` the image `i1` on the one and `i2` on the other. -/
theorem serializer_depends_on_channel_order :
    DiffModel.Reordered conflictingViews conflictingViewsReordered ∧
    (ConvertDiffModelToDeclcfg conflictingViews).Bundles.map (fun r => r.Image) = ["i1"] ∧
    (ConvertDiffModelToDeclcfg conflictingViewsReordered).Bundles.map (fun r => r.Image)
      = ["i2"] ∧
    ConvertDiffModelToDeclcfg conflictingViews
      ≠ ConvertDiffModelToDeclcfg conflictingViewsReordered := by
  refine ⟨?_, by decide, by decide, by decide⟩
  refine ⟨conflictingViews, List.Perm.refl _, ?_⟩
  refine List.Forall₂.cons ⟨rfl, rfl, rfl, rfl, rfl, ?_⟩ List.Forall₂.nil
  refine ⟨_, List.reverse_perm _, ?_⟩
  exact List.Forall₂.cons ⟨rfl, rfl, rfl, rfl, List.Perm.refl _⟩
    (List.Forall₂.cons ⟨rfl, rfl, rfl, rfl, List.Perm.refl _⟩ List.Forall₂.nil)

theorem forall₂_map_eq {α β γ : Type} {R : α → β → Prop} {f : α → γ} {g : β → γ}
    {l : List α} {l' : List β} (h : List.Forall₂ R l l')
    (hfg : ∀ a ∈ l, ∀ a', R a a' → f a = g a') : l.map f = l'.map g := by
  induction h with
  | nil => rfl
  | cons hr _ ih =>
    simp only [List.map_cons]
    rw [hfg _ (List.mem_cons_self _ _) _ hr,
      ih (fun a ha a' hra => hfg a (List.mem_cons_of_mem _ ha) a' hra)]

theorem forall₂_flatMap_perm {α β γ : Type} {R : α → β → Prop} {F : α → List γ}
    {G : β → List γ} {l : List α} {l' : List β} (h : List.Forall₂ R l l')
    (hFG : ∀ a ∈ l, ∀ a', R a a' → (F a).Perm (G a')) :
    (l.flatMap F).Perm (l'.flatMap G) := by
  induction h with
  | nil => exact List.Perm.refl _
  | cons hr _ ih =>
    simp only [List.flatMap_cons]
    exact List.Perm.append (hFG _ (List.mem_cons_self _ _) _ hr)
      (ih (fun a ha a' hra => hFG a (List.mem_cons_of_mem _ ha) a' hra))

/-- Sorting two permutations of a list whose elements have distinct keys gives one list. -/
theorem sortSlice_congr_key {α κ : Type} [LinearOrder κ] (key : α → κ)
    (less : α → α → Bool) (hless : ∀ a b, less a b = true ↔ key a < key b)
    {l l' : List α} (hp : l'.Perm l)
    (hinj : ∀ a ∈ l, ∀ b ∈ l, key a = key b → a = b) :
    sortSlice less l' = sortSlice less l := by
  have hpp : (sortSlice less l').Perm (sortSlice less l) :=
    ((sortSlice_perm less l').trans hp).trans (sortSlice_perm less l).symm
  refine List.Perm.eq_of_sorted ?_ (sortSlice_sorted_key key less hless l')
    (sortSlice_sorted_key key less hless l) hpp
  intro a b ha hb hab hba
  have ha' : a ∈ l := hp.mem_iff.mp ((sortSlice_perm less l').mem_iff.mp ha)
  have hb' : b ∈ l := (sortSlice_perm less l).mem_iff.mp hb
  exact hinj a ha' b hb' (le_antisymm hab hba)

theorem eq_of_nodup_map {α β : Type} {f : α → β} {l : List α} (hn : (l.map f).Nodup)
    {a b : α} (ha : a ∈ l) (hb : b ∈ l) (h : f a = f b) : a = b :=
  List.inj_on_of_nodup_map hn ha hb h

/-- A channel whose views have distinct names gives the same channel record whatever order
its bundle map is visited in. -/
theorem channelRecord_reordered {ch ch' : DiffChannel} (h : DiffChannel.Reordered ch ch')
    (hn : (ch.Bundles.values.map (fun v => v.Name)).Nodup) :
    channelRecord ch' = channelRecord ch := by
  obtain ⟨h1, h2, h3, h4⟩ := h
  have hperm : (ch'.Bundles.values.map entryOf).Perm (ch.Bundles.values.map entryOf) :=
    ((h4.map Prod.snd).map entryOf)
  have hs : sortSlice entryLess (ch'.Bundles.values.map entryOf)
      = sortSlice entryLess (ch.Bundles.values.map entryOf) := by
    apply sortSlice_congr_key (fun e : declcfg.ChannelEntry => e.Name) entryLess
      entryLess_iff hperm
    intro a ha b hb hab
    obtain ⟨v, hv, rfl⟩ := List.mem_map.mp ha
    obtain ⟨w, hw, rfl⟩ := List.mem_map.mp hb
    have : v = w := eq_of_nodup_map hn hv hw hab
    rw [this]
  unfold channelRecord
  rw [h1, h2, h3, hs]

/-- The views of a package are the same, up to order, whatever order its maps are visited
in. -/
theorem allViews_reordered {p p' : DiffPackage} (h : DiffPackage.Reordered p p') :
    (allViews p').Perm (allViews p) := by
  obtain ⟨_, _, _, _, l, hl, hf⟩ := h
  unfold allViews GoMap.values
  rw [List.flatMap_map, List.flatMap_map]
  have h1 : (l.flatMap (fun kv => kv.2.Bundles.map Prod.snd)).Perm
      (p.Channels.flatMap (fun kv => kv.2.Bundles.map Prod.snd)) :=
    List.Perm.flatMap_right _ hl
  have h2 : (l.flatMap (fun kv => kv.2.Bundles.map Prod.snd)).Perm
      (p'.Channels.flatMap (fun kv => kv.2.Bundles.map Prod.snd)) := by
    apply forall₂_flatMap_perm hf
    intro a _ a' hr
    exact (hr.2.2.2.2.map Prod.snd).symm
  exact h2.symm.trans h1

theorem sortSlice_properties_congr {l l' : List property.Property} (hp : l'.Perm l) :
    sortSlice propertyLess l' = sortSlice propertyLess l :=
  sortSlice_congr_key (fun a : property.Property => toLex (a.Type_, a.Value)) propertyLess
    propertyLess_iff hp (fun _ _ _ _ h => property_eq_of_key h)

theorem deduplicate_perm_of_mem {l l' : List property.Property}
    (h : ∀ q, q ∈ l' ↔ q ∈ l) : (property.Deduplicate l').Perm (property.Deduplicate l) := by
  rw [List.perm_ext_iff_of_nodup (deduplicate_nodup l') (deduplicate_nodup l)]
  intro q
  rw [mem_deduplicate, mem_deduplicate, h]

theorem mergedRecord_nil_of_filter {vs : List DiffBundle} {n : String} {v : DiffBundle}
    {rest : List DiffBundle} (hf : vs.filter (fun x => x.Name = n) = v :: rest) :
    mergedRecord [] vs n
      = some { newRecord v with Properties := (v :: rest).flatMap (fun x => x.Properties) } := by
  unfold mergedRecord
  simp [hf, GoMap.lookup, newRecord]

/-- When the views of one name create the same record, the finished record of a name does
not depend on the order of the views. -/
theorem finishBundle_merged_perm {vs vs' : List DiffBundle} (hp : vs'.Perm vs)
    (hagree : ∀ v ∈ vs, ∀ w ∈ vs, v.Name = w.Name → newRecord v = newRecord w)
    {n : String} {y : declcfg.Bundle} (hy : mergedRecord [] vs n = some y) :
    ∃ y', mergedRecord [] vs' n = some y' ∧ finishBundle y' = finishBundle y := by
  obtain ⟨v, rest, hf, hye⟩ := mergedRecord_nil_some hy
  have hfp : (vs'.filter (fun x => x.Name = n)).Perm (vs.filter (fun x => x.Name = n)) :=
    hp.filter _
  cases hf' : vs'.filter (fun x => x.Name = n) with
  | nil =>
    rw [hf', hf] at hfp
    exact absurd hfp.length_eq (by simp)
  | cons v' rest' =>
    refine ⟨_, mergedRecord_nil_of_filter hf', ?_⟩
    rw [hf', hf] at hfp
    have hv : v ∈ vs ∧ v.Name = n := by
      have : v ∈ vs.filter (fun x => x.Name = n) := by rw [hf]; exact List.mem_cons_self _ _
      obtain ⟨a, b⟩ := List.mem_filter.mp this
      exact ⟨a, by simpa using b⟩
    have hv' : v' ∈ vs ∧ v'.Name = n := by
      have : v' ∈ vs'.filter (fun x => x.Name = n) := by
        rw [hf']; exact List.mem_cons_self _ _
      obtain ⟨a, b⟩ := List.mem_filter.mp this
      exact ⟨hp.mem_iff.mp a, by simpa using b⟩
    have hrec : newRecord v' = newRecord v :=
      hagree v' hv'.1 v hv.1 (hv'.2.trans hv.2.symm)
    have hprops : sortSlice propertyLess
        (property.Deduplicate ((v' :: rest').flatMap (fun x => x.Properties)))
        = sortSlice propertyLess
          (property.Deduplicate ((v :: rest).flatMap (fun x => x.Properties))) := by
      apply sortSlice_properties_congr
      apply deduplicate_perm_of_mem
      intro q
      exact (List.Perm.flatMap_right (fun x : DiffBundle => x.Properties) hfp).mem_iff
    rw [hye]
    unfold finishBundle
    simp only [hrec, hprops]

/-- The bundle records of a package do not depend, up to order, on the order of its views
when the views of one name create the same record. -/
theorem bundleRecords_perm {p p' : DiffPackage} (hp : (allViews p').Perm (allViews p))
    (hagree : ∀ v ∈ allViews p, ∀ w ∈ allViews p, v.Name = w.Name →
      newRecord v = newRecord w) :
    (bundleRecords p').Perm (bundleRecords p) := by
  have hagree' : ∀ v ∈ allViews p', ∀ w ∈ allViews p', v.Name = w.Name →
      newRecord v = newRecord w :=
    fun v hv w hw => hagree v (hp.mem_iff.mp hv) w (hp.mem_iff.mp hw)
  rw [List.perm_ext_iff_of_nodup (bundleRecords_nodup p') (bundleRecords_nodup p)]
  intro x
  rw [mem_bundleRecords, mem_bundleRecords]
  constructor
  · rintro ⟨n, y, hy, rfl⟩
    obtain ⟨y', hy', he⟩ := finishBundle_merged_perm hp.symm hagree' hy
    exact ⟨n, y', hy', he.symm⟩
  · rintro ⟨n, y, hy, rfl⟩
    obtain ⟨y', hy', he⟩ := finishBundle_merged_perm hp hagree hy
    exact ⟨n, y', hy', he.symm⟩

theorem unambiguous_agree {m : DiffModel} (hu : Unambiguous m) {p : DiffPackage}
    (hp : p ∈ m.values) :
    ∀ v ∈ allViews p, ∀ w ∈ allViews p, v.Name = w.Name → newRecord v = newRecord w := by
  intro v hv w hw hn
  obtain ⟨h1, h2, h3, h4⟩ := hu.view_agree p hp v hv w hw hn
  unfold newRecord
  rw [hn, hu.view_owner p hp v hv, hu.view_owner p hp w hw, h1, h2, h3, h4]

theorem bundleRecord_package {p : DiffPackage} {r : declcfg.Bundle}
    (hr : r ∈ bundleRecords p) : ∃ v ∈ allViews p, r.Package = v.Package := by
  obtain ⟨n, y, hy, rfl⟩ := (mem_bundleRecords p r).mp hr
  obtain ⟨v, rest, hf, hye⟩ := mergedRecord_nil_some hy
  have hv : v ∈ (allViews p).filter (fun x => x.Name = n) := by
    rw [hf]; exact List.mem_cons_self _ _
  refine ⟨v, (List.mem_filter.mp hv).1, ?_⟩
  rw [hye]
  rfl

theorem mem_values_of_mem {β : Type} {m : GoMap β} {a : String × β} (h : a ∈ m) :
    a.2 ∈ m.values :=
  List.mem_map_of_mem Prod.snd h

theorem packageRecord_reordered {p p' : DiffPackage} (h : DiffPackage.Reordered p p') :
    packageRecord p' = packageRecord p := by
  obtain ⟨h1, h2, h3, h4, _⟩ := h
  unfold packageRecord
  rw [h1, h2, h3, h4]

theorem channelRecords_reordered {m : DiffModel} (hu : Unambiguous m) {p p' : DiffPackage}
    (hp : p ∈ m.values) (h : DiffPackage.Reordered p p') :
    (p'.Channels.values.map channelRecord).Perm (p.Channels.values.map channelRecord) := by
  obtain ⟨_, _, _, _, l, hl, hf⟩ := h
  have h1 : l.map (fun kv => channelRecord kv.2)
      = p'.Channels.map (fun kv => channelRecord kv.2) := by
    apply forall₂_map_eq hf
    intro a ha a' hr
    have ha' : a.2 ∈ p.Channels.values := mem_values_of_mem (hl.mem_iff.mp ha)
    exact (channelRecord_reordered hr.2 (hu.view_names p hp a.2 ha')).symm
  have h2 : (l.map (fun kv => channelRecord kv.2)).Perm
      (p.Channels.map (fun kv => channelRecord kv.2)) := hl.map _
  unfold GoMap.values
  rw [List.map_map, List.map_map]
  rw [h1] at h2
  exact h2

/-- C20 (amended): on a catalog whose names identify its objects and in which the views of
one bundle agree, the serializer returns the same output whatever order the package map,
the channel maps and the bundle maps are visited in. -/
theorem serializer_order_independent (m m' : DiffModel) (hu : Unambiguous m)
    (hr : DiffModel.Reordered m m') :
    ConvertDiffModelToDeclcfg m' = ConvertDiffModelToDeclcfg m := by
  obtain ⟨l, hl, hf⟩ := hr
  have hmem : ∀ a ∈ l, a.2 ∈ m.values := fun a ha => mem_values_of_mem (hl.mem_iff.mp ha)
  -- the three unsorted lists of records are permutations of each other
  have hpk : (m'.values.map packageRecord).Perm (m.values.map packageRecord) := by
    have h1 : l.map (fun kv => packageRecord kv.2) = m'.map (fun kv => packageRecord kv.2) :=
      forall₂_map_eq hf (fun a _ a' hra => (packageRecord_reordered hra.2).symm)
    have h2 : (l.map (fun kv => packageRecord kv.2)).Perm
        (m.map (fun kv => packageRecord kv.2)) := hl.map _
    unfold GoMap.values
    rw [List.map_map, List.map_map]
    rw [h1] at h2
    exact h2
  have hch : (m'.values.flatMap (fun p => p.Channels.values.map channelRecord)).Perm
      (m.values.flatMap (fun p => p.Channels.values.map channelRecord)) := by
    unfold GoMap.values
    rw [List.flatMap_map, List.flatMap_map]
    have h1 := forall₂_flatMap_perm
      (F := fun kv : String × DiffPackage => kv.2.Channels.values.map channelRecord)
      (G := fun kv : String × DiffPackage => kv.2.Channels.values.map channelRecord) hf
      (fun a ha a' hra => (channelRecords_reordered hu (hmem a ha) hra.2).symm)
    exact h1.symm.trans (List.Perm.flatMap_right _ hl)
  have hbn : (m'.values.flatMap bundleRecords).Perm (m.values.flatMap bundleRecords) := by
    unfold GoMap.values
    rw [List.flatMap_map, List.flatMap_map]
    have h1 := forall₂_flatMap_perm
      (F := fun kv : String × DiffPackage => bundleRecords kv.2)
      (G := fun kv : String × DiffPackage => bundleRecords kv.2) hf
      (fun a ha a' hra => (bundleRecords_perm (allViews_reordered hra.2)
        (unambiguous_agree hu (hmem a ha))).symm)
    exact h1.symm.trans (List.Perm.flatMap_right _ hl)
  rw [convertDiffModelToDeclcfg_eq, convertDiffModelToDeclcfg_eq]
  have e1 : sortSlice packageLess (m'.values.map packageRecord)
      = sortSlice packageLess (m.values.map packageRecord) := by
    apply sortSlice_congr_key (fun a : declcfg.Package => a.Name) packageLess
      packageLess_iff hpk
    intro a ha b hb hab
    obtain ⟨p, hp, rfl⟩ := List.mem_map.mp ha
    obtain ⟨q, hq, rfl⟩ := List.mem_map.mp hb
    have : p = q := eq_of_nodup_map hu.package_names hp hq hab
    rw [this]
  have e2 : sortSlice channelLess
        (m'.values.flatMap (fun p => p.Channels.values.map channelRecord))
      = sortSlice channelLess
        (m.values.flatMap (fun p => p.Channels.values.map channelRecord)) := by
    apply sortSlice_congr_key (fun a : declcfg.Channel => toLex (a.Package, a.Name))
      channelLess channelLess_iff hch
    intro a ha b hb hab
    have hab2 : (a.Package, a.Name) = (b.Package, b.Name) := hab
    simp only [Prod.mk.injEq] at hab2
    obtain ⟨p, hp, hap⟩ := List.mem_flatMap.mp ha
    obtain ⟨q, hq, hbq⟩ := List.mem_flatMap.mp hb
    obtain ⟨ch, hch1, rfl⟩ := List.mem_map.mp hap
    obtain ⟨ch2, hch2, rfl⟩ := List.mem_map.mp hbq
    have hpq : p = q := by
      apply eq_of_nodup_map hu.package_names hp hq
      have h1 := hu.channel_owner p hp ch hch1
      have h2 := hu.channel_owner q hq ch2 hch2
      have h3 : ch.Package = ch2.Package := hab2.1
      show p.Name = q.Name
      rw [← h1, ← h2, h3]
    subst hpq
    have : ch = ch2 := eq_of_nodup_map (hu.channel_names p hp) hch1 hch2 hab2.2
    rw [this]
  have e3 : sortSlice bundleLess (m'.values.flatMap bundleRecords)
      = sortSlice bundleLess (m.values.flatMap bundleRecords) := by
    apply sortSlice_congr_key (fun a : declcfg.Bundle => toLex (a.Package, a.Name))
      bundleLess bundleLess_iff hbn
    intro a ha b hb hab
    have hab2 : (a.Package, a.Name) = (b.Package, b.Name) := hab
    simp only [Prod.mk.injEq] at hab2
    obtain ⟨p, hp, hap⟩ := List.mem_flatMap.mp ha
    obtain ⟨q, hq, hbq⟩ := List.mem_flatMap.mp hb
    obtain ⟨v, hv, hav⟩ := bundleRecord_package hap
    obtain ⟨w, hw, hbw⟩ := bundleRecord_package hbq
    have hpq : p = q := by
      apply eq_of_nodup_map hu.package_names hp hq
      show p.Name = q.Name
      rw [← hu.view_owner p hp v hv, ← hu.view_owner q hq w hw, ← hav, ← hbw, hab2.1]
    subst hpq
    have hnd : ((bundleRecords p).map (fun r => r.Name)).Nodup := by
      rw [bundleRecords_names]
      exact keys_foldl_mergeView_nodup _ [] (by simp [GoMap.keys])
    exact eq_of_nodup_map hnd hap hbq hab2.2
  rw [e1, e2, e3]

/-- Witness of C20 (amended): `twoChannelCatalog` is unambiguous, and visiting its two
channels in the other order gives the same output. -/
theorem serializer_order_independent_witness :
    Unambiguous twoChannelCatalog ∧
    DiffModel.Reordered twoChannelCatalog twoChannelCatalogReordered ∧
    ConvertDiffModelToDeclcfg twoChannelCatalogReordered
      = ConvertDiffModelToDeclcfg twoChannelCatalog :=
  have hu : Unambiguous twoChannelCatalog :=
    ⟨by decide, by decide, by decide, by decide, by decide, by decide⟩
  have hr : DiffModel.Reordered twoChannelCatalog twoChannelCatalogReordered :=
    ⟨twoChannelCatalog, List.Perm.refl _,
      List.Forall₂.cons
        ⟨rfl, rfl, rfl, rfl, rfl, _, List.reverse_perm _,
          List.Forall₂.cons ⟨rfl, rfl, rfl, rfl, List.Perm.refl _⟩
            (List.Forall₂.cons ⟨rfl, rfl, rfl, rfl, List.Perm.refl _⟩ List.Forall₂.nil)⟩
        List.Forall₂.nil⟩
  ⟨hu, hr, serializer_order_independent twoChannelCatalog twoChannelCatalogReordered hu hr⟩

theorem specView_singular {L : Lib} {cfg : declcfg.DeclarativeConfig}
    (hv : ValidInput L cfg) (c c' : declcfg.Channel) (e e' : declcfg.ChannelEntry)
    (hc : c'.Package = c.Package) (he : e'.Name = e.Name) :
    (specView L cfg c e).Image = (specView L cfg c' e').Image ∧
    (specView L cfg c e).RelatedImages = (specView L cfg c' e').RelatedImages ∧
    (specView L cfg c e).CsvJSON = (specView L cfg c' e').CsvJSON ∧
    (specView L cfg c e).Objects = (specView L cfg c' e').Objects := by
  by_cases hex : ∃ b ∈ cfg.Bundles, b.Package = c.Package ∧ b.Name = e.Name
  · obtain ⟨b, hb, hbp, hbn⟩ := hex
    obtain ⟨pv, hd, h1⟩ := specView_filled hv c e hb hbp hbn
    obtain ⟨pv', hd', h2⟩ := specView_filled hv c' e' hb (hbp.trans hc.symm) (hbn.trans he.symm)
    rw [h1, h2]
    exact ⟨rfl, rfl, rfl, rfl⟩
  · have hnone : ∀ (d : declcfg.Channel) (f : declcfg.ChannelEntry),
        d.Package = c.Package → f.Name = e.Name →
        specView L cfg d f = DiffBundle.Normalize L (mkStub d.Package d f) := by
      intro d f hd hf
      unfold specView
      rw [foldl_fillView_none]
      intro b hb hbn
      obtain ⟨hb1, hb2⟩ := List.mem_filter.mp hb
      exact hex ⟨b, hb1, (by simpa using hb2 : b.Package = d.Package).trans hd,
        hbn.trans hf⟩
    rw [hnone c e rfl rfl, hnone c' e' hc he]
    exact ⟨rfl, rfl, rfl, rfl⟩

/-- Every catalog the builder returns is unambiguous, so its serialization does not depend
on the traversal order. -/
theorem convert_ok_unambiguous {L : Lib} {cfg : declcfg.DeclarativeConfig} {m : DiffModel}
    (h : ConvertDeclcfgToDiffModel L cfg = .ok m) : Unambiguous m := by
  obtain ⟨hv, hm⟩ := convert_ok h
  have hvals : m.values = cfg.Packages.map (fun p => specPackage L cfg p) := by
    rw [hm, values_map_pair]
  have hchans : ∀ p ∈ cfg.Packages, ∀ ch ∈ (specPackage L cfg p).Channels.values,
      (∃ c ∈ cfg.Channels, c.Package = p.Name ∧ ch = specChannel L cfg c) ∨
        ch = { Name := p.DefaultChannel, Package := p.Name } := by
    intro p hp ch hch
    rw [specPackage_eq hv hp] at hch
    simp only [GoMap.values, List.map_append, List.map_map, List.mem_append, List.mem_map,
      List.mem_filter, decide_eq_true_eq, Function.comp_apply] at hch
    rcases hch with ⟨c, ⟨hc, hcp⟩, rfl⟩ | ⟨kv, hkv, rfl⟩
    · exact Or.inl ⟨c, hc, hcp, rfl⟩
    · right
      unfold synthChannels at hkv
      by_cases hn : needsDefault cfg p
      · rw [if_pos hn] at hkv
        simp only [List.mem_singleton] at hkv
        rw [hkv]
      · rw [if_neg hn] at hkv
        simp at hkv
  have hviews : ∀ p ∈ cfg.Packages, ∀ v ∈ allViews (specPackage L cfg p),
      ∃ c ∈ cfg.Channels, c.Package = p.Name ∧ ∃ e ∈ c.Entries, v = specView L cfg c e := by
    intro p hp v hvm
    rw [allViews_specPackage hv hp] at hvm
    obtain ⟨c, hc, hve⟩ := List.mem_flatMap.mp hvm
    obtain ⟨e, he, rfl⟩ := List.mem_map.mp hve
    obtain ⟨hc1, hc2⟩ := List.mem_filter.mp hc
    exact ⟨c, hc1, by simpa using hc2, e, he, rfl⟩
  refine ⟨?_, ?_, ?_, ?_, ?_, ?_⟩
  · rw [hvals, List.map_map]
    have : cfg.Packages.map ((fun p => p.Name) ∘ fun p => specPackage L cfg p)
        = cfg.Packages.map (fun p => p.Name) := by
      apply List.map_congr_left
      intro p _
      exact specPackage_name L cfg p
    rw [this]
    exact hv.package_unique
  · intro mp hmp ch hch
    rw [hvals] at hmp
    obtain ⟨p, hp, rfl⟩ := List.mem_map.mp hmp
    rw [specPackage_name]
    rcases hchans p hp ch hch with ⟨c, _, hcp, rfl⟩ | rfl
    · rw [(specChannel_fields L cfg c).2.1, hcp]
    · rfl
  · intro mp hmp
    rw [hvals] at hmp
    obtain ⟨p, hp, rfl⟩ := List.mem_map.mp hmp
    have hk := specPackage_channels_nodup hv hp
    have hkn : (specPackage L cfg p).Channels.values.map (fun ch => ch.Name)
        = (specPackage L cfg p).Channels.keys := by
      unfold GoMap.values GoMap.keys
      rw [List.map_map]
      apply List.map_congr_left
      intro kv hkv
      have hch : kv.2 ∈ (specPackage L cfg p).Channels.values := mem_values_of_mem hkv
      rw [specPackage_eq hv hp] at hkv
      rcases List.mem_append.mp hkv with hc | hc
      · obtain ⟨c, _, rfl⟩ := List.mem_map.mp hc
        exact (specChannel_fields L cfg c).1
      · unfold synthChannels at hc
        by_cases hn : needsDefault cfg p
        · rw [if_pos hn] at hc
          simp only [List.mem_singleton] at hc
          rw [hc]
          rfl
        · rw [if_neg hn] at hc
          simp at hc
    rw [hkn]
    exact hk
  · intro mp hmp ch hch
    rw [hvals] at hmp
    obtain ⟨p, hp, rfl⟩ := List.mem_map.mp hmp
    rcases hchans p hp ch hch with ⟨c, hc, _, rfl⟩ | rfl
    · rw [specChannel_eq L cfg c (hv.entry_unique c hc)]
      simp only [GoMap.values, List.map_map]
      have : c.Entries.map ((fun v => v.Name) ∘ Prod.snd ∘ fun e => (e.Name, specView L cfg c e))
          = c.Entries.map (fun e => e.Name) := by
        apply List.map_congr_left
        intro e _
        exact (specView_entry L cfg c e).2.1
      rw [this]
      exact hv.entry_unique c hc
    · simp [GoMap.values]
  · intro mp hmp v hvm
    rw [hvals] at hmp
    obtain ⟨p, hp, rfl⟩ := List.mem_map.mp hmp
    obtain ⟨c, _, hcp, e, _, rfl⟩ := hviews p hp v hvm
    rw [specPackage_name, (specView_entry L cfg c e).2.2, hcp]
  · intro mp hmp v hvm w hwm hn
    rw [hvals] at hmp
    obtain ⟨p, hp, rfl⟩ := List.mem_map.mp hmp
    obtain ⟨c, _, hcp, e, _, rfl⟩ := hviews p hp v hvm
    obtain ⟨c', _, hcp', e', _, rfl⟩ := hviews p hp w hwm
    apply specView_singular hv c c' e e' (hcp'.trans hcp.symm)
    rw [← (specView_entry L cfg c' e').2.1, ← (specView_entry L cfg c e).2.1]
    exact hn.symm

end OcMirror
